import Mathlib

/-!
Verification of the iobit bit-level codec (fixed-buffer Writer from
`writer.go` / `src/unnamed/part_001`, Reader from `reader.go`).

Modelling conventions for Go machine arithmetic:
* `uint64` / `uint32` / `byte` values are `Nat`s kept below `2^64` / `2^32` /
  `2^8` by explicit masking exactly where the Go code performs a conversion.
* Go unsigned subtraction wraps modulo `2^64`; it is modelled by `wsub`.
* Go shifts accept any count; a count at or above the operand width yields 0.
  They are modelled by `shl64`/`shr64`/`shl32`/`shr32`/`shl8`, with the
  explicit count guard so that the functions stay executable even when a
  wrapped subtraction produces an astronomically large count.
* Go unsigned addition also wraps at the word size; additions are wrapped
  (`% 2^64` / `% 2^32`) wherever the source operates on a full-width word.
  Cursor/size bookkeeping (`fill`, `idx`) stays in `Nat`: every state
  considered by the theorems keeps those counters far below `2^64`, where
  wrapping addition and `Nat` addition agree.
* Byte slices are `List Nat`; Go's guarded in-place stores become `List.set`
  under the same guard as the source.
-/

set_option maxHeartbeats 1000000

namespace Iobit

/-- Go uint64 subtraction `a - b`, wrapping modulo `2^64` (operands < 2^64). -/
def wsub (a b : Nat) : Nat := (2 ^ 64 + a - b) % 2 ^ 64

/-- Go uint64 left shift: counts at or above 64 give 0. -/
def shl64 (x n : Nat) : Nat := if n < 64 then x * 2 ^ n % 2 ^ 64 else 0

/-- Go uint64 logical right shift: counts at or above 64 give 0 (operand < 2^64). -/
def shr64 (x n : Nat) : Nat := if n < 64 then x / 2 ^ n else 0

/-- Go uint32 left shift. -/
def shl32 (x n : Nat) : Nat := if n < 32 then x * 2 ^ n % 2 ^ 32 else 0

/-- Go uint32 logical right shift (operand < 2^32). -/
def shr32 (x n : Nat) : Nat := if n < 32 then x / 2 ^ n else 0

/-- Go byte (uint8) left shift. -/
def shl8 (x n : Nat) : Nat := if n < 8 then x * 2 ^ n % 2 ^ 8 else 0

/-- Go bitwise complement `^m` on uint32: for `m < 2^32` every bit below 32 is
flipped, which is the same as `2^32 - 1 - m`. -/
def compl32 (m : Nat) : Nat := 2 ^ 32 - 1 - m

/-- Go bitwise complement `^m` on uint64. -/
def compl64 (m : Nat) : Nat := 2 ^ 64 - 1 - m

/-- Read a byte of a buffer (defaults to 0; all accesses proved in bounds). -/
def getByte (l : List Nat) (i : Nat) : Nat := l.getD i 0

/-- The load `binary.BigEndian.Uint64(src[k:])`: 8 bytes at offset `k` as a
big-endian 64-bit word. -/
def be64 (l : List Nat) (k : Nat) : Nat :=
  getByte l k * 2 ^ 56 + getByte l (k + 1) * 2 ^ 48 + getByte l (k + 2) * 2 ^ 40 +
    getByte l (k + 3) * 2 ^ 32 + getByte l (k + 4) * 2 ^ 24 + getByte l (k + 5) * 2 ^ 16 +
    getByte l (k + 6) * 2 ^ 8 + getByte l (k + 7)

/-- The function `bswap32` of reader.go:
`val>>24 | val>>8&0xFF00 | val<<8&0xFF0000 | val<<24` on uint32. -/
def bswap32 (val : Nat) : Nat :=
  shr32 val 24 ||| (shr32 val 8 &&& 0xFF00) ||| (shl32 val 8 &&& 0xFF0000) ||| shl32 val 24

/-- Error sentinels `ErrOverflow` / `ErrUnderflow`. -/
inductive BitErr where
  | overflow
  | underflow
deriving DecidableEq

/-- The fixed-buffer `Writer` of part_001: destination bytes, the 64-bit cache
accumulator, the pending-bit count `fill` and the byte index `idx`. -/
structure Writer where
  dst : List Nat
  cache : Nat := 0
  fill : Nat := 0
  idx : Nat := 0
deriving DecidableEq

/-- The constructor `NewWriter`. -/
def NewWriter (dst : List Nat) : Writer := { dst := dst }

/-- The expression `byte(cache >> n)`. -/
def cacheByte (c n : Nat) : Nat := c / 2 ^ n % 2 ^ 8

/-- The pre-drain block shared by `PutUint32` and `PutUint32Le` (guarded by
`fill+bits > 64` at the call site): store the top 4 cache bytes big-endian at
`idx` provided `idx+4 <= len(dst)`, advance `idx` by 4, shift the cache left
by 32 and drop 32 from `fill`. -/
def drain4 (w : Writer) : Writer :=
  { w with
    dst :=
      if w.idx + 4 ≤ w.dst.length then
        ((((w.dst.set w.idx (cacheByte w.cache 56)).set (w.idx + 1)
              (cacheByte w.cache 48)).set (w.idx + 2)
            (cacheByte w.cache 40)).set (w.idx + 3) (cacheByte w.cache 32))
      else w.dst
    idx := w.idx + 4
    cache := shl64 w.cache 32
    fill := wsub w.fill 32 }

/-- Method `Writer.PutUint32` (big-endian put of up to 32 bits). -/
def Writer.PutUint32 (w : Writer) (bits val : Nat) : Writer :=
  let u := val % 2 ^ 32
  let w := if 64 < w.fill + bits then drain4 w else w
  let u := u &&& compl64 (shl64 (2 ^ 64 - 1) bits)
  let u := shl64 u (wsub (wsub 64 w.fill) bits)
  { w with fill := w.fill + bits, cache := w.cache ||| u }

/-- Method `Writer.PutUint32Le` (little-endian put of up to 32 bits). -/
def Writer.PutUint32Le (w : Writer) (bits val : Nat) : Writer :=
  let val := bswap32 (val % 2 ^ 32)
  let left := bits &&& 7
  let right := bits &&& 0xF8
  let sub := shr32 val (wsub 24 right)
  let w := if 64 < w.fill + bits then drain4 w else w
  let mask := shl32 (2 ^ 32 - 1) left
  let sub := sub &&& compl32 mask
  let val := shr32 val (wsub 32 bits)
  let val := val &&& mask
  let u := (val + sub) % 2 ^ 32
  let u := shl64 u (wsub (wsub 64 w.fill) bits)
  { w with fill := w.fill + bits, cache := w.cache ||| u }

/-- Method `Writer.PutUint64`: high chunk first (any remainder above 32 bits),
then the low 32 bits. -/
def Writer.PutUint64 (w : Writer) (bits val : Nat) : Writer :=
  let val := val % 2 ^ 64
  if 32 < bits then
    let w := w.PutUint32 (bits - 32) (shr64 val 32)
    w.PutUint32 32 (val &&& 0xFFFFFFFF)
  else
    w.PutUint32 bits (val % 2 ^ 32)

/-- Method `Writer.PutUint64Le`: low 32 bits first, then the remainder. -/
def Writer.PutUint64Le (w : Writer) (bits val : Nat) : Writer :=
  let val := val % 2 ^ 64
  if 32 < bits then
    let w := w.PutUint32Le 32 (val &&& 0xFFFFFFFF)
    w.PutUint32Le (bits - 32) (shr64 val 32)
  else
    w.PutUint32Le bits (val % 2 ^ 32)

/-- The drain loop of `Writer.Flush`
(`for fill >= 8 && idx < len(dst) { dst[idx] = byte(cache>>56); ... }`),
written with explicit fuel; `fill` is always enough fuel because every
iteration removes 8 bits from `fill`. -/
def FlushLoop : Nat → Writer → Writer
  | 0, w => w
  | fuel + 1, w =>
    if 8 ≤ w.fill ∧ w.idx < w.dst.length then
      FlushLoop fuel
        { w with
          dst := w.dst.set w.idx (cacheByte w.cache 56)
          idx := w.idx + 1
          cache := shl64 w.cache 8
          fill := w.fill - 8 }
    else w

/-- Method `Writer.Flush`: drain whole bytes, then report `ErrOverflow` when
`idx + fill > len(dst)`, else `ErrUnderflow` when `fill != 0`, else no error. -/
def Writer.Flush (w : Writer) : Writer × Option BitErr :=
  let w := FlushLoop w.fill w
  if w.dst.length < w.idx + w.fill then (w, some .overflow)
  else if w.fill ≠ 0 then (w, some .underflow)
  else (w, none)

/-- Method `Writer.Index`: the cursor in bits (`idx<<3 + fill`). -/
def Writer.Index (w : Writer) : Nat := 8 * w.idx + w.fill

/-- Method `Writer.Bits`: remaining capacity in bits. -/
def Writer.Bits (w : Writer) : Nat :=
  8 * w.dst.length - min (8 * w.idx + w.fill) (8 * w.dst.length)

/-- Method `Writer.Bytes` (part_001, the version the spec describes):
`skip := idx + fill>>3`; empty when `skip >= len(dst)`, else `dst[skip:len(dst)]`. -/
def Writer.Bytes (w : Writer) : List Nat :=
  let skip := w.idx + w.fill / 2 ^ 3
  if w.dst.length ≤ skip then [] else w.dst.drop skip

/-- Method `Writer.Reset`: `fill = 0; idx = 0` (the cache field is not touched
by the source). -/
def Writer.Reset (w : Writer) : Writer := { w with fill := 0, idx := 0 }

/-- The `Reader` of reader.go: (possibly padded) source bytes, bit cursor
`idx`, safe window bound `max`, and the logical byte size `size`. -/
structure Reader where
  src : List Nat
  idx : Nat := 0
  max : Nat := 0
  size : Nat := 0
deriving DecidableEq

/-- The constructor `NewReader`: sources shorter than 8 bytes are replaced by a
private zero-padded 8-byte copy with `max = 0`. -/
def NewReader (src : List Nat) : Reader :=
  if 8 ≤ src.length then
    { src := src, max := src.length - 8, size := src.length }
  else
    { src := src ++ List.replicate (8 - src.length) 0, size := src.length }

/-- The clamped window offset `skip = min(idx>>5<<2, max)` used by the 32-bit
loads. -/
def loadSkip (r : Reader) : Nat := min (r.idx / 2 ^ 5 * 2 ^ 2) r.max

/-- Method `Reader.Uint32` (big-endian get of up to 32 bits). -/
def Reader.Uint32 (r : Reader) (bits : Nat) : Nat × Reader :=
  let skip := loadSkip r
  let val := be64 r.src skip
  let val := shl64 val (r.idx - skip * 2 ^ 3)
  let val := shr64 val (wsub 64 bits)
  (val % 2 ^ 32, { r with idx := r.idx + bits })

/-- Method `Reader.Bit`: single-bit get with its own byte-granular clamp
`skip = min(idx>>3, max+7)`. -/
def Reader.Bit (r : Reader) : Bool × Reader :=
  let skip := min (r.idx / 2 ^ 3) (r.max + 7)
  let val := getByte r.src skip
  let val := shl8 val (r.idx - skip * 2 ^ 3)
  let val := val / 2 ^ 7
  (val != 0, { r with idx := r.idx + 1 })

/-- Method `Reader.Uint64`: above 32 bits, a 32-bit get shifted left by the
remainder plus a second get of the remainder. -/
def Reader.Uint64 (r : Reader) (bits : Nat) : Nat × Reader :=
  if 32 < bits then
    let p := r.Uint32 32
    let val := shl64 p.1 (bits - 32)
    let q := p.2.Uint32 (bits - 32)
    ((val + q.1) % 2 ^ 64, q.2)
  else
    r.Uint32 bits

/-- The function `extend` of reader.go: `m := ^uint64(0) << (bits-1);
(v ^ m) - m` in uint64 arithmetic (`bits-1` also wraps when `bits = 0`). -/
def extend (v : Nat) (bits : Nat) : Nat :=
  let m := shl64 (2 ^ 64 - 1) (wsub bits 1)
  wsub (v % 2 ^ 64 ^^^ m) m

/-- Method `Reader.Int64`: sign-extended 64-bit get (result is the int64 bit
pattern). -/
def Reader.Int64 (r : Reader) (bits : Nat) : Nat × Reader :=
  let p := r.Uint64 bits
  (extend p.1 bits, p.2)

/-- Method `Reader.Uint32Le` (little-endian get of up to 32 bits). -/
def Reader.Uint32Le (r : Reader) (bits : Nat) : Nat × Reader :=
  let skip := loadSkip r
  let offset := r.idx - skip * 2 ^ 3
  let idx2 := r.idx + bits
  let big := be64 r.src skip
  let val := bswap32 (shl64 big offset / 2 ^ 32)
  let left := bits &&& 7
  let right := bits &&& 0xF8
  let sub := shr32 val (8 - left)
  let sub := sub &&& shl32 (compl32 (shl32 (2 ^ 32 - 1) left)) right
  let val := val &&& compl32 (shl32 (2 ^ 32 - 1) right)
  ((sub + val) % 2 ^ 32, { r with idx := idx2 })

/-- Method `Reader.Uint64Le`: low 32-bit get first, then the remainder shifted
up by 32. -/
def Reader.Uint64Le (r : Reader) (bits : Nat) : Nat × Reader :=
  if 32 < bits then
    let p := r.Uint32Le 32
    let q := p.2.Uint32Le (bits - 32)
    ((p.1 + shl64 q.1 32) % 2 ^ 64, q.2)
  else
    r.Uint32Le bits

/-- Method `Reader.Int64Le`. -/
def Reader.Int64Le (r : Reader) (bits : Nat) : Nat × Reader :=
  let p := r.Uint64Le bits
  (extend p.1 bits, p.2)

/-- Method `Reader.Skip`. -/
def Reader.Skip (r : Reader) (bits : Nat) : Reader := { r with idx := r.idx + bits }

/-- Method `Reader.Index`. -/
def Reader.Index (r : Reader) : Nat := r.idx

/-- Method `Reader.Bits`: `size<<3 - min(idx, size<<3)`. -/
def Reader.Bits (r : Reader) : Nat := 8 * r.size - min r.idx (8 * r.size)

/-- Method `Reader.Check`: `ErrOverflow` when the cursor passed the logical
end. -/
def Reader.Check (r : Reader) : Option BitErr :=
  if 8 * r.size < r.idx then some .overflow else none

/-- Method `Reader.Reset`. -/
def Reader.Reset (r : Reader) : Reader := { r with idx := 0 }

/-- Interpretation of an int64 bit pattern as a mathematical integer. -/
def toInt64 (x : Nat) : Int := if x < 2 ^ 63 then (x : Int) else (x : Int) - 2 ^ 64

/-- The mathematical two's-complement value of the low `w` bits of `v`. -/
def signedVal (w v : Nat) : Int :=
  if v % 2 ^ w < 2 ^ (w - 1) then ((v % 2 ^ w : Nat) : Int)
  else ((v % 2 ^ w : Nat) : Int) - 2 ^ w

/-! Specification-side vocabulary: bitstreams.  A buffer denotes the list of
its bits, most-significant bit of each byte first; a big-endian field of width
`w` denotes the `w` low bits of its value, most significant first. -/

/-- The `w`-bit big-endian bit pattern of `v` (most significant first). -/
def natBits (w v : Nat) : List Bool := (List.range w).map fun i => v.testBit (w - 1 - i)

/-- Value of a bit list read as a big-endian number. -/
def bitsVal (l : List Bool) : Nat := l.foldl (fun a b => 2 * a + b.toNat) 0

/-- All bits of a byte buffer, in stream order. -/
def bytesBits (l : List Nat) : List Bool := l.foldr (fun b acc => natBits 8 b ++ acc) []

/-- The bit pattern produced for a `w`-bit little-endian field of value `v`:
whole low-order bytes first (each byte still most-significant-bit first),
then the remaining `w % 8` high bits. -/
def leBits (w v : Nat) : List Bool :=
  ((List.range (w / 8)).map fun i => natBits 8 (v / 2 ^ (8 * i) % 2 ^ 8)).flatten ++
    natBits (w % 8) (v / 2 ^ (8 * (w / 8)))

/-- Decode a little-endian field bit pattern back to its value. -/
def leDecode : List Bool → Nat
  | b0 :: b1 :: b2 :: b3 :: b4 :: b5 :: b6 :: b7 :: rest =>
    bitsVal [b0, b1, b2, b3, b4, b5, b6, b7] + 2 ^ 8 * leDecode rest
  | l => bitsVal l

/-- The big-endian value of the `w` bits of stream `s` starting at bit `i`. -/
def sliceBE (s : List Bool) (i w : Nat) : Nat := bitsVal ((s.drop i).take w)

/-- The little-endian value of the `w` bits of stream `s` starting at bit `i`. -/
def sliceLE (s : List Bool) (i w : Nat) : Nat := leDecode ((s.drop i).take w)

/-- A field: an endianness, a width and a (64-bit) value. -/
inductive Endian where
  | big
  | little
deriving DecidableEq

/-- One write/read unit of the round-trip scenario. -/
structure Field where
  en : Endian
  w : Nat
  v : Nat
deriving DecidableEq

/-- The bit pattern a field contributes to the stream. -/
def fieldBits (f : Field) : List Bool :=
  match f.en with
  | .big => natBits f.w f.v
  | .little => leBits f.w f.v

/-- Write one field with the put of its endianness. -/
def putField (w : Writer) (f : Field) : Writer :=
  match f.en with
  | .big => w.PutUint64 f.w f.v
  | .little => w.PutUint64Le f.w f.v

/-- Write a sequence of fields. -/
def putFields (w : Writer) (fs : List Field) : Writer := fs.foldl putField w

/-- Read one field back with the unsigned get of its endianness. -/
def readField (r : Reader) (f : Field) : Nat × Reader :=
  match f.en with
  | .big => r.Uint64 f.w
  | .little => r.Uint64Le f.w

/-- Read a sequence of fields back (unsigned). -/
def readFields (r : Reader) : List Field → List Nat
  | [] => []
  | f :: fs => (readField r f).1 :: readFields (readField r f).2 fs

/-- Read one field back with the signed get of its endianness. -/
def readFieldSigned (r : Reader) (f : Field) : Nat × Reader :=
  match f.en with
  | .big => r.Int64 f.w
  | .little => r.Int64Le f.w

/-- Read a sequence of fields back (signed, as mathematical integers). -/
def readFieldsSigned (r : Reader) : List Field → List Int
  | [] => []
  | f :: fs =>
    toInt64 (readFieldSigned r f).1 :: readFieldsSigned (readFieldSigned r f).2 fs

/-- Total width of a field sequence in bits. -/
def totalWidth (fs : List Field) : Nat := (fs.map Field.w).sum

/-- A generic put operation (used to quantify over "any sequence of puts"). -/
inductive Put where
  | u32 (bits val : Nat)
  | u32le (bits val : Nat)
  | u64 (bits val : Nat)
  | u64le (bits val : Nat)
deriving DecidableEq

/-- Apply one put operation. -/
def applyPut (w : Writer) (p : Put) : Writer :=
  match p with
  | .u32 bits val => w.PutUint32 bits val
  | .u32le bits val => w.PutUint32Le bits val
  | .u64 bits val => w.PutUint64 bits val
  | .u64le bits val => w.PutUint64Le bits val

/-- Apply a sequence of put operations. -/
def applyPuts (w : Writer) (ps : List Put) : Writer := ps.foldl applyPut w

/-- Apply a sequence of big-endian 32-bit puts (width/value pairs). -/
def applyPuts32 (w : Writer) (l : List (Nat × Nat)) : Writer :=
  l.foldl (fun w p => w.PutUint32 p.1 p.2) w

/-- Abstraction: the bits committed so far by a writer (flushed bytes followed
by the pending top `fill` bits of the cache). -/
def Writer.stream (w : Writer) : List Bool :=
  bytesBits (w.dst.take w.idx) ++ natBits w.fill (w.cache / 2 ^ (64 - w.fill))

/-- Well-formedness invariant of reachable writer states (on buffers large
enough that nothing was dropped): the cache holds exactly `fill ≤ 64`
left-justified bits, the cursor fits the destination, and the destination
holds bytes. -/
def GoodW (w : Writer) : Prop :=
  w.fill ≤ 64 ∧ w.cache < 2 ^ 64 ∧ w.cache % 2 ^ (64 - w.fill) = 0 ∧
    8 * w.idx + w.fill ≤ 8 * w.dst.length ∧ ∀ b ∈ w.dst, b < 256

/-! Arithmetic facts about the Go machine-word helpers. -/

theorem wsub_of_le {a b : Nat} (hb : b ≤ a) (ha : a < 2 ^ 64) : wsub a b = a - b := by
  unfold wsub
  omega

theorem shl64_of_ge {x n : Nat} (h : 64 ≤ n) : shl64 x n = 0 := by
  unfold shl64
  rw [if_neg (by omega)]

theorem shr64_eq_div {x : Nat} (hx : x < 2 ^ 64) (n : Nat) : shr64 x n = x / 2 ^ n := by
  unfold shr64
  split
  · rfl
  · have : x < 2 ^ n := lt_of_lt_of_le hx (Nat.pow_le_pow_right (by norm_num) (by omega))
    rw [Nat.div_eq_of_lt this]

theorem mul_pred_mod (a b : Nat) (ha : 0 < a) (hb : 0 < b) : (a * b - 1) % b = b - 1 := by
  obtain ⟨c, rfl⟩ : ∃ c, a = c + 1 := ⟨a - 1, by omega⟩
  have h1 : (c + 1) * b - 1 = b - 1 + c * b := by
    have := Nat.add_mul c 1 b
    omega
  rw [h1, Nat.add_mul_mod_self_right, Nat.mod_eq_of_lt (by omega)]

theorem ones_shl_mod {k : Nat} (n : Nat) (h : n ≤ k) :
    (2 ^ k - 1) * 2 ^ n % 2 ^ k = 2 ^ k - 2 ^ n := by
  have hd : (2 : Nat) ^ k = 2 ^ n * 2 ^ (k - n) := by
    rw [← pow_add]
    congr 1
    omega
  have hp : (0 : Nat) < 2 ^ n := Nat.two_pow_pos n
  have hq : (0 : Nat) < 2 ^ (k - n) := Nat.two_pow_pos _
  have h3 : 2 ^ n * (2 ^ (k - n) - 1) = 2 ^ n * 2 ^ (k - n) - 2 ^ n := by
    rw [← Nat.pred_eq_sub_one, Nat.mul_pred]
  calc (2 ^ k - 1) * 2 ^ n % 2 ^ k
      = 2 ^ n * (2 ^ n * 2 ^ (k - n) - 1) % (2 ^ n * 2 ^ (k - n)) := by
        rw [← hd, Nat.mul_comm]
    _ = 2 ^ n * ((2 ^ n * 2 ^ (k - n) - 1) % 2 ^ (k - n)) := Nat.mul_mod_mul_left _ _ _
    _ = 2 ^ n * (2 ^ (k - n) - 1) := by rw [mul_pred_mod _ _ hp hq]
    _ = 2 ^ k - 2 ^ n := by rw [h3, ← hd]

theorem compl64_shl_ones {n : Nat} (h : n ≤ 64) :
    compl64 (shl64 (2 ^ 64 - 1) n) = 2 ^ n - 1 := by
  unfold compl64 shl64
  by_cases hn : n < 64
  · rw [if_pos hn, ones_shl_mod n (by omega)]
    have : (2 : Nat) ^ n ≤ 2 ^ 64 := Nat.pow_le_pow_right (by norm_num) (by omega)
    omega
  · have hn64 : n = 64 := by omega
    rw [if_neg hn, hn64]
    norm_num

theorem compl32_shl_ones {n : Nat} (h : n ≤ 32) :
    compl32 (shl32 (2 ^ 32 - 1) n) = 2 ^ n - 1 := by
  unfold compl32 shl32
  by_cases hn : n < 32
  · rw [if_pos hn, ones_shl_mod n (by omega)]
    have : (2 : Nat) ^ n ≤ 2 ^ 32 := Nat.pow_le_pow_right (by norm_num) (by omega)
    omega
  · have hn32 : n = 32 := by omega
    rw [if_neg hn, hn32]
    norm_num

theorem lor_eq_add {k x y : Nat} (hx : 2 ^ k ∣ x) (hy : y < 2 ^ k) : x ||| y = x + y := by
  obtain ⟨a, rfl⟩ := hx
  exact (Nat.mul_add_lt_is_or hy a).symm

theorem xor_eq_add {k x y : Nat} (hx : 2 ^ k ∣ x) (hy : y < 2 ^ k) : x ^^^ y = x + y := by
  obtain ⟨a, rfl⟩ := hx
  apply Nat.eq_of_testBit_eq
  intro i
  rw [Nat.testBit_xor, Nat.testBit_mul_pow_two_add a hy i, Nat.testBit_mul_pow_two]
  by_cases hi : i < k
  · simp [hi, Nat.not_le_of_lt hi]
  · have hyf : y.testBit i = false :=
      Nat.testBit_lt_two_pow
        (lt_of_lt_of_le hy (Nat.pow_le_pow_right (by norm_num) (by omega)))
    simp [hi, hyf, Nat.le_of_not_lt hi]

theorem and_ones_shl (x n b : Nat) :
    x &&& (2 ^ n - 1) * 2 ^ b = x / 2 ^ b % 2 ^ n * 2 ^ b := by
  apply Nat.eq_of_testBit_eq
  intro i
  rw [Nat.testBit_and]
  rw [show (2 ^ n - 1) * 2 ^ b = (2 ^ n - 1) <<< b from (Nat.shiftLeft_eq _ _).symm]
  rw [show x / 2 ^ b % 2 ^ n * 2 ^ b = ((x >>> b) % 2 ^ n) <<< b by
    rw [Nat.shiftLeft_eq, Nat.shiftRight_eq_div_pow]]
  rw [Nat.testBit_shiftLeft, Nat.testBit_shiftLeft, Nat.testBit_mod_two_pow,
    Nat.testBit_shiftRight, Nat.testBit_two_pow_sub_one]
  by_cases hbi : b ≤ i
  · by_cases hin : i - b < n
    · have hba : b + (i - b) = i := by omega
      simp [hbi, hin, hba]
    · simp [hbi, hin]
  · simp [hbi]

/-! The sign-extension transform. -/

theorem xor_rearrange (a b c : Nat) : (a ^^^ b) ^^^ (c ^^^ a) = c ^^^ b := by
  apply Nat.eq_of_testBit_eq
  intro i
  simp only [Nat.testBit_xor]
  cases a.testBit i <;> cases b.testBit i <;> cases c.testBit i <;> rfl

theorem two_pow_sub_dvd {a b : Nat} (h : a ≤ b) : 2 ^ a ∣ 2 ^ b - 2 ^ a := by
  have hb : (2 : Nat) ^ b = 2 ^ a * 2 ^ (b - a) := by
    rw [← pow_add]
    congr 1
    omega
  have he : (2 : Nat) ^ b - 2 ^ a = 2 ^ a * (2 ^ (b - a) - 1) := by
    rw [Nat.mul_sub_one, ← hb]
  rw [he]
  exact Dvd.intro _ rfl

theorem extend_eq {w : Nat} (v : Nat) (h1 : 1 ≤ w) (h2 : w ≤ 64) (hv : v < 2 ^ w) :
    extend v w = if v < 2 ^ (w - 1) then v else 2 ^ 64 - 2 ^ w + v := by
  have hw2 : (2 : Nat) ^ w = 2 * 2 ^ (w - 1) := by
    have hw : w = (w - 1) + 1 := by omega
    rw [hw, pow_succ]
    have : w - 1 + 1 - 1 = w - 1 := by omega
    rw [this]
    ring
  have hs63 : (2 : Nat) ^ (w - 1) ≤ 2 ^ 63 := Nat.pow_le_pow_right (by norm_num) (by omega)
  have hw64 : (2 : Nat) ^ w ≤ 2 ^ 64 := Nat.pow_le_pow_right (by norm_num) h2
  have h64 : (2 : Nat) ^ 63 * 2 = 2 ^ 64 := by norm_num
  simp only [extend]
  have hm1 : wsub w 1 = w - 1 := wsub_of_le h1 (by omega)
  have hmlt : w - 1 < 64 := by omega
  have hm : shl64 (2 ^ 64 - 1) (wsub w 1) = 2 ^ 64 - 2 ^ (w - 1) := by
    rw [hm1]
    unfold shl64
    rw [if_pos hmlt]
    exact ones_shl_mod (w - 1) (by omega)
  have hvm : v % 2 ^ 64 = v := Nat.mod_eq_of_lt (by omega)
  rw [hm, hvm]
  have hdvdA : (2 : Nat) ^ w ∣ 2 ^ 64 - 2 ^ w := two_pow_sub_dvd h2
  have hdvdm : (2 : Nat) ^ (w - 1) ∣ 2 ^ 64 - 2 ^ (w - 1) := two_pow_sub_dvd (by omega)
  by_cases hc : v < 2 ^ (w - 1)
  · rw [if_pos hc]
    have hx : v ^^^ (2 ^ 64 - 2 ^ (w - 1)) = 2 ^ 64 - 2 ^ (w - 1) + v := by
      rw [Nat.xor_comm]
      exact xor_eq_add hdvdm hc
    rw [hx, wsub_of_le (by omega) (by omega)]
    omega
  · rw [if_neg hc]
    have hr : v - 2 ^ (w - 1) < 2 ^ (w - 1) := by omega
    have hv1 : v = 2 ^ (w - 1) ^^^ (v - 2 ^ (w - 1)) := by
      rw [xor_eq_add (dvd_refl _) hr]
      omega
    have hm2 : 2 ^ 64 - 2 ^ (w - 1) = (2 ^ 64 - 2 ^ w) ^^^ 2 ^ (w - 1) := by
      rw [xor_eq_add hdvdA (by omega)]
      omega
    have hx : v ^^^ (2 ^ 64 - 2 ^ (w - 1)) = 2 ^ 64 - 2 ^ w + (v - 2 ^ (w - 1)) := by
      conv =>
        lhs
        rw [hv1, hm2]
      rw [xor_rearrange]
      exact xor_eq_add hdvdA (by omega)
    rw [hx]
    unfold wsub
    have heq : 2 ^ 64 + (2 ^ 64 - 2 ^ w + (v - 2 ^ (w - 1))) - (2 ^ 64 - 2 ^ (w - 1)) =
        2 ^ 64 - 2 ^ w + v := by omega
    rw [heq, Nat.mod_eq_of_lt (by omega)]

/-- C4: for every width `1 ≤ w ≤ 64` and value `v < 2^w`, the branch-free
transform `extend v w = (v XOR m) - m` with `m = (~0) << (w-1)` (64-bit
wraparound arithmetic) computes the two's-complement interpretation of the
`w`-bit value `v`: `v` itself when the top bit is clear, `v - 2^w` (as a
signed 64-bit integer) when it is set. -/
theorem C4_extend_sign {w : Nat} (v : Nat) (h1 : 1 ≤ w) (h2 : w ≤ 64) (hv : v < 2 ^ w) :
    toInt64 (extend v w) = if v < 2 ^ (w - 1) then (v : Int) else (v : Int) - 2 ^ w := by
  have hw2 : (2 : Nat) ^ w = 2 * 2 ^ (w - 1) := by
    have hw : w = (w - 1) + 1 := by omega
    rw [hw, pow_succ]
    have : w - 1 + 1 - 1 = w - 1 := by omega
    rw [this]
    ring
  have hs63 : (2 : Nat) ^ (w - 1) ≤ 2 ^ 63 := Nat.pow_le_pow_right (by norm_num) (by omega)
  have hw64 : (2 : Nat) ^ w ≤ 2 ^ 64 := Nat.pow_le_pow_right (by norm_num) h2
  have h63 : (2 : Nat) ^ 63 = 9223372036854775808 := by norm_num
  have h64n : (2 : Nat) ^ 64 = 18446744073709551616 := by norm_num
  rw [extend_eq v h1 h2 hv]
  by_cases hc : v < 2 ^ (w - 1)
  · rw [if_pos hc, if_pos hc]
    unfold toInt64
    rw [if_pos (by omega)]
  · rw [if_neg hc, if_neg hc]
    unfold toInt64
    have hge : 2 ^ 63 ≤ 2 ^ 64 - 2 ^ w + v := by omega
    rw [if_neg (Nat.not_lt.mpr hge)]
    have hcast : ((2 ^ 64 - 2 ^ w + v : Nat) : Int) = (2 : Int) ^ 64 - 2 ^ w + v := by
      rw [Nat.cast_add, Nat.cast_sub hw64]
      push_cast
      ring
    rw [hcast]
    ring

/-- Witness for C4 at `w = 5`, `v = 0x1E`: the top bit of the 5-bit field is
set, so the signed value is `0x1E - 32 = -2`. -/
theorem C4_extend_sign_witness :
    (1 ≤ 5 ∧ 5 ≤ 64 ∧ 30 < 2 ^ 5) ∧ toInt64 (extend 30 5) = -2 := by
  refine ⟨by norm_num, ?_⟩
  rw [C4_extend_sign 30 (by norm_num) (by norm_num) (by norm_num)]
  norm_num

/-! Flush: the drain loop and the exact error returned. -/

theorem FlushLoop_len (fuel : Nat) (w : Writer) :
    (FlushLoop fuel w).dst.length = w.dst.length := by
  induction fuel generalizing w with
  | zero => rfl
  | succ fuel ih =>
    unfold FlushLoop
    split
    · rw [ih]
      simp
    · rfl

theorem FlushLoop_idx_fill (fuel : Nat) (w : Writer) (hf : w.fill / 8 ≤ fuel) :
    (FlushLoop fuel w).idx = w.idx + min (w.fill / 8) (w.dst.length - w.idx) ∧
      (FlushLoop fuel w).fill = w.fill - 8 * min (w.fill / 8) (w.dst.length - w.idx) := by
  induction fuel generalizing w with
  | zero =>
    have h0 : w.fill / 8 = 0 := by omega
    unfold FlushLoop
    constructor <;> simp [h0]
  | succ fuel ih =>
    unfold FlushLoop
    split
    · rename_i hcond
      obtain ⟨h8, hlt⟩ := hcond
      set w1 : Writer :=
        { w with
          dst := w.dst.set w.idx (cacheByte w.cache 56)
          idx := w.idx + 1
          cache := shl64 w.cache 8
          fill := w.fill - 8 } with hw1
      have hf1 : w1.fill / 8 ≤ fuel := by
        simp only [hw1]
        omega
      obtain ⟨hi, hfl⟩ := ih w1 hf1
      rw [hi, hfl]
      simp only [hw1, List.length_set]
      constructor <;> omega
    · rename_i hcond
      constructor <;> omega

theorem Flush_char (w : Writer) :
    ((w.Flush).2 = none ↔ 8 ∣ w.Index ∧ w.Index ≤ 8 * w.dst.length) ∧
      ((w.Flush).2 = some BitErr.overflow ↔
        w.dst.length < w.Index / 8 + w.Index % 8) ∧
      ((w.Flush).2 = some BitErr.underflow ↔
        ¬8 ∣ w.Index ∧ w.Index / 8 + w.Index % 8 ≤ w.dst.length) := by
  obtain ⟨hi, hf⟩ := FlushLoop_idx_fill w.fill w (Nat.div_le_self _ _)
  have hlen := FlushLoop_len w.fill w
  simp only [Writer.Index]
  by_cases hov :
      (FlushLoop w.fill w).dst.length < (FlushLoop w.fill w).idx + (FlushLoop w.fill w).fill
  · have he : (w.Flush).2 = some BitErr.overflow := by
      simp only [Writer.Flush]
      rw [if_pos hov]
    exact ⟨iff_of_false (by simp [he]) (by omega), iff_of_true he (by omega),
      iff_of_false (by simp [he]) (by omega)⟩
  · by_cases hun : (FlushLoop w.fill w).fill ≠ 0
    · have he : (w.Flush).2 = some BitErr.underflow := by
        simp only [Writer.Flush]
        rw [if_neg hov, if_pos hun]
      exact ⟨iff_of_false (by simp [he]) (by omega), iff_of_false (by simp [he]) (by omega),
        iff_of_true he (by omega)⟩
    · have he : (w.Flush).2 = none := by
        simp only [Writer.Flush]
        rw [if_neg hov, if_neg hun]
      exact ⟨iff_of_true he (by omega), iff_of_false (by simp [he]) (by omega),
        iff_of_false (by simp [he]) (by omega)⟩

theorem drain4_len (w : Writer) : (drain4 w).dst.length = w.dst.length := by
  simp only [drain4]
  split <;> simp

theorem PutUint32_len (w : Writer) (bits val : Nat) :
    (w.PutUint32 bits val).dst.length = w.dst.length := by
  simp only [Writer.PutUint32]
  split
  · exact drain4_len w
  · rfl

theorem PutUint32Le_len (w : Writer) (bits val : Nat) :
    (w.PutUint32Le bits val).dst.length = w.dst.length := by
  simp only [Writer.PutUint32Le]
  split
  · exact drain4_len w
  · rfl

theorem PutUint64_len (w : Writer) (bits val : Nat) :
    (w.PutUint64 bits val).dst.length = w.dst.length := by
  simp only [Writer.PutUint64]
  split
  · rw [PutUint32_len, PutUint32_len]
  · rw [PutUint32_len]

theorem PutUint64Le_len (w : Writer) (bits val : Nat) :
    (w.PutUint64Le bits val).dst.length = w.dst.length := by
  simp only [Writer.PutUint64Le]
  split
  · rw [PutUint32Le_len, PutUint32Le_len]
  · rw [PutUint32Le_len]

theorem Flush_fst (w : Writer) : (w.Flush).1 = FlushLoop w.fill w := by
  simp only [Writer.Flush]
  split
  · rfl
  · split
    · rfl
    · rfl

theorem Flush_len (w : Writer) : ((w.Flush).1).dst.length = w.dst.length := by
  rw [Flush_fst, FlushLoop_len]

/-- The supported width range of each put operation (1-32 for 32-bit puts,
1-64 for 64-bit puts; width 0 is harmless and included). -/
def Put.wf : Put → Prop
  | .u32 bits _ => bits ≤ 32
  | .u32le bits _ => bits ≤ 32
  | .u64 bits _ => bits ≤ 64
  | .u64le bits _ => bits ≤ 64

theorem PutUint32_Index_mono (w : Writer) (bits val : Nat) (hb : bits ≤ 32)
    (hf : w.fill < 2 ^ 64) :
    w.Index ≤ (w.PutUint32 bits val).Index ∧ (w.PutUint32 bits val).fill < 2 ^ 64 := by
  simp only [Writer.PutUint32, Writer.Index]
  split
  · rename_i hcond
    simp only [drain4]
    rw [wsub_of_le (by omega) hf]
    constructor <;> omega
  · constructor <;> omega

theorem PutUint32Le_Index_mono (w : Writer) (bits val : Nat) (hb : bits ≤ 32)
    (hf : w.fill < 2 ^ 64) :
    w.Index ≤ (w.PutUint32Le bits val).Index ∧ (w.PutUint32Le bits val).fill < 2 ^ 64 := by
  simp only [Writer.PutUint32Le, Writer.Index]
  split
  · rename_i hcond
    simp only [drain4]
    rw [wsub_of_le (by omega) hf]
    constructor <;> omega
  · constructor <;> omega

theorem applyPut_Index_mono (w : Writer) (p : Put) (hwf : p.wf) (hf : w.fill < 2 ^ 64) :
    w.Index ≤ (applyPut w p).Index ∧ (applyPut w p).fill < 2 ^ 64 := by
  cases p with
  | u32 bits val => exact PutUint32_Index_mono w bits val hwf hf
  | u32le bits val => exact PutUint32Le_Index_mono w bits val hwf hf
  | u64 bits val =>
    simp only [applyPut, Writer.PutUint64]
    split
    · have h1 := PutUint32_Index_mono w (bits - 32) (shr64 (val % 2 ^ 64) 32) (by
        simp only [Put.wf] at hwf
        omega) hf
      have h2 := PutUint32_Index_mono _ 32 (val % 2 ^ 64 &&& 0xFFFFFFFF) (by omega) h1.2
      exact ⟨le_trans h1.1 h2.1, h2.2⟩
    · exact PutUint32_Index_mono w bits (val % 2 ^ 64 % 2 ^ 32) (by
        simp only [Put.wf] at hwf
        omega) hf
  | u64le bits val =>
    simp only [applyPut, Writer.PutUint64Le]
    split
    · have h1 := PutUint32Le_Index_mono w 32 (val % 2 ^ 64 &&& 0xFFFFFFFF) (by omega) hf
      have h2 := PutUint32Le_Index_mono _ (bits - 32) (shr64 (val % 2 ^ 64) 32) (by
        simp only [Put.wf] at hwf
        omega) h1.2
      exact ⟨le_trans h1.1 h2.1, h2.2⟩
    · exact PutUint32Le_Index_mono w bits (val % 2 ^ 64 % 2 ^ 32) (by
        simp only [Put.wf] at hwf
        omega) hf

theorem applyPut_len (w : Writer) (p : Put) : (applyPut w p).dst.length = w.dst.length := by
  cases p with
  | u32 bits val => exact PutUint32_len w bits val
  | u32le bits val => exact PutUint32Le_len w bits val
  | u64 bits val => exact PutUint64_len w bits val
  | u64le bits val => exact PutUint64Le_len w bits val

theorem applyPuts_Index_mono (ps : List Put) :
    ∀ w : Writer, (∀ p ∈ ps, p.wf) → w.fill < 2 ^ 64 →
      w.Index ≤ (applyPuts w ps).Index ∧ (applyPuts w ps).fill < 2 ^ 64 ∧
        (applyPuts w ps).dst.length = w.dst.length := by
  induction ps with
  | nil => exact fun w _ hf => ⟨le_refl _, hf, rfl⟩
  | cons p ps ih =>
    intro w hwf hf
    have h1 := applyPut_Index_mono w p (hwf p (by simp)) hf
    have h2 := applyPut_len w p
    have h3 := ih (applyPut w p) (fun q hq => hwf q (by simp [hq])) h1.2
    refine ⟨le_trans h1.1 ?_, ?_, ?_⟩ <;>
      simp only [applyPuts, List.foldl_cons] at h3 ⊢
    · exact h3.1
    · exact h3.2.1
    · rw [h3.2.2, h2]

theorem FlushLoop_Index (fuel : Nat) (w : Writer) :
    (FlushLoop fuel w).Index = w.Index := by
  induction fuel generalizing w with
  | zero => rfl
  | succ fuel ih =>
    unfold FlushLoop
    split
    · rename_i hcond
      rw [ih]
      simp only [Writer.Index]
      omega
    · rfl

theorem Flush_Index (w : Writer) : ((w.Flush).1).Index = w.Index := by
  rw [Flush_fst, FlushLoop_Index]

/-- C5 (amended): on a fixed-buffer writer, Flush returns no error iff the
total bits written are byte-aligned and fit the buffer; it returns Overflow
exactly when the flushed byte position plus the leftover bit count exceeds the
byte capacity (`len < Index/8 + Index%8`) — this covers every state whose
total bits exceed the capacity, but also some unaligned states that still fit
(see the counterexample); Underflow is returned only in the remaining
unaligned cases, so Overflow takes precedence.  The concrete 9/16/17-bit
examples of the claim hold. -/
theorem C5_flush_error_taxonomy :
    (∀ w : Writer,
      ((w.Flush).2 = none ↔ 8 ∣ w.Index ∧ w.Index ≤ 8 * w.dst.length) ∧
      (8 * w.dst.length < w.Index → (w.Flush).2 = some BitErr.overflow) ∧
      ((w.Flush).2 = some BitErr.overflow ↔
        w.dst.length < w.Index / 8 + w.Index % 8) ∧
      ((w.Flush).2 = some BitErr.underflow →
        ¬8 ∣ w.Index ∧ w.Index ≤ 8 * w.dst.length)) ∧
    (((NewWriter [0, 0]).PutUint32 9 0).Flush).2 = some BitErr.underflow ∧
    (((NewWriter [0, 0]).PutUint32 16 0).Flush).2 = none ∧
    (((NewWriter [0, 0]).PutUint32 17 0).Flush).2 = some BitErr.overflow := by
  refine ⟨fun w => ?_, by decide, by decide, by decide⟩
  obtain ⟨h1, h2, h3⟩ := Flush_char w
  refine ⟨h1, fun h => h2.mpr (by omega), h2, fun h => ?_⟩
  obtain ⟨hnd, hle⟩ := h3.mp h
  exact ⟨hnd, by omega⟩

/-- Witness for C5 at the 17-bit example: the hypothesis `8*len < Index` holds
and the amended theorem yields the Overflow error. -/
theorem C5_flush_error_taxonomy_witness :
    8 * ((NewWriter [0, 0]).PutUint32 17 0).dst.length <
        ((NewWriter [0, 0]).PutUint32 17 0).Index ∧
      (((NewWriter [0, 0]).PutUint32 17 0).Flush).2 = some BitErr.overflow :=
  ⟨by decide, (C5_flush_error_taxonomy.1 ((NewWriter [0, 0]).PutUint32 17 0)).2.1 (by decide)⟩

/-- Counterexample for C5 as stated: 10 bits written into a 2-byte buffer fit
(10 ≤ 16) and are not byte-aligned, so the claim predicts Underflow, but Flush
returns Overflow. -/
theorem C5_counterexample :
    ((NewWriter [0, 0]).PutUint32 10 0).Index = 10 ∧
      ((NewWriter [0, 0]).PutUint32 10 0).dst.length = 2 ∧
      ¬(8 : Nat) ∣ 10 ∧ (10 : Nat) ≤ 8 * 2 ∧
      (((NewWriter [0, 0]).PutUint32 10 0).Flush).2 = some BitErr.overflow := by
  decide

/-- C7 (amended): an Overflow fault caused by the cursor actually exceeding
the capacity is sticky: if `Index > 8*len(dst)`, Flush errors now, and after
any further sequence of in-range puts every subsequent Flush still returns
Overflow.  (Faults reported by Flush in other states — Underflow, or Overflow
from unaligned leftover bits near the end — are not sticky; see the
counterexample.) -/
theorem C7_sticky_overflow (w : Writer) (hf : w.fill < 2 ^ 64)
    (h : 8 * w.dst.length < w.Index) :
    (w.Flush).2 = some BitErr.overflow ∧
      ∀ ps : List Put, (∀ p ∈ ps, p.wf) →
        ((applyPuts (w.Flush).1 ps).Flush).2 = some BitErr.overflow := by
  obtain ⟨h1, h2, h3⟩ := Flush_char w
  refine ⟨h2.mpr (by omega), fun ps hwf => ?_⟩
  have hw2i : ((w.Flush).1).Index = w.Index := Flush_Index w
  have hw2l : ((w.Flush).1).dst.length = w.dst.length := Flush_len w
  have hw2f : ((w.Flush).1).fill < 2 ^ 64 := by
    obtain ⟨hi2, hf2⟩ := FlushLoop_idx_fill w.fill w (Nat.div_le_self _ _)
    rw [Flush_fst, hf2]
    omega
  obtain ⟨hmono, hfill, hlen⟩ := applyPuts_Index_mono ps (w.Flush).1 hwf hw2f
  obtain ⟨g1, g2, g3⟩ := Flush_char (applyPuts (w.Flush).1 ps)
  exact g2.mpr (by omega)

/-- Witness for C7: a 17-bit put into 2 bytes overflows; after a further 7-bit
put the next Flush still reports Overflow. -/
theorem C7_sticky_overflow_witness :
    ((NewWriter [0, 0]).PutUint32 17 0).fill < 2 ^ 64 ∧
      8 * ((NewWriter [0, 0]).PutUint32 17 0).dst.length <
        ((NewWriter [0, 0]).PutUint32 17 0).Index ∧
      ((applyPuts ((((NewWriter [0, 0]).PutUint32 17 0)).Flush).1 [Put.u32 7 0]).Flush).2 =
        some BitErr.overflow :=
  ⟨by decide, by decide,
    (C7_sticky_overflow ((NewWriter [0, 0]).PutUint32 17 0) (by decide) (by decide)).2
      [Put.u32 7 0] (by
        intro p hp
        simp only [List.mem_singleton] at hp
        rw [hp]
        simp only [Put.wf]
        omega)⟩

/-- Counterexample for C7 as stated: writing 1 bit into a 2-byte buffer makes
Flush report Underflow, yet after 7 more bits the subsequent Flush returns no
error — the fault cleared, so faults are not sticky in general. -/
theorem C7_counterexample :
    (((NewWriter [0, 0]).PutUint32 1 0).Flush).2 = some BitErr.underflow ∧
      ((((((NewWriter [0, 0]).PutUint32 1 0).Flush).1).PutUint32 7 0).Flush).2 = none := by
  decide

/-- C8 (amended): `Reset` rewinds the cursor (`idx`) and the pending-bit count
(`fill`) to zero but leaves the cache accumulator untouched; consequently a
reset writer coincides with a freshly constructed writer over the same buffer
exactly when its cache is zero (e.g. after a fully drained Flush), and in that
case every subsequent put sequence behaves identically to a fresh writer. -/
theorem C8_reset (w : Writer) :
    w.Reset.fill = 0 ∧ w.Reset.idx = 0 ∧ w.Reset.dst = w.dst ∧
      w.Reset.cache = w.cache ∧ (w.cache = 0 → w.Reset = NewWriter w.dst) := by
  refine ⟨rfl, rfl, rfl, rfl, fun h => ?_⟩
  cases w with
  | mk dst cache fill idx =>
    simp only [Writer.Reset, NewWriter] at h ⊢
    rw [h]

/-- Witness for C8: a writer with a drained (zero) cache resets to the exact
fresh state. -/
theorem C8_reset_witness :
    ((((NewWriter [0, 0]).PutUint32 16 7).Flush).1).cache = 0 ∧
      ((((NewWriter [0, 0]).PutUint32 16 7).Flush).1).Reset =
        NewWriter ((((NewWriter [0, 0]).PutUint32 16 7).Flush).1).dst :=
  ⟨by decide, (C8_reset (((NewWriter [0, 0]).PutUint32 16 7).Flush).1).2.2.2.2 (by decide)⟩

/-- Counterexample for C8 as stated: Reset does not clear the cache.  After
putting a single 1-bit on a 1-byte buffer and calling Reset, putting 8 zero
bits and flushing yields byte 0x80, while the same puts on a fresh writer
yield 0x00. -/
theorem C8_counterexample :
    (((((NewWriter [0]).PutUint32 1 1).Reset).PutUint32 8 0).Flush).1.dst = [128] ∧
      ((((NewWriter [0]).PutUint32 8 0).Flush).1.dst = [0]) ∧
      ((((NewWriter [0]).PutUint32 1 1).Reset).cache ≠ 0) := by
  decide

/-- C9 (amended): on a fresh writer, under any sequence of 32-bit puts of
widths at most 32, the pending-bit count satisfies `fill ≤ 64` before each
call (not `fill ≤ 32` as claimed — see the counterexample), and this is what
guarantees `fill + width ≤ 64` after the conditional pre-drain inside each
put. -/
theorem C9_fill_invariant (dst0 : List Nat) (l : List (Nat × Nat))
    (hw : ∀ p ∈ l, p.1 ≤ 32) :
    (applyPuts32 (NewWriter dst0) l).fill ≤ 64 ∧
      ∀ bits, bits ≤ 32 →
        (if 64 < (applyPuts32 (NewWriter dst0) l).fill + bits
            then drain4 (applyPuts32 (NewWriter dst0) l)
            else applyPuts32 (NewWriter dst0) l).fill + bits ≤ 64 := by
  have key : ∀ (ll : List (Nat × Nat)) (w : Writer), w.fill ≤ 64 → (∀ p ∈ ll, p.1 ≤ 32) →
      (applyPuts32 w ll).fill ≤ 64 := by
    intro ll
    induction ll with
    | nil => exact fun w h _ => h
    | cons p ps ih =>
      intro w h hwf
      have hp : p.1 ≤ 32 := hwf p (by simp)
      have hstep : (w.PutUint32 p.1 p.2).fill ≤ 64 := by
        simp only [Writer.PutUint32]
        split
        · rename_i hcond
          simp only [drain4]
          rw [wsub_of_le (by omega) (by omega)]
          omega
        · omega
      have := ih (w.PutUint32 p.1 p.2) hstep (fun q hq => hwf q (by simp [hq]))
      simpa only [applyPuts32, List.foldl_cons] using this
  have h64 : (applyPuts32 (NewWriter dst0) l).fill ≤ 64 := by
    refine key l (NewWriter dst0) ?_ hw
    simp [NewWriter]
  refine ⟨h64, fun bits hb => ?_⟩
  split
  · rename_i hcond
    simp only [drain4]
    rw [wsub_of_le (by omega) (by omega)]
    omega
  · omega

/-- Witness for C9: two 32-bit puts then checking the pre-drain bound for a
32-bit width. -/
theorem C9_fill_invariant_witness :
    (applyPuts32 (NewWriter [0, 0, 0, 0, 0, 0, 0, 0]) [(32, 0), (32, 0)]).fill ≤ 64 ∧
      (if 64 < (applyPuts32 (NewWriter [0, 0, 0, 0, 0, 0, 0, 0]) [(32, 0), (32, 0)]).fill + 32
          then drain4 (applyPuts32 (NewWriter [0, 0, 0, 0, 0, 0, 0, 0]) [(32, 0), (32, 0)])
          else applyPuts32 (NewWriter [0, 0, 0, 0, 0, 0, 0, 0]) [(32, 0), (32, 0)]).fill +
          32 ≤ 64 := by
  have h := C9_fill_invariant [0, 0, 0, 0, 0, 0, 0, 0] [(32, 0), (32, 0)] (by decide)
  exact ⟨h.1, h.2 32 (by decide)⟩

/-- Counterexample for C9 as stated: after two width-32 puts on a fresh writer
the fill count is 64, so `fill ≤ 32` does not hold immediately before the next
put call. -/
theorem C9_counterexample :
    (applyPuts32 (NewWriter [0, 0, 0, 0, 0, 0, 0, 0]) [(32, 0), (32, 0)]).fill = 64 ∧
      ¬(applyPuts32 (NewWriter [0, 0, 0, 0, 0, 0, 0, 0]) [(32, 0), (32, 0)]).fill ≤ 32 := by
  decide

/-- C10: `Bytes` returns exactly the suffix of the destination starting at the
byte offset `Index()/8` (the bit cursor rounded down to a byte), empty when
that offset reaches the end; the operation is total (never panics). -/
theorem C10_bytes_tail (w : Writer) :
    w.Bytes = w.dst.drop (w.Index / 8) ∧
      (w.dst.length ≤ w.Index / 8 → w.Bytes = []) := by
  have hskip : w.Index / 8 = w.idx + w.fill / 2 ^ 3 := by
    simp only [Writer.Index]
    omega
  simp only [Writer.Bytes, hskip]
  by_cases h : w.dst.length ≤ w.idx + w.fill / 2 ^ 3
  · rw [if_pos h, List.drop_eq_nil_of_le h]
    exact ⟨rfl, fun _ => rfl⟩
  · rw [if_neg h]
    exact ⟨rfl, fun hc => absurd hc h⟩

/-- Witness for C10 on a concrete mid-stream writer state. -/
theorem C10_bytes_tail_witness :
    (((NewWriter [1, 2, 3, 4]).PutUint32 11 0).Bytes =
        ((NewWriter [1, 2, 3, 4]).PutUint32 11 0).dst.drop
          (((NewWriter [1, 2, 3, 4]).PutUint32 11 0).Index / 8)) ∧
      ((NewWriter [1, 2, 3, 4]).PutUint32 11 0).Bytes = [2, 3, 4] :=
  ⟨(C10_bytes_tail ((NewWriter [1, 2, 3, 4]).PutUint32 11 0)).1, by decide⟩

/-- C3: byte-exactness on a fresh 5-byte buffer: 33 bits of
`0xFFFFFFFE00000001` big-endian then 7 zero bits flush to
`00 00 00 00 80` with no error; the same value little-endian flushes to
`01 00 00 00 00` with no error. -/
theorem C3_byte_exact :
    ((((NewWriter [0, 0, 0, 0, 0]).PutUint64 33 0xFFFFFFFE00000001).PutUint32 7 0).Flush).1.dst =
        [0x00, 0x00, 0x00, 0x00, 0x80] ∧
      ((((NewWriter [0, 0, 0, 0, 0]).PutUint64 33 0xFFFFFFFE00000001).PutUint32 7
            0).Flush).2 = none ∧
      ((((NewWriter [0, 0, 0, 0, 0]).PutUint64Le 33 0xFFFFFFFE00000001).PutUint32Le 7
            0).Flush).1.dst = [0x01, 0x00, 0x00, 0x00, 0x00] ∧
      ((((NewWriter [0, 0, 0, 0, 0]).PutUint64Le 33 0xFFFFFFFE00000001).PutUint32Le 7
            0).Flush).2 = none := by
  decide

/-- C6: totality and memory safety of the hot path.  For every source buffer
and every cursor state (any number of skipped/read bits) the 8-byte window
load of the 32-bit gets starts at `loadSkip`, and `loadSkip + 8` never exceeds
the (possibly zero-padded) source length, so `src[skip:skip+8]` is always in
bounds; likewise the single-bit get touches only byte
`min(idx>>3, max+7) < len(src)`.  On the writer side every put and Flush is a
total function that never changes the destination length (stores are guarded
by `idx+4 <= len(dst)` / `idx < len(dst)` exactly as in the source).  Errors
are only reported by `Flush`/`Check`, which the embedding reflects in the
types: the put/get operations return no error values. -/
theorem C6_memory_safety :
    (∀ (src : List Nat) (n : Nat),
      loadSkip ((NewReader src).Skip n) + 8 ≤ ((NewReader src).Skip n).src.length ∧
        min (((NewReader src).Skip n).idx / 2 ^ 3) (((NewReader src).Skip n).max + 7) + 1 ≤
          ((NewReader src).Skip n).src.length) ∧
    (∀ (w : Writer) (bits val : Nat),
      (w.PutUint32 bits val).dst.length = w.dst.length ∧
      (w.PutUint32Le bits val).dst.length = w.dst.length ∧
      (w.PutUint64 bits val).dst.length = w.dst.length ∧
      (w.PutUint64Le bits val).dst.length = w.dst.length ∧
      ((w.Flush).1).dst.length = w.dst.length) := by
  constructor
  · intro src n
    by_cases h8 : 8 ≤ src.length
    · simp only [NewReader, if_pos h8, Reader.Skip, loadSkip]
      constructor
      · have hm : min ((0 + n) / 2 ^ 5 * 2 ^ 2) (src.length - 8) ≤ src.length - 8 :=
          Nat.min_le_right _ _
        omega
      · have hm : min ((0 + n) / 2 ^ 3) (src.length - 8 + 7) ≤ src.length - 8 + 7 :=
          Nat.min_le_right _ _
        omega
    · simp only [NewReader, if_neg h8, Reader.Skip, loadSkip]
      have hlen : (src ++ List.replicate (8 - src.length) 0).length = 8 := by
        rw [List.length_append, List.length_replicate]
        omega
      rw [hlen]
      constructor
      · have hm : min ((0 + n) / 2 ^ 5 * 2 ^ 2) 0 ≤ 0 := Nat.min_le_right _ _
        omega
      · have hm : min ((0 + n) / 2 ^ 3) (0 + 7) ≤ 0 + 7 := Nat.min_le_right _ _
        omega
  · intro w bits val
    exact ⟨PutUint32_len w bits val, PutUint32Le_len w bits val, PutUint64_len w bits val,
      PutUint64Le_len w bits val, Flush_len w⟩

/-- Witness for C6 (the statement is fully universally quantified; this
instantiates it on a short 3-byte source far past the end of the data and on a
concrete writer). -/
theorem C6_memory_safety_witness :
    loadSkip ((NewReader [1, 2, 3]).Skip 1000) + 8 ≤
        ((NewReader [1, 2, 3]).Skip 1000).src.length ∧
      (((NewWriter [0, 0]).PutUint32 17 5).Flush).1.dst.length = 2 :=
  ⟨(C6_memory_safety.1 [1, 2, 3] 1000).1, by
    rw [(C6_memory_safety.2 ((NewWriter [0, 0]).PutUint32 17 5) 0 0).2.2.2.2,
      PutUint32_len]
    rfl⟩

/-! Bitstream foundation: `natBits`, `bitsVal`, `bytesBits`. -/

theorem natBits_length (w v : Nat) : (natBits w v).length = w := by
  simp [natBits]

theorem bitsVal_aux (l : List Bool) :
    ∀ a : Nat, l.foldl (fun x b => 2 * x + b.toNat) a = a * 2 ^ l.length + bitsVal l := by
  induction l with
  | nil => intro a; simp [bitsVal]
  | cons b l ih =>
    intro a
    simp only [List.foldl_cons, List.length_cons, bitsVal, Nat.mul_zero, Nat.zero_add]
    rw [ih (2 * a + b.toNat), ih b.toNat]
    ring

theorem bitsVal_cons (b : Bool) (l : List Bool) :
    bitsVal (b :: l) = b.toNat * 2 ^ l.length + bitsVal l := by
  have h1 : bitsVal (b :: l) = List.foldl (fun x b => 2 * x + b.toNat) (2 * 0 + b.toNat) l := rfl
  rw [h1, show 2 * 0 + b.toNat = b.toNat by omega, bitsVal_aux l b.toNat]

theorem bitsVal_append (l1 l2 : List Bool) :
    bitsVal (l1 ++ l2) = bitsVal l1 * 2 ^ l2.length + bitsVal l2 := by
  have h1 : bitsVal (l1 ++ l2) =
      List.foldl (fun x b => 2 * x + b.toNat) (bitsVal l1) l2 := by
    simp only [bitsVal, List.foldl_append]
  rw [h1, bitsVal_aux l2 (bitsVal l1)]

theorem bitsVal_lt (l : List Bool) : bitsVal l < 2 ^ l.length := by
  induction l with
  | nil => simp [bitsVal]
  | cons b l ih =>
    rw [bitsVal_cons]
    have hb : b.toNat ≤ 1 := Bool.toNat_le b
    have h2 : b.toNat * 2 ^ l.length ≤ 1 * 2 ^ l.length :=
      Nat.mul_le_mul_right _ hb
    simp only [List.length_cons, pow_succ]
    omega

theorem natBits_congr {w v v2 : Nat} (h : ∀ i, i < w → v.testBit i = v2.testBit i) :
    natBits w v = natBits w v2 := by
  simp only [natBits]
  apply List.map_congr_left
  intro i hi
  rw [List.mem_range] at hi
  exact h (w - 1 - i) (by omega)

theorem natBits_mod (w v : Nat) : natBits w (v % 2 ^ w) = natBits w v := by
  apply natBits_congr
  intro i hi
  rw [Nat.testBit_mod_two_pow]
  simp [hi]

theorem natBits_split (a b v : Nat) :
    natBits (a + b) v = natBits a (v / 2 ^ b) ++ natBits b v := by
  simp only [natBits, List.range_add, List.map_append, List.map_map]
  congr 1
  · apply List.map_congr_left
    intro i hi
    rw [List.mem_range] at hi
    have hd : v / 2 ^ b = v >>> b := (Nat.shiftRight_eq_div_pow v b).symm
    rw [hd, Nat.testBit_shiftRight]
    congr 1
    omega
  · apply List.map_congr_left
    intro i hi
    rw [List.mem_range] at hi
    simp only [Function.comp]
    congr 1
    omega

theorem bitsVal_one (x : Nat) : bitsVal (natBits 1 x) = x % 2 := by
  have h1 : natBits 1 x = [x.testBit 0] := by
    simp [natBits, List.range_succ]
  rw [h1, bitsVal_cons]
  simp only [List.length_nil, pow_zero, Nat.mul_one, bitsVal, List.foldl_nil, Nat.add_zero]
  rw [Nat.testBit_zero]
  rcases Nat.mod_two_eq_zero_or_one x with h | h <;> simp [h]

theorem bitsVal_natBits (w v : Nat) : bitsVal (natBits w v) = v % 2 ^ w := by
  induction w with
  | zero =>
    simp [natBits, bitsVal, Nat.mod_one]
  | succ w ih =>
    have h1 : natBits (w + 1) v = natBits 1 (v / 2 ^ w) ++ natBits w v := by
      rw [show w + 1 = 1 + w by omega]
      exact natBits_split 1 w v
    rw [h1, bitsVal_append, natBits_length, ih, bitsVal_one, Nat.mod_pow_succ]
    ring

theorem natBits_bitsVal (l : List Bool) : natBits l.length (bitsVal l) = l := by
  induction l with
  | nil => simp [natBits]
  | cons b l ih =>
    have hlen : (b :: l).length = 1 + l.length := by
      simp
      omega
    rw [hlen, natBits_split, bitsVal_cons]
    have hlt := bitsVal_lt l
    have hre : b.toNat * 2 ^ l.length + bitsVal l =
        2 ^ l.length * b.toNat + bitsVal l := by ring
    have hdiv : (b.toNat * 2 ^ l.length + bitsVal l) / 2 ^ l.length = b.toNat := by
      rw [hre, Nat.mul_add_div (Nat.two_pow_pos _), Nat.div_eq_of_lt hlt]
      omega
    have hone : natBits 1 b.toNat = [b] := by
      simp only [natBits, List.range_succ, List.range_zero, List.nil_append, List.map_cons,
        List.map_nil]
      congr 1
      cases b <;> rfl
    have hmodv : (b.toNat * 2 ^ l.length + bitsVal l) % 2 ^ l.length = bitsVal l := by
      rw [hre, Nat.mul_add_mod, Nat.mod_eq_of_lt hlt]
    have hmod : natBits l.length (b.toNat * 2 ^ l.length + bitsVal l) =
        natBits l.length (bitsVal l) := by
      rw [← natBits_mod l.length (b.toNat * 2 ^ l.length + bitsVal l), hmodv]
    rw [hdiv, hone, hmod, ih]
    rfl

theorem bytesBits_nil : bytesBits [] = [] := rfl

theorem bytesBits_cons (x : Nat) (l : List Nat) :
    bytesBits (x :: l) = natBits 8 x ++ bytesBits l := rfl

theorem bytesBits_append (l1 l2 : List Nat) :
    bytesBits (l1 ++ l2) = bytesBits l1 ++ bytesBits l2 := by
  induction l1 with
  | nil => rfl
  | cons x l ih => simp only [List.cons_append, bytesBits_cons, ih, List.append_assoc]

theorem bytesBits_length (l : List Nat) : (bytesBits l).length = 8 * l.length := by
  induction l with
  | nil => rfl
  | cons x l ih =>
    rw [bytesBits_cons, List.length_append, natBits_length, ih]
    simp
    omega

theorem bytesBits_take (l : List Nat) (n : Nat) :
    bytesBits (l.take n) = (bytesBits l).take (8 * n) := by
  induction l generalizing n with
  | nil => simp [bytesBits_nil]
  | cons x l ih =>
    cases n with
    | zero => simp [bytesBits_nil]
    | succ n =>
      rw [List.take_succ_cons, bytesBits_cons, bytesBits_cons, ih]
      have h8 : 8 * (n + 1) = 8 + 8 * n := by omega
      rw [h8, List.take_add,
        List.take_append_of_le_length (show 8 ≤ (natBits 8 x).length by rw [natBits_length]),
        List.take_of_length_le (show (natBits 8 x).length ≤ 8 by rw [natBits_length]),
        List.drop_left' (natBits_length 8 x)]

theorem bytesBits_drop (l : List Nat) (n : Nat) :
    bytesBits (l.drop n) = (bytesBits l).drop (8 * n) := by
  induction l generalizing n with
  | nil => simp [bytesBits_nil]
  | cons x l ih =>
    cases n with
    | zero => simp
    | succ n =>
      rw [List.drop_succ_cons, bytesBits_cons, ih]
      have h8 : 8 * (n + 1) = 8 + 8 * n := by omega
      rw [h8, ← List.drop_drop, List.drop_left' (natBits_length 8 x)]

/-! The 8-byte big-endian window load. -/

theorem be64_cons (x : Nat) (l : List Nat) (k : Nat) : be64 (x :: l) (k + 1) = be64 l k := by
  simp only [be64, getByte, List.getD_cons_succ]

theorem be64_drop (k : Nat) : ∀ l : List Nat, be64 l k = be64 (l.drop k) 0 := by
  induction k with
  | zero => intro l; rfl
  | succ k ih =>
    intro l
    cases l with
    | nil =>
      simp only [List.drop_nil]
      simp [be64, getByte]
    | cons x l =>
      rw [be64_cons, List.drop_succ_cons, ih l]

theorem be64_head (l : List Nat) (h : 8 ≤ l.length) (hb : ∀ b ∈ l, b < 256) :
    be64 l 0 = bitsVal (bytesBits (l.take 8)) ∧ be64 l 0 < 2 ^ 64 := by
  rcases l with _ | ⟨b0, _ | ⟨b1, _ | ⟨b2, _ | ⟨b3, _ | ⟨b4, _ | ⟨b5, _ | ⟨b6, _ | ⟨b7, rest⟩⟩⟩⟩⟩⟩⟩⟩ <;>
    simp only [List.length_nil, List.length_cons] at h <;> try omega
  have hb0 : b0 < 256 := hb b0 (by simp)
  have hb1 : b1 < 256 := hb b1 (by simp)
  have hb2 : b2 < 256 := hb b2 (by simp)
  have hb3 : b3 < 256 := hb b3 (by simp)
  have hb4 : b4 < 256 := hb b4 (by simp)
  have hb5 : b5 < 256 := hb b5 (by simp)
  have hb6 : b6 < 256 := hb b6 (by simp)
  have hb7 : b7 < 256 := hb b7 (by simp)
  have htake : (b0 :: b1 :: b2 :: b3 :: b4 :: b5 :: b6 :: b7 :: rest).take 8 =
      [b0, b1, b2, b3, b4, b5, b6, b7] := rfl
  have hval : be64 (b0 :: b1 :: b2 :: b3 :: b4 :: b5 :: b6 :: b7 :: rest) 0 =
      b0 * 2 ^ 56 + b1 * 2 ^ 48 + b2 * 2 ^ 40 + b3 * 2 ^ 32 + b4 * 2 ^ 24 + b5 * 2 ^ 16 +
        b6 * 2 ^ 8 + b7 := rfl
  rw [hval, htake]
  have hbits : bitsVal (bytesBits [b0, b1, b2, b3, b4, b5, b6, b7]) =
      b0 * 2 ^ 56 + b1 * 2 ^ 48 + b2 * 2 ^ 40 + b3 * 2 ^ 32 + b4 * 2 ^ 24 + b5 * 2 ^ 16 +
        b6 * 2 ^ 8 + b7 := by
    simp only [bytesBits_cons, bytesBits_nil, List.append_nil, bitsVal_append,
      bitsVal_natBits, List.length_append, natBits_length, bytesBits_length, List.length_nil]
    rw [Nat.mod_eq_of_lt (by omega), Nat.mod_eq_of_lt (by omega), Nat.mod_eq_of_lt (by omega),
      Nat.mod_eq_of_lt (by omega), Nat.mod_eq_of_lt (by omega), Nat.mod_eq_of_lt (by omega),
      Nat.mod_eq_of_lt (by omega), Nat.mod_eq_of_lt (by omega)]
    norm_num
    ring
  rw [hbits]
  constructor
  · rfl
  · omega

theorem be64_spec (l : List Nat) (k : Nat) (h : k + 8 ≤ l.length) (hb : ∀ b ∈ l, b < 256) :
    be64 l k = bitsVal (((bytesBits l).drop (8 * k)).take 64) ∧ be64 l k < 2 ^ 64 := by
  have hd : 8 ≤ (l.drop k).length := by
    rw [List.length_drop]
    omega
  have hbd : ∀ b ∈ l.drop k, b < 256 := fun b hm => hb b (List.mem_of_mem_drop hm)
  obtain ⟨h1, h2⟩ := be64_head (l.drop k) hd hbd
  constructor
  · rw [be64_drop k l, h1, ← bytesBits_drop]
    have h64 : (64 : Nat) = 8 * 8 := by norm_num
    rw [h64, ← bytesBits_take]
  · rw [be64_drop k l]
    exact h2

theorem be64_window_length (l : List Nat) (k : Nat) (h : k + 8 ≤ l.length) :
    (((bytesBits l).drop (8 * k)).take 64).length = 64 := by
  rw [List.length_take, List.length_drop, bytesBits_length]
  omega

/-! Extracting a bit field from a 64-bit window. -/

theorem natBits_extract (v off bits : Nat) (hob : off + bits ≤ 64) :
    bitsVal (((natBits 64 v).drop off).take bits) =
      v % 2 ^ (64 - off) / 2 ^ (64 - off - bits) := by
  have h1 : (64 : Nat) = off + (64 - off) := by omega
  have h2 : natBits 64 v = natBits off (v / 2 ^ (64 - off)) ++ natBits (64 - off) v := by
    conv =>
      lhs
      rw [h1]
    exact natBits_split off (64 - off) v
  rw [h2, List.drop_left' (natBits_length off _)]
  have h3 : 64 - off = bits + (64 - off - bits) := by omega
  have h4 : natBits (64 - off) v =
      natBits bits (v / 2 ^ (64 - off - bits)) ++ natBits (64 - off - bits) v := by
    conv =>
      lhs
      rw [h3]
    exact natBits_split bits (64 - off - bits) v
  rw [h4, List.take_left' (natBits_length bits _), bitsVal_natBits]
  have h5 : (2 : Nat) ^ (64 - off) = 2 ^ (64 - off - bits) * 2 ^ bits := by
    rw [← pow_add]
    congr 1
    omega
  rw [h5, Nat.mod_mul_right_div_self]

theorem shl64_mod (v off : Nat) (hoff : off < 64) :
    shl64 v off = v % 2 ^ (64 - off) * 2 ^ off := by
  unfold shl64
  rw [if_pos hoff]
  have h1 : (2 : Nat) ^ 64 = 2 ^ (64 - off) * 2 ^ off := by
    rw [← pow_add]
    congr 1
    omega
  rw [h1, Nat.mul_mod_mul_right]

/-- Well-formedness of a reader produced by `NewReader`: the (padded) source
is at least 8 bytes, `max` is the last safe 8-byte window offset, and the
source holds bytes. -/
def RWf (r : Reader) : Prop :=
  8 ≤ r.src.length ∧ r.max + 8 = r.src.length ∧ ∀ b ∈ r.src, b < 256

theorem NewReader_wf (src : List Nat) (hb : ∀ b ∈ src, b < 256) : RWf (NewReader src) := by
  unfold NewReader RWf
  by_cases h8 : 8 ≤ src.length
  · rw [if_pos h8]
    exact ⟨h8, show src.length - 8 + 8 = src.length by omega, hb⟩
  · rw [if_neg h8]
    refine ⟨?_, ?_, ?_⟩
    · show 8 ≤ (src ++ List.replicate (8 - src.length) 0).length
      simp only [List.length_append, List.length_replicate]
      omega
    · show 0 + 8 = (src ++ List.replicate (8 - src.length) 0).length
      simp only [List.length_append, List.length_replicate]
      omega
    · intro b hm
      rcases List.mem_append.mp hm with h | h
      · exact hb b h
      · have := List.eq_of_mem_replicate h
        omega

theorem window_read (W : List Bool) (off bits : Nat) (hlen : W.length = 64)
    (hoff : off + bits ≤ 64) (hb1 : 1 ≤ bits) (hb2 : bits ≤ 32) :
    shr64 (shl64 (bitsVal W) off) (64 - bits) % 2 ^ 32 = bitsVal ((W.drop off).take bits) := by
  have hVlt : bitsVal W < 2 ^ 64 := by
    have h := bitsVal_lt W
    rw [hlen] at h
    exact h
  rw [shl64_mod _ _ (by omega)]
  have hshr : shr64 (bitsVal W % 2 ^ (64 - off) * 2 ^ off) (64 - bits) =
      bitsVal W % 2 ^ (64 - off) / 2 ^ (64 - off - bits) := by
    unfold shr64
    rw [if_pos (by omega)]
    have hsplitp : (2 : Nat) ^ (64 - bits) = 2 ^ (64 - off - bits) * 2 ^ off := by
      rw [← pow_add]
      congr 1
      omega
    rw [hsplitp, Nat.mul_div_mul_right _ _ (Nat.two_pow_pos off)]
  rw [hshr, ← natBits_extract _ _ _ hoff]
  have hW : natBits 64 (bitsVal W) = W := by
    rw [← hlen]
    exact natBits_bitsVal W
  rw [hW]
  have hlt : bitsVal ((W.drop off).take bits) < 2 ^ 32 := by
    have h := bitsVal_lt ((W.drop off).take bits)
    have hl2 := List.length_take_le bits (W.drop off)
    have hp : (2 : Nat) ^ ((W.drop off).take bits).length ≤ 2 ^ 32 :=
      Nat.pow_le_pow_right (by norm_num) (by omega)
    omega
  rw [Nat.mod_eq_of_lt hlt]

/-- The core windowed-load lemma: a big-endian unsigned 32-bit get returns the
`bits`-wide big-endian field at the cursor, and advances the cursor by
`bits`. -/
theorem Uint32_spec (r : Reader) (bits : Nat) (h1 : 1 ≤ bits) (h2 : bits ≤ 32)
    (hwf : RWf r) (hidx : r.idx + bits ≤ 8 * r.src.length) :
    (r.Uint32 bits).1 = sliceBE (bytesBits r.src) r.idx bits ∧
      (r.Uint32 bits).2 = r.Skip bits := by
  obtain ⟨hlen8, hmax, hbytes⟩ := hwf
  refine ⟨?_, rfl⟩
  simp only [Reader.Uint32, loadSkip]
  have hskle : min (r.idx / 2 ^ 5 * 2 ^ 2) r.max ≤ r.max := Nat.min_le_right _ _
  have hsk8 : min (r.idx / 2 ^ 5 * 2 ^ 2) r.max * 2 ^ 3 ≤ r.idx := by
    have hmle := Nat.min_le_left (r.idx / 2 ^ 5 * 2 ^ 2) r.max
    have hd : r.idx / 2 ^ 5 * 2 ^ 2 * 2 ^ 3 ≤ r.idx := by
      norm_num
      omega
    calc min (r.idx / 2 ^ 5 * 2 ^ 2) r.max * 2 ^ 3
        ≤ r.idx / 2 ^ 5 * 2 ^ 2 * 2 ^ 3 := Nat.mul_le_mul_right _ hmle
      _ ≤ r.idx := hd
  have hoff : r.idx - min (r.idx / 2 ^ 5 * 2 ^ 2) r.max * 2 ^ 3 + bits ≤ 64 := by
    rcases Nat.le_total (r.idx / 2 ^ 5 * 2 ^ 2) r.max with hm | hm
    · rw [Nat.min_eq_left hm]
      have hmod : r.idx - r.idx / 2 ^ 5 * 2 ^ 2 * 2 ^ 3 = r.idx % 32 := by
        norm_num
        omega
      rw [hmod]
      omega
    · rw [Nat.min_eq_right hm]
      omega
  have hskiplen : min (r.idx / 2 ^ 5 * 2 ^ 2) r.max + 8 ≤ r.src.length := by omega
  obtain ⟨hbe, hbelt⟩ := be64_spec r.src (min (r.idx / 2 ^ 5 * 2 ^ 2) r.max) hskiplen hbytes
  have hwl := be64_window_length r.src (min (r.idx / 2 ^ 5 * 2 ^ 2) r.max) hskiplen
  rw [wsub_of_le (show bits ≤ 64 by omega) (by norm_num), hbe,
    window_read _ _ _ hwl hoff h1 h2]
  have hslice :
      ((((bytesBits r.src).drop (8 * min (r.idx / 2 ^ 5 * 2 ^ 2) r.max)).take 64).drop
            (r.idx - min (r.idx / 2 ^ 5 * 2 ^ 2) r.max * 2 ^ 3)).take bits =
        ((bytesBits r.src).drop r.idx).take bits := by
    rw [List.drop_take, List.take_take, Nat.min_eq_left (by omega), List.drop_drop]
    congr 2
    omega
  rw [hslice]
  rfl

theorem NewReader_idx (src : List Nat) : (NewReader src).idx = 0 := by
  unfold NewReader
  split <;> rfl

theorem NewReader_max (src : List Nat) : (NewReader src).max = src.length - 8 := by
  unfold NewReader
  split
  · rfl
  · show 0 = src.length - 8
    rename_i h
    omega

theorem NewReader_len (src : List Nat) : src.length ≤ (NewReader src).src.length := by
  unfold NewReader
  split
  · exact le_refl _
  · show src.length ≤ (src ++ List.replicate (8 - src.length) 0).length
    simp only [List.length_append, List.length_replicate]
    omega

theorem NewReader_slice (src : List Nat) (i bits : Nat) (h : i + bits ≤ 8 * src.length) :
    sliceBE (bytesBits (NewReader src).src) i bits = sliceBE (bytesBits src) i bits := by
  unfold NewReader
  split
  · rfl
  · show sliceBE (bytesBits (src ++ List.replicate (8 - src.length) 0)) i bits = _
    unfold sliceBE
    rw [bytesBits_append,
      List.drop_append_of_le_length (by rw [bytesBits_length]; omega),
      List.take_append_of_le_length (by rw [List.length_drop, bytesBits_length]; omega)]

/-- C2: windowed-load correctness of the big-endian unsigned 32-bit get.  For
every source, width `1 ≤ w ≤ 32` and cursor `i` with `i + w` inside the
logical data, the get — which computes its window offset as
`skip = min(idx>>5<<2, max)`, loads 8 bytes there big-endian, shifts left by
`idx - skip*8` and right by `64 - w` — returns exactly the `w`-bit big-endian
field of the source starting at bit `i`, and advances the cursor by exactly
`w`; near the end of the buffer the clamp re-reads earlier bytes but the
result is still correct. -/
theorem C2_windowed_load (src : List Nat) (hb : ∀ b ∈ src, b < 256) (i bits : Nat)
    (h1 : 1 ≤ bits) (h2 : bits ≤ 32) (hidx : i + bits ≤ 8 * src.length) :
    ((((NewReader src).Skip i)).Uint32 bits).1 = sliceBE (bytesBits src) i bits ∧
      ((((NewReader src).Skip i)).Uint32 bits).2.idx = i + bits ∧
      loadSkip ((NewReader src).Skip i) =
        min (((NewReader src).Skip i).idx / 2 ^ 5 * 2 ^ 2) ((NewReader src).max) := by
  have hwf : RWf ((NewReader src).Skip i) := NewReader_wf src hb
  have hlen := NewReader_len src
  have hiz : ((NewReader src).Skip i).idx = i := by
    show (NewReader src).idx + i = i
    rw [NewReader_idx]
    omega
  have hidx2 : ((NewReader src).Skip i).idx + bits ≤ 8 * ((NewReader src).Skip i).src.length := by
    rw [hiz]
    show i + bits ≤ 8 * (NewReader src).src.length
    omega
  obtain ⟨hv, hr⟩ := Uint32_spec ((NewReader src).Skip i) bits h1 h2 hwf hidx2
  refine ⟨?_, ?_, rfl⟩
  · rw [hv]
    show sliceBE (bytesBits (NewReader src).src) ((NewReader src).Skip i).idx bits = _
    rw [hiz]
    exact NewReader_slice src i bits hidx
  · rw [hr]
    show ((NewReader src).Skip i).idx + bits = i + bits
    rw [hiz]

/-- Witness for C2: reading 8 bits at bit offset 4 of `[0x12, 0x34, 0x56]`
yields `0x23`. -/
theorem C2_windowed_load_witness :
    ((((NewReader [0x12, 0x34, 0x56]).Skip 4)).Uint32 8).1 = 0x23 ∧
      ((((NewReader [0x12, 0x34, 0x56]).Skip 4)).Uint32 8).2.idx = 12 := by
  have h := C2_windowed_load [0x12, 0x34, 0x56] (by decide) 4 8 (by decide) (by decide)
    (by decide)
  refine ⟨h.1.trans (by decide), h.2.1⟩

/-! 64-bit big-endian get. -/

theorem sliceBE_lt (s : List Bool) (i w : Nat) : sliceBE s i w < 2 ^ w := by
  unfold sliceBE
  have h := bitsVal_lt ((s.drop i).take w)
  have hl := List.length_take_le w (s.drop i)
  have hp : (2 : Nat) ^ ((s.drop i).take w).length ≤ 2 ^ w :=
    Nat.pow_le_pow_right (by norm_num) hl
  omega

theorem sliceBE_split (s : List Bool) (i a b : Nat) (h : i + a + b ≤ s.length) :
    sliceBE s i (a + b) = sliceBE s i a * 2 ^ b + sliceBE s (i + a) b := by
  unfold sliceBE
  rw [List.take_add, bitsVal_append, List.drop_drop]
  congr 2
  rw [List.length_take, List.length_drop, Nat.min_eq_left (by omega)]

theorem Skip_Skip (r : Reader) (a b : Nat) : (r.Skip a).Skip b = r.Skip (a + b) := by
  simp [Reader.Skip, Nat.add_assoc]

theorem Uint64_spec (r : Reader) (bits : Nat) (h1 : 1 ≤ bits) (h2 : bits ≤ 64)
    (hwf : RWf r) (hidx : r.idx + bits ≤ 8 * r.src.length) :
    (r.Uint64 bits).1 = sliceBE (bytesBits r.src) r.idx bits ∧
      (r.Uint64 bits).2 = r.Skip bits := by
  simp only [Reader.Uint64]
  by_cases h32 : 32 < bits
  · rw [if_pos h32]
    obtain ⟨hv1, hr1⟩ := Uint32_spec r 32 (by omega) (le_refl _) hwf (by omega)
    have hwf2 : RWf ((r.Uint32 32).2) := by
      rw [hr1]
      exact hwf
    have hidx2 : (r.Uint32 32).2.idx + (bits - 32) ≤ 8 * (r.Uint32 32).2.src.length := by
      rw [hr1]
      show r.idx + 32 + (bits - 32) ≤ 8 * r.src.length
      omega
    obtain ⟨hv2, hr2⟩ := Uint32_spec (r.Uint32 32).2 (bits - 32) (by omega) (by omega)
      hwf2 hidx2
    have hidx32 : (r.Uint32 32).2.idx = r.idx + 32 := by rw [hr1]; rfl
    have hsrc2 : (r.Uint32 32).2.src = r.src := by rw [hr1]; rfl
    constructor
    · rw [hv1, hv2, hidx32, hsrc2]
      have hs1 : sliceBE (bytesBits r.src) r.idx 32 < 2 ^ 32 := sliceBE_lt _ _ _
      have hs2 : sliceBE (bytesBits r.src) (r.idx + 32) (bits - 32) < 2 ^ (bits - 32) :=
        sliceBE_lt _ _ _
      have hp32 : (2 : Nat) ^ (bits - 32) ≤ 2 ^ 32 :=
        Nat.pow_le_pow_right (by norm_num) (by omega)
      have hshl : shl64 (sliceBE (bytesBits r.src) r.idx 32) (bits - 32) =
          sliceBE (bytesBits r.src) r.idx 32 * 2 ^ (bits - 32) := by
        unfold shl64
        rw [if_pos (by omega)]
        apply Nat.mod_eq_of_lt
        calc sliceBE (bytesBits r.src) r.idx 32 * 2 ^ (bits - 32)
            < 2 ^ 32 * 2 ^ (bits - 32) := by
              apply Nat.mul_lt_mul_right (Nat.two_pow_pos _) |>.mpr hs1
          _ ≤ 2 ^ 32 * 2 ^ 32 := Nat.mul_le_mul_left _ hp32
          _ = 2 ^ 64 := by norm_num
      rw [hshl]
      have hsplit : sliceBE (bytesBits r.src) r.idx bits =
          sliceBE (bytesBits r.src) r.idx 32 * 2 ^ (bits - 32) +
            sliceBE (bytesBits r.src) (r.idx + 32) (bits - 32) := by
        have hb : bits = 32 + (bits - 32) := by omega
        conv =>
          lhs
          rw [hb]
        exact sliceBE_split _ _ _ _ (by rw [bytesBits_length]; omega)
      rw [← hsplit]
      exact Nat.mod_eq_of_lt (lt_of_lt_of_le (sliceBE_lt _ _ _)
        (Nat.pow_le_pow_right (by norm_num) h2))
    · rw [hr2, hr1, Skip_Skip]
      congr 1
      omega
  · rw [if_neg h32]
    exact Uint32_spec r bits h1 (by omega) hwf hidx

theorem Int64_spec (r : Reader) (bits : Nat) (h1 : 1 ≤ bits) (h2 : bits ≤ 64)
    (hwf : RWf r) (hidx : r.idx + bits ≤ 8 * r.src.length) :
    (r.Int64 bits).1 = extend (sliceBE (bytesBits r.src) r.idx bits) bits ∧
      (r.Int64 bits).2 = r.Skip bits := by
  obtain ⟨hv, hr⟩ := Uint64_spec r bits h1 h2 hwf hidx
  simp only [Reader.Int64]
  rw [hv, hr]
  exact ⟨rfl, rfl⟩

/-! Little-endian machinery: byte swap, generic slices, `leDecode`. -/

theorem natBits_extract_gen (n v off bits : Nat) (hob : off + bits ≤ n) :
    bitsVal (((natBits n v).drop off).take bits) =
      v % 2 ^ (n - off) / 2 ^ (n - off - bits) := by
  have h1 : n = off + (n - off) := by omega
  have h2 : natBits n v = natBits off (v / 2 ^ (n - off)) ++ natBits (n - off) v := by
    conv =>
      lhs
      rw [h1]
    exact natBits_split off (n - off) v
  rw [h2, List.drop_left' (natBits_length off _)]
  have h3 : n - off = bits + (n - off - bits) := by omega
  have h4 : natBits (n - off) v =
      natBits bits (v / 2 ^ (n - off - bits)) ++ natBits (n - off - bits) v := by
    conv =>
      lhs
      rw [h3]
    exact natBits_split bits (n - off - bits) v
  rw [h4, List.take_left' (natBits_length bits _), bitsVal_natBits]
  have h5 : (2 : Nat) ^ (n - off) = 2 ^ (n - off - bits) * 2 ^ bits := by
    rw [← pow_add]
    congr 1
    omega
  rw [h5, Nat.mod_mul_right_div_self]

theorem slice_bitsVal (V : List Bool) (n a b : Nat) (hV : V.length = n) (h : a + b ≤ n) :
    bitsVal ((V.drop a).take b) = bitsVal V / 2 ^ (n - a - b) % 2 ^ b := by
  have hv : natBits n (bitsVal V) = V := by
    rw [← hV]
    exact natBits_bitsVal V
  conv =>
    lhs
    rw [← hv]
  rw [natBits_extract_gen n (bitsVal V) a b h]
  have h5 : (2 : Nat) ^ (n - a) = 2 ^ (n - a - b) * 2 ^ b := by
    rw [← pow_add]
    congr 1
    omega
  rw [h5, Nat.mod_mul_right_div_self]

theorem leDecode_short (l : List Bool) (h : l.length < 8) : leDecode l = bitsVal l := by
  rcases l with _ | ⟨a0, _ | ⟨a1, _ | ⟨a2, _ | ⟨a3, _ | ⟨a4, _ | ⟨a5, _ | ⟨a6, _ | ⟨a7, t⟩⟩⟩⟩⟩⟩⟩⟩ <;>
    first
      | rfl
      | (simp only [List.length_cons] at h; omega)

theorem leDecode_cons8 (a0 a1 a2 a3 a4 a5 a6 a7 : Bool) (t : List Bool) :
    leDecode (a0 :: a1 :: a2 :: a3 :: a4 :: a5 :: a6 :: a7 :: t) =
      bitsVal [a0, a1, a2, a3, a4, a5, a6, a7] + 2 ^ 8 * leDecode t := rfl

theorem leDecode_step (l : List Bool) (n : Nat) (h8 : 8 ≤ l.length) :
    leDecode (l.take (8 + n)) = bitsVal (l.take 8) + 2 ^ 8 * leDecode ((l.drop 8).take n) := by
  rcases l with _ | ⟨a0, _ | ⟨a1, _ | ⟨a2, _ | ⟨a3, _ | ⟨a4, _ | ⟨a5, _ | ⟨a6, _ | ⟨a7, t⟩⟩⟩⟩⟩⟩⟩⟩ <;>
    simp only [List.length_nil, List.length_cons] at h8 <;> try omega
  have ht : (a0 :: a1 :: a2 :: a3 :: a4 :: a5 :: a6 :: a7 :: t).take (8 + n) =
      a0 :: a1 :: a2 :: a3 :: a4 :: a5 :: a6 :: a7 :: t.take n := by
    rw [show 8 + n = n + 8 by omega]
    rfl
  rw [ht, leDecode_cons8]
  rfl

theorem bswap32_eq (v : Nat) (hv : v < 2 ^ 32) :
    bswap32 v = v % 2 ^ 8 * 2 ^ 24 + v / 2 ^ 8 % 2 ^ 8 * 2 ^ 16 +
      v / 2 ^ 16 % 2 ^ 8 * 2 ^ 8 + v / 2 ^ 24 := by
  unfold bswap32 shr32 shl32
  have t24 : (24 : Nat) < 32 := by norm_num
  have t8 : (8 : Nat) < 32 := by norm_num
  simp only [if_pos t24, if_pos t8]
  have hB : v / 2 ^ 8 &&& 0xFF00 = v / 2 ^ 16 % 2 ^ 8 * 2 ^ 8 := by
    rw [show (0xFF00 : Nat) = (2 ^ 8 - 1) * 2 ^ 8 by norm_num, and_ones_shl,
      Nat.div_div_eq_div_mul, ← pow_add]
  have hCpre : v * 2 ^ 8 % 2 ^ 32 = v % 2 ^ 24 * 2 ^ 8 := by
    rw [show (2 : Nat) ^ 32 = 2 ^ 24 * 2 ^ 8 by norm_num, Nat.mul_mod_mul_right]
  have hC : v * 2 ^ 8 % 2 ^ 32 &&& 0xFF0000 = v / 2 ^ 8 % 2 ^ 8 * 2 ^ 16 := by
    rw [hCpre, show (0xFF0000 : Nat) = (2 ^ 8 - 1) * 2 ^ 16 by norm_num, and_ones_shl]
    have h1 : v % 2 ^ 24 * 2 ^ 8 / 2 ^ 16 = v % 2 ^ 24 / 2 ^ 8 := by
      rw [show (2 : Nat) ^ 16 = 2 ^ 8 * 2 ^ 8 by norm_num, ← Nat.div_div_eq_div_mul,
        Nat.mul_div_cancel _ (Nat.two_pow_pos 8)]
    rw [h1]
    have h2 : v % 2 ^ 24 / 2 ^ 8 % 2 ^ 8 = v / 2 ^ 8 % 2 ^ 8 := by
      rw [show (2 : Nat) ^ 24 = 2 ^ 8 * 2 ^ 16 by norm_num, Nat.mod_mul_right_div_self,
        Nat.mod_mod_of_dvd _ (by norm_num : (2 : Nat) ^ 8 ∣ 2 ^ 16)]
    rw [h2]
  have hD : v * 2 ^ 24 % 2 ^ 32 = v % 2 ^ 8 * 2 ^ 24 := by
    rw [show (2 : Nat) ^ 32 = 2 ^ 8 * 2 ^ 24 by norm_num, Nat.mul_mod_mul_right]
  rw [hB, hC, hD]
  have hA : v / 2 ^ 24 < 2 ^ 8 := by omega
  have hor1 : v / 2 ^ 24 ||| v / 2 ^ 16 % 2 ^ 8 * 2 ^ 8 =
      v / 2 ^ 16 % 2 ^ 8 * 2 ^ 8 + v / 2 ^ 24 := by
    rw [Nat.lor_comm]
    exact lor_eq_add (dvd_mul_left _ _) hA
  rw [hor1]
  have hlt2 : v / 2 ^ 16 % 2 ^ 8 * 2 ^ 8 + v / 2 ^ 24 < 2 ^ 16 := by
    have := Nat.mod_lt (v / 2 ^ 16) (Nat.two_pow_pos 8)
    omega
  have hor2 : v / 2 ^ 16 % 2 ^ 8 * 2 ^ 8 + v / 2 ^ 24 ||| v / 2 ^ 8 % 2 ^ 8 * 2 ^ 16 =
      v / 2 ^ 8 % 2 ^ 8 * 2 ^ 16 + (v / 2 ^ 16 % 2 ^ 8 * 2 ^ 8 + v / 2 ^ 24) := by
    rw [Nat.lor_comm]
    exact lor_eq_add (dvd_mul_left _ _) hlt2
  rw [hor2]
  have hlt3 : v / 2 ^ 8 % 2 ^ 8 * 2 ^ 16 + (v / 2 ^ 16 % 2 ^ 8 * 2 ^ 8 + v / 2 ^ 24) <
      2 ^ 24 := by
    have h1 := Nat.mod_lt (v / 2 ^ 8) (Nat.two_pow_pos 8)
    have h2 := Nat.mod_lt (v / 2 ^ 16) (Nat.two_pow_pos 8)
    omega
  have hor3 : v / 2 ^ 8 % 2 ^ 8 * 2 ^ 16 + (v / 2 ^ 16 % 2 ^ 8 * 2 ^ 8 + v / 2 ^ 24) |||
      v % 2 ^ 8 * 2 ^ 24 =
      v % 2 ^ 8 * 2 ^ 24 +
        (v / 2 ^ 8 % 2 ^ 8 * 2 ^ 16 + (v / 2 ^ 16 % 2 ^ 8 * 2 ^ 8 + v / 2 ^ 24)) := by
    rw [Nat.lor_comm]
    exact lor_eq_add (dvd_mul_left _ _) hlt3
  rw [hor3]
  ring

theorem bswap32_lt (v : Nat) (hv : v < 2 ^ 32) : bswap32 v < 2 ^ 32 := by
  rw [bswap32_eq v hv]
  have h1 := Nat.mod_lt v (Nat.two_pow_pos 8)
  have h2 := Nat.mod_lt (v / 2 ^ 8) (Nat.two_pow_pos 8)
  have h3 := Nat.mod_lt (v / 2 ^ 16) (Nat.two_pow_pos 8)
  have h4 : v / 2 ^ 24 < 2 ^ 8 := by omega
  omega

theorem slice_bitsVal0 (V : List Bool) (n b : Nat) (hV : V.length = n) (h : b ≤ n) :
    bitsVal (V.take b) = bitsVal V / 2 ^ (n - b) % 2 ^ b := by
  have h0 := slice_bitsVal V n 0 b hV (by omega)
  rw [List.drop_zero] at h0
  have he : n - 0 - b = n - b := by omega
  rw [he] at h0
  exact h0

theorem byte_split (u left : Nat) (hleft : left ≤ 7) :
    u % 2 ^ 8 / 2 ^ (8 - left) = u / 2 ^ (8 - left) % 2 ^ left := by
  rw [show (2 : Nat) ^ 8 = 2 ^ (8 - left) * 2 ^ left by rw [← pow_add]; congr 1; omega,
    Nat.mod_mul_right_div_self]

theorem val_subslice (v q left : Nat) (hleft : left ≤ 7) :
    v / 2 ^ (8 * q + 8 - left) % 2 ^ left = v / 2 ^ (8 * q) % 2 ^ 8 / 2 ^ (8 - left) := by
  rw [byte_split (v / 2 ^ (8 * q)) left hleft, Nat.div_div_eq_div_mul, ← pow_add]
  have he : 8 * q + 8 - left = 8 * q + (8 - left) := by omega
  rw [he]

theorem digit_div (x r k : Nat) (hr : r < 2 ^ k) : (x * 2 ^ k + r) / 2 ^ k = x := by
  rw [Nat.mul_comm, Nat.mul_add_div (Nat.two_pow_pos k), Nat.div_eq_of_lt hr, Nat.add_zero]

theorem digit_mod (x r k : Nat) (hr : r < 2 ^ k) : (x * 2 ^ k + r) % 2 ^ k = r := by
  rw [Nat.mul_comm, Nat.mul_add_mod, Nat.mod_eq_of_lt hr]

theorem bswap_bytes (X : Nat) (hX : X < 2 ^ 32) :
    bswap32 X % 2 ^ 8 = X / 2 ^ 24 % 2 ^ 8 ∧
      bswap32 X / 2 ^ 8 % 2 ^ 8 = X / 2 ^ 16 % 2 ^ 8 ∧
      bswap32 X / 2 ^ 16 % 2 ^ 8 = X / 2 ^ 8 % 2 ^ 8 ∧
      bswap32 X / 2 ^ 24 % 2 ^ 8 = X % 2 ^ 8 := by
  have h := bswap32_eq X hX
  have hd : X / 2 ^ 24 < 2 ^ 8 := by omega
  have hg : X / 2 ^ 8 % 2 ^ 8 < 2 ^ 8 := Nat.mod_lt _ (Nat.two_pow_pos 8)
  have hb : X / 2 ^ 16 % 2 ^ 8 < 2 ^ 8 := Nat.mod_lt _ (Nat.two_pow_pos 8)
  have ha : X % 2 ^ 8 < 2 ^ 8 := Nat.mod_lt _ (Nat.two_pow_pos 8)
  have hB : bswap32 X =
      (X % 2 ^ 8 * 2 ^ 16 + X / 2 ^ 8 % 2 ^ 8 * 2 ^ 8 + X / 2 ^ 16 % 2 ^ 8) * 2 ^ 8 +
        X / 2 ^ 24 := by
    rw [h]; ring
  have e0 : bswap32 X % 2 ^ 8 = X / 2 ^ 24 := by
    rw [hB]; exact digit_mod _ _ _ hd
  have e1 : bswap32 X / 2 ^ 8 =
      X % 2 ^ 8 * 2 ^ 16 + X / 2 ^ 8 % 2 ^ 8 * 2 ^ 8 + X / 2 ^ 16 % 2 ^ 8 := by
    rw [hB]; exact digit_div _ _ _ hd
  have e1s : X % 2 ^ 8 * 2 ^ 16 + X / 2 ^ 8 % 2 ^ 8 * 2 ^ 8 + X / 2 ^ 16 % 2 ^ 8 =
      (X % 2 ^ 8 * 2 ^ 8 + X / 2 ^ 8 % 2 ^ 8) * 2 ^ 8 + X / 2 ^ 16 % 2 ^ 8 := by ring
  have e2 : bswap32 X / 2 ^ 8 % 2 ^ 8 = X / 2 ^ 16 % 2 ^ 8 := by
    rw [e1, e1s]; exact digit_mod _ _ _ hb
  have e3d : bswap32 X / 2 ^ 16 = X % 2 ^ 8 * 2 ^ 8 + X / 2 ^ 8 % 2 ^ 8 := by
    rw [show (2 : Nat) ^ 16 = 2 ^ 8 * 2 ^ 8 by norm_num, ← Nat.div_div_eq_div_mul, e1, e1s]
    exact digit_div _ _ _ hb
  have e3 : bswap32 X / 2 ^ 16 % 2 ^ 8 = X / 2 ^ 8 % 2 ^ 8 := by
    rw [e3d]; exact digit_mod _ _ _ hg
  have e4 : bswap32 X / 2 ^ 24 % 2 ^ 8 = X % 2 ^ 8 := by
    have e4d : bswap32 X / 2 ^ 24 = X % 2 ^ 8 := by
      rw [show (2 : Nat) ^ 24 = 2 ^ 16 * 2 ^ 8 by norm_num, ← Nat.div_div_eq_div_mul, e3d]
      exact digit_div _ _ _ hg
    rw [e4d]; exact Nat.mod_eq_of_lt ha
  exact ⟨e0.trans (Nat.mod_eq_of_lt hd).symm, e2, e3, e4⟩

theorem shr32_eval (x n : Nat) (hn : n < 32) : shr32 x n = x / 2 ^ n := by
  unfold shr32
  rw [if_pos hn]

theorem shl32_eval (x n : Nat) (hn : n < 32) (hlt : x * 2 ^ n < 2 ^ 32) :
    shl32 x n = x * 2 ^ n := by
  unfold shl32
  rw [if_pos hn]
  exact Nat.mod_eq_of_lt hlt

theorem bitsVal_replicate_false (n : Nat) : bitsVal (List.replicate n false) = 0 := by
  induction n with
  | zero => rfl
  | succ k ih =>
    rw [List.replicate_succ, bitsVal_cons, ih]
    simp

theorem sub_chain0 (B X L t : Nat) (hL : L ≤ 7) (hbyte : B % 2 ^ 8 = X / 2 ^ t % 2 ^ 8) :
    B / 2 ^ (8 - L) % 2 ^ L = X / 2 ^ (t + 8 - L) % 2 ^ L := by
  rw [← byte_split B L hL, hbyte, byte_split _ _ hL, Nat.div_div_eq_div_mul, ← pow_add,
    show t + (8 - L) = t + 8 - L by omega]

theorem sub_chain (B X L s t : Nat) (hL : L ≤ 7) (hbyte : B / 2 ^ s % 2 ^ 8 = X / 2 ^ t % 2 ^ 8) :
    B / 2 ^ (8 - L) / 2 ^ s % 2 ^ L = X / 2 ^ (t + 8 - L) % 2 ^ L := by
  rw [Nat.div_div_eq_div_mul, Nat.mul_comm, ← Nat.div_div_eq_div_mul]
  exact sub_chain0 (B / 2 ^ s) X L t hL hbyte

theorem le_extract (V : List Bool) (bits : Nat) (hV : V.length = 32)
    (h1 : 1 ≤ bits) (h2 : bits ≤ 32) :
    ((shr32 (bswap32 (bitsVal V)) (8 - (bits &&& 7)) &&&
        shl32 (compl32 (shl32 (2 ^ 32 - 1) (bits &&& 7))) (bits &&& 0xF8)) +
      (bswap32 (bitsVal V) &&& compl32 (shl32 (2 ^ 32 - 1) (bits &&& 0xF8)))) % 2 ^ 32 =
      leDecode (V.take bits) := by
  have hX : bitsVal V < 2 ^ 32 := by
    have h := bitsVal_lt V
    rwa [hV] at h
  obtain ⟨e0, e2, e3, e4⟩ := bswap_bytes (bitsVal V) hX
  have hm7 : bits &&& 7 = bits % 8 := by
    rw [show (7 : Nat) = 2 ^ 3 - 1 by norm_num, Nat.and_pow_two_sub_one_eq_mod]
  have hmF8 : bits &&& 0xF8 = bits / 8 * 8 := by
    rw [show (0xF8 : Nat) = (2 ^ 5 - 1) * 2 ^ 3 by norm_num, and_ones_shl]
    omega
  rw [hm7, hmF8, shr32_eval _ _ (show 8 - bits % 8 < 32 by omega),
    compl32_shl_ones (show bits % 8 ≤ 32 by omega),
    compl32_shl_ones (show bits / 8 * 8 ≤ 32 by omega),
    Nat.and_pow_two_sub_one_eq_mod]
  have hL : bits % 8 ≤ 7 := by omega
  have hpow : (2 : Nat) ^ (bits % 8) ≤ 2 ^ 7 := Nat.pow_le_pow_right (by norm_num) hL
  have hq : bits / 8 = 0 ∨ bits / 8 = 1 ∨ bits / 8 = 2 ∨ bits / 8 = 3 ∨ bits / 8 = 4 := by
    omega
  rcases hq with hq | hq | hq | hq | hq
  · -- 1 ≤ bits ≤ 7
    rw [hq, show (0 : Nat) * 8 = 0 from rfl, show bits % 8 = bits by omega,
      shl32_eval _ 0 (by norm_num)
        (by
          have hp : (2 : Nat) ^ bits ≤ 2 ^ 7 := Nat.pow_le_pow_right (by norm_num) (by omega)
          simp only [pow_zero, Nat.mul_one]
          omega),
      and_ones_shl]
    simp only [pow_zero, Nat.div_one, Nat.mul_one, Nat.mod_one, Nat.add_zero]
    have hsub := sub_chain0 (bswap32 (bitsVal V)) (bitsVal V) bits 24 (by omega) e0
    rw [show 24 + 8 - bits = 32 - bits by omega] at hsub
    rw [hsub, leDecode_short (V.take bits) (by rw [List.length_take, hV]; omega),
      slice_bitsVal0 V 32 bits hV (by omega)]
    have hA : bitsVal V / 2 ^ (32 - bits) % 2 ^ bits < 2 ^ bits :=
      Nat.mod_lt _ (Nat.two_pow_pos _)
    have hp : (2 : Nat) ^ bits ≤ 2 ^ 7 := Nat.pow_le_pow_right (by norm_num) (by omega)
    omega
  · -- 8 ≤ bits ≤ 15
    rw [hq, show (1 : Nat) * 8 = 8 from rfl,
      shl32_eval _ 8 (by norm_num) (by omega), and_ones_shl]
    have hsub := sub_chain (bswap32 (bitsVal V)) (bitsVal V) (bits % 8) 8 16 hL e2
    rw [show 16 + 8 - bits % 8 = 24 - bits % 8 by omega] at hsub
    rw [hsub, e0]
    conv_rhs => rw [show bits = 8 + bits % 8 by omega]
    rw [leDecode_step V (bits % 8) (by omega),
      leDecode_short ((V.drop 8).take (bits % 8))
        (by rw [List.length_take, List.length_drop, hV]; omega),
      slice_bitsVal0 V 32 8 hV (by norm_num), show (32 : Nat) - 8 = 24 by norm_num]
    have hslc := slice_bitsVal V 32 8 (bits % 8) hV (by omega)
    rw [show 32 - 8 - bits % 8 = 24 - bits % 8 by omega] at hslc
    rw [hslc]
    have hA : bitsVal V / 2 ^ (24 - bits % 8) % 2 ^ (bits % 8) < 2 ^ (bits % 8) :=
      Nat.mod_lt _ (Nat.two_pow_pos _)
    have hB : bitsVal V / 2 ^ 24 % 2 ^ 8 < 2 ^ 8 := Nat.mod_lt _ (by norm_num)
    omega
  · -- 16 ≤ bits ≤ 23
    rw [hq, show (2 : Nat) * 8 = 16 from rfl,
      shl32_eval _ 16 (by norm_num) (by omega), and_ones_shl]
    have hsub := sub_chain (bswap32 (bitsVal V)) (bitsVal V) (bits % 8) 16 8 hL e3
    rw [show 8 + 8 - bits % 8 = 16 - bits % 8 by omega] at hsub
    have hvm : bswap32 (bitsVal V) % 2 ^ 16 =
        bitsVal V / 2 ^ 24 % 2 ^ 8 + 2 ^ 8 * (bitsVal V / 2 ^ 16 % 2 ^ 8) := by
      rw [show (2 : Nat) ^ 16 = 2 ^ 8 * 2 ^ 8 by norm_num, Nat.mod_mul, e0, e2]
      norm_num
    rw [hsub, hvm]
    conv_rhs => rw [show bits = 8 + (8 + bits % 8) by omega]
    rw [leDecode_step V (8 + bits % 8) (by omega),
      leDecode_step (V.drop 8) (bits % 8) (by rw [List.length_drop, hV]; omega),
      List.drop_drop,
      leDecode_short ((V.drop (8 + 8)).take (bits % 8))
        (by rw [List.length_take, List.length_drop, hV]; omega),
      slice_bitsVal0 V 32 8 hV (by norm_num), show (32 : Nat) - 8 = 24 by norm_num]
    have hs1 := slice_bitsVal V 32 8 8 hV (by norm_num)
    rw [show (32 : Nat) - 8 - 8 = 16 by norm_num] at hs1
    rw [hs1]
    have hslc := slice_bitsVal V 32 (8 + 8) (bits % 8) hV (by omega)
    rw [show 32 - (8 + 8) - bits % 8 = 16 - bits % 8 by omega] at hslc
    rw [hslc]
    have hA : bitsVal V / 2 ^ (16 - bits % 8) % 2 ^ (bits % 8) < 2 ^ (bits % 8) :=
      Nat.mod_lt _ (Nat.two_pow_pos _)
    have hB : bitsVal V / 2 ^ 24 % 2 ^ 8 < 2 ^ 8 := Nat.mod_lt _ (by norm_num)
    have hC : bitsVal V / 2 ^ 16 % 2 ^ 8 < 2 ^ 8 := Nat.mod_lt _ (by norm_num)
    omega
  · -- 24 ≤ bits ≤ 31
    rw [hq, show (3 : Nat) * 8 = 24 from rfl,
      shl32_eval _ 24 (by norm_num) (by omega), and_ones_shl]
    have he4 : bswap32 (bitsVal V) / 2 ^ 24 % 2 ^ 8 = bitsVal V / 2 ^ 0 % 2 ^ 8 := by
      rw [pow_zero, Nat.div_one]
      exact e4
    have hsub := sub_chain (bswap32 (bitsVal V)) (bitsVal V) (bits % 8) 24 0 hL he4
    rw [show 0 + 8 - bits % 8 = 8 - bits % 8 by omega] at hsub
    have hvm : bswap32 (bitsVal V) % 2 ^ 24 =
        bitsVal V / 2 ^ 24 % 2 ^ 8 +
          2 ^ 8 * (bitsVal V / 2 ^ 16 % 2 ^ 8 + 2 ^ 8 * (bitsVal V / 2 ^ 8 % 2 ^ 8)) := by
      rw [show (2 : Nat) ^ 24 = 2 ^ 8 * 2 ^ 16 by norm_num, Nat.mod_mul,
        show (2 : Nat) ^ 16 = 2 ^ 8 * 2 ^ 8 by norm_num, Nat.mod_mul,
        Nat.div_div_eq_div_mul, show (2 : Nat) ^ 8 * 2 ^ 8 = 2 ^ 16 by norm_num, e0, e2, e3]
      norm_num
    rw [hsub, hvm]
    conv_rhs => rw [show bits = 8 + (8 + (8 + bits % 8)) by omega]
    rw [leDecode_step V (8 + (8 + bits % 8)) (by omega),
      leDecode_step (V.drop 8) (8 + bits % 8) (by rw [List.length_drop, hV]; omega),
      List.drop_drop,
      leDecode_step (V.drop (8 + 8)) (bits % 8) (by rw [List.length_drop, hV]; omega),
      List.drop_drop,
      leDecode_short ((V.drop (8 + (8 + 8))).take (bits % 8))
        (by rw [List.length_take, List.length_drop, hV]; omega),
      slice_bitsVal0 V 32 8 hV (by norm_num), show (32 : Nat) - 8 = 24 by norm_num]
    have hs1 := slice_bitsVal V 32 8 8 hV (by norm_num)
    rw [show (32 : Nat) - 8 - 8 = 16 by norm_num] at hs1
    rw [hs1]
    have hs2 := slice_bitsVal V 32 (8 + 8) 8 hV (by norm_num)
    rw [show (32 : Nat) - (8 + 8) - 8 = 8 by norm_num] at hs2
    rw [hs2]
    have hslc := slice_bitsVal V 32 (8 + (8 + 8)) (bits % 8) hV (by omega)
    rw [show 32 - (8 + (8 + 8)) - bits % 8 = 8 - bits % 8 by omega] at hslc
    rw [hslc]
    have hA : bitsVal V / 2 ^ (8 - bits % 8) % 2 ^ (bits % 8) < 2 ^ (bits % 8) :=
      Nat.mod_lt _ (Nat.two_pow_pos _)
    have hB : bitsVal V / 2 ^ 24 % 2 ^ 8 < 2 ^ 8 := Nat.mod_lt _ (by norm_num)
    have hC : bitsVal V / 2 ^ 16 % 2 ^ 8 < 2 ^ 8 := Nat.mod_lt _ (by norm_num)
    have hC8 : bitsVal V / 2 ^ 8 % 2 ^ 8 < 2 ^ 8 := Nat.mod_lt _ (by norm_num)
    omega
  · -- bits = 32
    have hb32 : bits = 32 := by omega
    subst hb32
    rw [show (32 : Nat) / 8 * 8 = 32 from rfl, show (32 : Nat) % 8 = 0 from rfl,
      show (8 : Nat) - 0 = 8 from rfl, show (2 : Nat) ^ 0 - 1 = 0 from rfl,
      show shl32 0 32 = 0 by unfold shl32; rw [if_neg (by norm_num)],
      Nat.and_zero, Nat.zero_add,
      Nat.mod_eq_of_lt (show bswap32 (bitsVal V) % 2 ^ 32 < 2 ^ 32 from
        Nat.mod_lt _ (by norm_num)),
      Nat.mod_eq_of_lt (bswap32_lt _ hX)]
    have h := bswap32_eq (bitsVal V) hX
    conv_rhs => rw [show (32 : Nat) = 8 + (8 + (8 + (8 + 0))) by norm_num]
    rw [leDecode_step V (8 + (8 + (8 + 0))) (by omega),
      leDecode_step (V.drop 8) (8 + (8 + 0)) (by rw [List.length_drop, hV]; omega),
      List.drop_drop,
      leDecode_step (V.drop (8 + 8)) (8 + 0) (by rw [List.length_drop, hV]; omega),
      List.drop_drop,
      leDecode_step (V.drop (8 + (8 + 8))) 0 (by simp [List.length_drop, hV]),
      List.drop_drop, List.take_zero,
      show leDecode ([] : List Bool) = 0 from rfl,
      slice_bitsVal0 V 32 8 hV (by norm_num), show (32 : Nat) - 8 = 24 by norm_num]
    have hs1 := slice_bitsVal V 32 8 8 hV (by norm_num)
    rw [show (32 : Nat) - 8 - 8 = 16 by norm_num] at hs1
    rw [hs1]
    have hs2 := slice_bitsVal V 32 (8 + 8) 8 hV (by norm_num)
    rw [show (32 : Nat) - (8 + 8) - 8 = 8 by norm_num] at hs2
    rw [hs2]
    have hs3 := slice_bitsVal V 32 (8 + (8 + 8)) 8 hV (by norm_num)
    rw [show (32 : Nat) - (8 + (8 + 8)) - 8 = 0 by norm_num, pow_zero, Nat.div_one] at hs3
    rw [hs3]
    have hd : bitsVal V / 2 ^ 24 < 2 ^ 8 := by omega
    have hB : bitsVal V % 2 ^ 8 < 2 ^ 8 := Nat.mod_lt _ (by norm_num)
    have hC : bitsVal V / 2 ^ 8 % 2 ^ 8 < 2 ^ 8 := Nat.mod_lt _ (by norm_num)
    have hD : bitsVal V / 2 ^ 16 % 2 ^ 8 < 2 ^ 8 := Nat.mod_lt _ (by norm_num)
    omega

theorem shl64_div32 (W : List Bool) (off : Nat) (hlen : W.length = 64) (hoff : off < 64) :
    shl64 (bitsVal W) off / 2 ^ 32 =
      bitsVal ((W.drop off ++ List.replicate off false).take 32) := by
  have hWlt : bitsVal W < 2 ^ 64 := by
    have h := bitsVal_lt W
    rwa [hlen] at h
  have hdropW : bitsVal (W.drop off) = bitsVal W % 2 ^ (64 - off) := by
    have h := slice_bitsVal W 64 off (64 - off) hlen (by omega)
    rw [List.take_of_length_le (by rw [List.length_drop, hlen]),
      show 64 - off - (64 - off) = 0 by omega, pow_zero, Nat.div_one] at h
    exact h
  have hZlen : (W.drop off ++ List.replicate off false).length = 64 := by
    rw [List.length_append, List.length_drop, List.length_replicate, hlen]
    omega
  have hZval : bitsVal (W.drop off ++ List.replicate off false) =
      bitsVal W % 2 ^ (64 - off) * 2 ^ off := by
    rw [bitsVal_append, bitsVal_replicate_false, List.length_replicate, Nat.add_zero, hdropW]
  have hs := slice_bitsVal0 (W.drop off ++ List.replicate off false) 64 32 hZlen (by norm_num)
  rw [show (64 : Nat) - 32 = 32 by norm_num, hZval] at hs
  have hZlt : bitsVal W % 2 ^ (64 - off) * 2 ^ off < 2 ^ 64 := by
    have h := bitsVal_lt (W.drop off ++ List.replicate off false)
    rw [hZlen, hZval] at h
    exact h
  rw [hs, shl64_mod _ _ hoff]
  exact (Nat.mod_eq_of_lt (by omega)).symm

theorem Uint32Le_spec (r : Reader) (bits : Nat) (h1 : 1 ≤ bits) (h2 : bits ≤ 32)
    (hwf : RWf r) (hidx : r.idx + bits ≤ 8 * r.src.length) :
    (r.Uint32Le bits).1 = sliceLE (bytesBits r.src) r.idx bits ∧
      (r.Uint32Le bits).2 = r.Skip bits := by
  obtain ⟨hlen8, hmax, hbytes⟩ := hwf
  refine ⟨?_, rfl⟩
  simp only [Reader.Uint32Le, loadSkip]
  have hsk8 : min (r.idx / 2 ^ 5 * 2 ^ 2) r.max * 2 ^ 3 ≤ r.idx := by
    have hmle := Nat.min_le_left (r.idx / 2 ^ 5 * 2 ^ 2) r.max
    have hd : r.idx / 2 ^ 5 * 2 ^ 2 * 2 ^ 3 ≤ r.idx := by
      norm_num
      omega
    calc min (r.idx / 2 ^ 5 * 2 ^ 2) r.max * 2 ^ 3
        ≤ r.idx / 2 ^ 5 * 2 ^ 2 * 2 ^ 3 := Nat.mul_le_mul_right _ hmle
      _ ≤ r.idx := hd
  have hoff : r.idx - min (r.idx / 2 ^ 5 * 2 ^ 2) r.max * 2 ^ 3 + bits ≤ 64 := by
    rcases Nat.le_total (r.idx / 2 ^ 5 * 2 ^ 2) r.max with hm | hm
    · rw [Nat.min_eq_left hm]
      have hmod : r.idx - r.idx / 2 ^ 5 * 2 ^ 2 * 2 ^ 3 = r.idx % 32 := by
        norm_num
        omega
      rw [hmod]
      omega
    · rw [Nat.min_eq_right hm]
      omega
  have hskiplen : min (r.idx / 2 ^ 5 * 2 ^ 2) r.max + 8 ≤ r.src.length := by omega
  obtain ⟨hbe, hbelt⟩ := be64_spec r.src (min (r.idx / 2 ^ 5 * 2 ^ 2) r.max) hskiplen hbytes
  have hwl := be64_window_length r.src (min (r.idx / 2 ^ 5 * 2 ^ 2) r.max) hskiplen
  rw [hbe, shl64_div32 _ _ hwl (by omega)]
  have hVlen :
      (((((bytesBits r.src).drop (8 * min (r.idx / 2 ^ 5 * 2 ^ 2) r.max)).take 64).drop
            (r.idx - min (r.idx / 2 ^ 5 * 2 ^ 2) r.max * 2 ^ 3) ++
          List.replicate (r.idx - min (r.idx / 2 ^ 5 * 2 ^ 2) r.max * 2 ^ 3) false).take
          32).length = 32 := by
    rw [List.length_take, List.length_append, List.length_drop, hwl, List.length_replicate]
    omega
  rw [le_extract _ bits hVlen h1 h2, List.take_take, Nat.min_eq_left h2,
    List.take_append_of_le_length (by rw [List.length_drop, hwl]; omega)]
  have hslice :
      ((((bytesBits r.src).drop (8 * min (r.idx / 2 ^ 5 * 2 ^ 2) r.max)).take 64).drop
            (r.idx - min (r.idx / 2 ^ 5 * 2 ^ 2) r.max * 2 ^ 3)).take bits =
        ((bytesBits r.src).drop r.idx).take bits := by
    rw [List.drop_take, List.take_take, Nat.min_eq_left (by omega), List.drop_drop]
    congr 2
    omega
  rw [hslice]
  rfl

theorem leDecode_lt_aux :
    ∀ (n : Nat) (l : List Bool), l.length ≤ n → leDecode l < 2 ^ l.length := by
  intro n
  induction n with
  | zero =>
    intro l h
    have hnil : l = [] := List.eq_nil_of_length_eq_zero (by omega)
    subst hnil
    norm_num [leDecode, bitsVal]
  | succ k ih =>
    intro l hl
    rcases l with _ | ⟨a0, _ | ⟨a1, _ | ⟨a2, _ | ⟨a3, _ | ⟨a4, _ | ⟨a5, _ | ⟨a6, _ | ⟨a7, t⟩⟩⟩⟩⟩⟩⟩⟩
    · norm_num [leDecode, bitsVal]
    · exact bitsVal_lt [a0]
    · exact bitsVal_lt [a0, a1]
    · exact bitsVal_lt [a0, a1, a2]
    · exact bitsVal_lt [a0, a1, a2, a3]
    · exact bitsVal_lt [a0, a1, a2, a3, a4]
    · exact bitsVal_lt [a0, a1, a2, a3, a4, a5]
    · exact bitsVal_lt [a0, a1, a2, a3, a4, a5, a6]
    · rw [leDecode_cons8]
      have hlen : (a0 :: a1 :: a2 :: a3 :: a4 :: a5 :: a6 :: a7 :: t).length = 8 + t.length := by
        simp [List.length_cons]
        omega
      rw [hlen]
      have hb : bitsVal [a0, a1, a2, a3, a4, a5, a6, a7] < 2 ^ 8 :=
        bitsVal_lt [a0, a1, a2, a3, a4, a5, a6, a7]
      have hd : leDecode t < 2 ^ t.length := by
        apply ih
        simp [List.length_cons] at hl
        omega
      have hp : (2 : Nat) ^ (8 + t.length) = 2 ^ 8 * 2 ^ t.length := pow_add 2 8 t.length
      rw [hp]
      have ht : (2 : Nat) ^ t.length ≥ 1 := Nat.one_le_two_pow
      omega

theorem leDecode_lt (l : List Bool) : leDecode l < 2 ^ l.length :=
  leDecode_lt_aux l.length l (le_refl _)

theorem leDecode_append_bytes :
    ∀ (n : Nat) (A B : List Bool), A.length = 8 * n →
      leDecode (A ++ B) = leDecode A + 2 ^ (8 * n) * leDecode B := by
  intro n
  induction n with
  | zero =>
    intro A B hA
    have hnil : A = [] := List.eq_nil_of_length_eq_zero (by omega)
    subst hnil
    simp [leDecode, bitsVal]
  | succ k ih =>
    intro A B hA
    rcases A with _ | ⟨a0, _ | ⟨a1, _ | ⟨a2, _ | ⟨a3, _ | ⟨a4, _ | ⟨a5, _ | ⟨a6, _ | ⟨a7, t⟩⟩⟩⟩⟩⟩⟩⟩ <;>
      simp only [List.length_nil, List.length_cons] at hA <;> try omega
    have ht : t.length = 8 * k := by omega
    show leDecode (a0 :: a1 :: a2 :: a3 :: a4 :: a5 :: a6 :: a7 :: (t ++ B)) = _
    rw [leDecode_cons8, leDecode_cons8, ih t B ht]
    have hp : (2 : Nat) ^ (8 * (k + 1)) = 2 ^ 8 * 2 ^ (8 * k) := by
      rw [← pow_add]
      congr 1
      omega
    rw [hp]
    ring

theorem sliceLE_lt (s : List Bool) (i w : Nat) : sliceLE s i w < 2 ^ w := by
  unfold sliceLE
  have h := leDecode_lt ((s.drop i).take w)
  have hl := List.length_take_le w (s.drop i)
  have hp : (2 : Nat) ^ ((s.drop i).take w).length ≤ 2 ^ w :=
    Nat.pow_le_pow_right (by norm_num) hl
  omega

theorem sliceLE_split32 (s : List Bool) (i b : Nat) (hb : 32 ≤ b) (h : i + 32 ≤ s.length) :
    sliceLE s i b = sliceLE s i 32 + 2 ^ 32 * sliceLE s (i + 32) (b - 32) := by
  unfold sliceLE
  have hsplit : (s.drop i).take b = (s.drop i).take 32 ++ (s.drop (i + 32)).take (b - 32) := by
    conv_lhs => rw [show b = 32 + (b - 32) by omega]
    rw [List.take_add, List.drop_drop]
  rw [hsplit, leDecode_append_bytes 4 _ _ (by rw [List.length_take, List.length_drop]; omega)]

theorem Uint64Le_spec (r : Reader) (bits : Nat) (h1 : 1 ≤ bits) (h2 : bits ≤ 64)
    (hwf : RWf r) (hidx : r.idx + bits ≤ 8 * r.src.length) :
    (r.Uint64Le bits).1 = sliceLE (bytesBits r.src) r.idx bits ∧
      (r.Uint64Le bits).2 = r.Skip bits := by
  simp only [Reader.Uint64Le]
  by_cases h32 : 32 < bits
  · rw [if_pos h32]
    obtain ⟨hv1, hr1⟩ := Uint32Le_spec r 32 (by omega) (le_refl _) hwf (by omega)
    have hwf2 : RWf ((r.Uint32Le 32).2) := by
      rw [hr1]
      exact hwf
    have hidx2 : (r.Uint32Le 32).2.idx + (bits - 32) ≤ 8 * (r.Uint32Le 32).2.src.length := by
      rw [hr1]
      show r.idx + 32 + (bits - 32) ≤ 8 * r.src.length
      omega
    obtain ⟨hv2, hr2⟩ := Uint32Le_spec (r.Uint32Le 32).2 (bits - 32) (by omega) (by omega)
      hwf2 hidx2
    have hidx32 : (r.Uint32Le 32).2.idx = r.idx + 32 := by rw [hr1]; rfl
    have hsrc2 : (r.Uint32Le 32).2.src = r.src := by rw [hr1]; rfl
    constructor
    · rw [hv1, hv2, hidx32, hsrc2]
      have hshl : shl64 (sliceLE (bytesBits r.src) (r.idx + 32) (bits - 32)) 32 =
          sliceLE (bytesBits r.src) (r.idx + 32) (bits - 32) * 2 ^ 32 % 2 ^ 64 := by
        unfold shl64
        rw [if_pos (by norm_num)]
      rw [hshl]
      have hsplit := sliceLE_split32 (bytesBits r.src) r.idx bits (by omega)
        (by rw [bytesBits_length]; omega)
      have hs1 : sliceLE (bytesBits r.src) r.idx 32 < 2 ^ 32 := sliceLE_lt _ _ _
      have hs2 : sliceLE (bytesBits r.src) (r.idx + 32) (bits - 32) < 2 ^ (bits - 32) :=
        sliceLE_lt _ _ _
      have hp32 : (2 : Nat) ^ (bits - 32) ≤ 2 ^ 32 :=
        Nat.pow_le_pow_right (by norm_num) (by omega)
      omega
    · rw [hr2, hr1, Skip_Skip]
      congr 1
      omega
  · rw [if_neg h32]
    exact Uint32Le_spec r bits h1 (by omega) hwf hidx

theorem Int64Le_spec (r : Reader) (bits : Nat) (h1 : 1 ≤ bits) (h2 : bits ≤ 64)
    (hwf : RWf r) (hidx : r.idx + bits ≤ 8 * r.src.length) :
    (r.Int64Le bits).1 = extend (sliceLE (bytesBits r.src) r.idx bits) bits ∧
      (r.Int64Le bits).2 = r.Skip bits := by
  obtain ⟨hv, hr⟩ := Uint64Le_spec r bits h1 h2 hwf hidx
  simp only [Reader.Int64Le]
  rw [hv, hr]
  exact ⟨rfl, rfl⟩

/-! Little-endian bit-pattern theory for the writer side. -/

theorem natBits_eq_of_mod_eq {w v v2 : Nat} (h : v % 2 ^ w = v2 % 2 ^ w) :
    natBits w v = natBits w v2 := by
  rw [← natBits_mod w v, h, natBits_mod]

theorem div_mod_mod (X a b c : Nat) (hab : a + b ≤ c) :
    X % 2 ^ c / 2 ^ a % 2 ^ b = X / 2 ^ a % 2 ^ b := by
  rw [show (2 : Nat) ^ c = 2 ^ a * 2 ^ (c - a) by rw [← pow_add]; congr 1; omega,
    Nat.mod_mul_right_div_self]
  exact Nat.mod_mod_of_dvd _ (pow_dvd_pow 2 (by omega))

theorem mul_add_lt_pow (a c t l : Nat) (ha : a < c) (ht : t < 2 ^ l) :
    a * 2 ^ l + t < c * 2 ^ l := by
  calc a * 2 ^ l + t < a * 2 ^ l + 2 ^ l := by omega
    _ = (a + 1) * 2 ^ l := by ring
    _ ≤ c * 2 ^ l := Nat.mul_le_mul_right _ (by omega)

theorem ones_shl_factor (k n : Nat) (h : n ≤ k) :
    2 ^ k - 2 ^ n = (2 ^ (k - n) - 1) * 2 ^ n := by
  rw [Nat.sub_mul, one_mul, ← pow_add]
  congr 2
  omega

theorem shl32_ones (n : Nat) (h : n < 32) : shl32 (2 ^ 32 - 1) n = 2 ^ 32 - 2 ^ n := by
  unfold shl32
  rw [if_pos h]
  exact ones_shl_mod n (by omega)

theorem bswap_prefix (X : Nat) (hX : X < 2 ^ 32) :
    bswap32 X / 2 ^ 24 = X % 2 ^ 8 ∧
      bswap32 X / 2 ^ 16 = X % 2 ^ 8 * 2 ^ 8 + X / 2 ^ 8 % 2 ^ 8 ∧
      bswap32 X / 2 ^ 8 =
        X % 2 ^ 8 * 2 ^ 16 + X / 2 ^ 8 % 2 ^ 8 * 2 ^ 8 + X / 2 ^ 16 % 2 ^ 8 := by
  have h := bswap32_eq X hX
  have hd : X / 2 ^ 24 < 2 ^ 8 := by omega
  have hg : X / 2 ^ 8 % 2 ^ 8 < 2 ^ 8 := Nat.mod_lt _ (Nat.two_pow_pos 8)
  have hb : X / 2 ^ 16 % 2 ^ 8 < 2 ^ 8 := Nat.mod_lt _ (Nat.two_pow_pos 8)
  have hB : bswap32 X =
      (X % 2 ^ 8 * 2 ^ 16 + X / 2 ^ 8 % 2 ^ 8 * 2 ^ 8 + X / 2 ^ 16 % 2 ^ 8) * 2 ^ 8 +
        X / 2 ^ 24 := by
    rw [h]; ring
  have e1 : bswap32 X / 2 ^ 8 =
      X % 2 ^ 8 * 2 ^ 16 + X / 2 ^ 8 % 2 ^ 8 * 2 ^ 8 + X / 2 ^ 16 % 2 ^ 8 := by
    rw [hB]; exact digit_div _ _ _ hd
  have e1s : X % 2 ^ 8 * 2 ^ 16 + X / 2 ^ 8 % 2 ^ 8 * 2 ^ 8 + X / 2 ^ 16 % 2 ^ 8 =
      (X % 2 ^ 8 * 2 ^ 8 + X / 2 ^ 8 % 2 ^ 8) * 2 ^ 8 + X / 2 ^ 16 % 2 ^ 8 := by ring
  have e2 : bswap32 X / 2 ^ 16 = X % 2 ^ 8 * 2 ^ 8 + X / 2 ^ 8 % 2 ^ 8 := by
    rw [show (2 : Nat) ^ 16 = 2 ^ 8 * 2 ^ 8 by norm_num, ← Nat.div_div_eq_div_mul, e1, e1s]
    exact digit_div _ _ _ hb
  have e3 : bswap32 X / 2 ^ 24 = X % 2 ^ 8 := by
    rw [show (2 : Nat) ^ 24 = 2 ^ 16 * 2 ^ 8 by norm_num, ← Nat.div_div_eq_div_mul, e2]
    exact digit_div _ _ _ hg
  exact ⟨e3, e2, e1⟩

theorem leDecode_eight (a0 a1 a2 a3 a4 a5 a6 a7 : Bool) :
    leDecode [a0, a1, a2, a3, a4, a5, a6, a7] = bitsVal [a0, a1, a2, a3, a4, a5, a6, a7] := by
  rw [leDecode_cons8]
  show _ + 2 ^ 8 * leDecode [] = _
  rw [show leDecode ([] : List Bool) = 0 from rfl]
  omega

theorem leBytes_val (v : Nat) :
    ∀ q : Nat,
      leDecode (((List.range q).map fun i => natBits 8 (v / 2 ^ (8 * i) % 2 ^ 8)).flatten) =
          v % 2 ^ (8 * q) ∧
        ((((List.range q).map fun i => natBits 8 (v / 2 ^ (8 * i) % 2 ^ 8)).flatten)).length =
          8 * q := by
  intro q
  induction q with
  | zero =>
    constructor
    · show leDecode [] = v % 2 ^ 0
      rw [show leDecode ([] : List Bool) = 0 from rfl]
      omega
    · rfl
  | succ k ih =>
    obtain ⟨ihv, ihl⟩ := ih
    rw [List.range_succ, List.map_append, List.flatten_append]
    constructor
    · rw [leDecode_append_bytes k _ _ ihl, ihv]
      have hfl : (([natBits 8 (v / 2 ^ (8 * k) % 2 ^ 8)].map fun i => i)).flatten =
          natBits 8 (v / 2 ^ (8 * k) % 2 ^ 8) := by simp
      simp only [List.map_cons, List.map_nil, List.flatten_cons, List.flatten_nil,
        List.append_nil]
      have h8 : (natBits 8 (v / 2 ^ (8 * k) % 2 ^ 8)).length = 8 := natBits_length _ _
      rcases hl : natBits 8 (v / 2 ^ (8 * k) % 2 ^ 8) with _ | ⟨a0, _ | ⟨a1, _ | ⟨a2,
        _ | ⟨a3, _ | ⟨a4, _ | ⟨a5, _ | ⟨a6, _ | ⟨a7, t⟩⟩⟩⟩⟩⟩⟩⟩ <;>
        rw [hl] at h8 <;> simp only [List.length_nil, List.length_cons] at h8 <;> try omega
      have ht : t = [] := List.eq_nil_of_length_eq_zero (by omega)
      subst ht
      rw [leDecode_eight, ← hl, bitsVal_natBits]
      have hmm : v / 2 ^ (8 * k) % 2 ^ 8 % 2 ^ 8 = v / 2 ^ (8 * k) % 2 ^ 8 :=
        Nat.mod_mod_of_dvd _ (dvd_refl _)
      rw [hmm, show (2 : Nat) ^ (8 * (k + 1)) = 2 ^ (8 * k) * 2 ^ 8 by ring, Nat.mod_mul]
    · rw [List.length_append, ihl]
      simp only [List.map_cons, List.map_nil, List.flatten_cons, List.flatten_nil,
        List.append_nil, natBits_length]
      omega

theorem leBits_length (w v : Nat) : (leBits w v).length = w := by
  unfold leBits
  obtain ⟨_, hl⟩ := leBytes_val v (w / 8)
  rw [List.length_append, hl, natBits_length]
  omega

theorem leDecode_leBits (w v : Nat) : leDecode (leBits w v) = v % 2 ^ w := by
  unfold leBits
  obtain ⟨hv, hl⟩ := leBytes_val v (w / 8)
  rw [leDecode_append_bytes (w / 8) _ _ hl, hv,
    leDecode_short _ (by rw [natBits_length]; omega), bitsVal_natBits,
    show (2 : Nat) ^ w = 2 ^ (8 * (w / 8)) * 2 ^ (w % 8) by rw [← pow_add]; congr 1; omega,
    Nat.mod_mul]

theorem leBits_eq_of_mod_eq {w v v2 : Nat} (h : v % 2 ^ w = v2 % 2 ^ w) :
    leBits w v = leBits w v2 := by
  unfold leBits
  congr 1
  · congr 1
    apply List.map_congr_left
    intro i hi
    rw [List.mem_range] at hi
    have h1 : v / 2 ^ (8 * i) % 2 ^ 8 = v2 / 2 ^ (8 * i) % 2 ^ 8 := by
      rw [← div_mod_mod v (8 * i) 8 w (by omega), h, div_mod_mod v2 (8 * i) 8 w (by omega)]
    rw [h1]
  · apply natBits_eq_of_mod_eq
    rw [← div_mod_mod v (8 * (w / 8)) (w % 8) w (by omega), h,
      div_mod_mod v2 (8 * (w / 8)) (w % 8) w (by omega)]

theorem leBits_split32 (w v : Nat) (hw : 32 ≤ w) :
    leBits w v = leBits 32 v ++ leBits (w - 32) (v / 2 ^ 32) := by
  have h32 : leBits 32 v =
      ((List.range 4).map fun i => natBits 8 (v / 2 ^ (8 * i) % 2 ^ 8)).flatten := by
    show ((List.range (32 / 8)).map fun i => natBits 8 (v / 2 ^ (8 * i) % 2 ^ 8)).flatten ++
        natBits (32 % 8) (v / 2 ^ (8 * (32 / 8))) = _
    rw [show (32 : Nat) / 8 = 4 from rfl, show (32 : Nat) % 8 = 0 from rfl,
      show natBits 0 (v / 2 ^ (8 * 4)) = [] from rfl, List.append_nil]
  have hrest : leBits (w - 32) (v / 2 ^ 32) =
      ((List.range ((w - 32) / 8)).map fun i =>
          natBits 8 (v / 2 ^ (8 * (4 + i)) % 2 ^ 8)).flatten ++
        natBits (w % 8) (v / 2 ^ (8 * (4 + (w - 32) / 8))) := by
    show ((List.range ((w - 32) / 8)).map fun i =>
        natBits 8 (v / 2 ^ 32 / 2 ^ (8 * i) % 2 ^ 8)).flatten ++
        natBits ((w - 32) % 8) (v / 2 ^ 32 / 2 ^ (8 * ((w - 32) / 8))) = _
    congr 1
    · congr 1
      apply List.map_congr_left
      intro i hi
      rw [Nat.div_div_eq_div_mul, ← pow_add, show 32 + 8 * i = 8 * (4 + i) by ring]
    · rw [show (w - 32) % 8 = w % 8 by omega, Nat.div_div_eq_div_mul, ← pow_add,
        show 32 + 8 * ((w - 32) / 8) = 8 * (4 + (w - 32) / 8) by ring]
  rw [h32, hrest]
  show ((List.range (w / 8)).map fun i => natBits 8 (v / 2 ^ (8 * i) % 2 ^ 8)).flatten ++
      natBits (w % 8) (v / 2 ^ (8 * (w / 8))) = _
  rw [show w / 8 = 4 + (w - 32) / 8 by omega, List.range_add, List.map_append,
    List.flatten_append, List.map_map, List.append_assoc]
  rfl


theorem add_mod_of_dvd (x c m : Nat) (h : m ∣ x) : (x + c) % m = c % m := by
  obtain ⟨y, rfl⟩ := h
  rw [Nat.mul_add_mod]

theorem mod8_mod8 (x : Nat) : x % 2 ^ 8 % 2 ^ 8 = x % 2 ^ 8 :=
  Nat.mod_mod_of_dvd _ (dvd_refl _)

theorem leBits_val0 (w v : Nat) (h0 : w / 8 = 0) :
    bitsVal (leBits w v) = v % 2 ^ (w % 8) := by
  unfold leBits
  rw [h0]
  norm_num [bitsVal_natBits]

theorem leBits_val1 (w v : Nat) (h0 : w / 8 = 1) :
    bitsVal (leBits w v) = v % 2 ^ 8 * 2 ^ (w % 8) + v / 2 ^ 8 % 2 ^ (w % 8) := by
  unfold leBits
  rw [h0, show List.range 1 = [0] from rfl]
  norm_num [bitsVal_append, natBits_length, bitsVal_natBits, mod8_mod8]

theorem leBits_val2 (w v : Nat) (h0 : w / 8 = 2) :
    bitsVal (leBits w v) =
      (v % 2 ^ 8 * 2 ^ 8 + v / 2 ^ 8 % 2 ^ 8) * 2 ^ (w % 8) + v / 2 ^ 16 % 2 ^ (w % 8) := by
  unfold leBits
  rw [h0, show List.range 2 = [0, 1] from rfl]
  norm_num [bitsVal_append, natBits_length, bitsVal_natBits, mod8_mod8, List.length_append]
  ring

theorem leBits_val3 (w v : Nat) (h0 : w / 8 = 3) :
    bitsVal (leBits w v) =
      (v % 2 ^ 8 * 2 ^ 16 + v / 2 ^ 8 % 2 ^ 8 * 2 ^ 8 + v / 2 ^ 16 % 2 ^ 8) * 2 ^ (w % 8) +
        v / 2 ^ 24 % 2 ^ (w % 8) := by
  unfold leBits
  rw [h0, show List.range 3 = [0, 1, 2] from rfl]
  norm_num [bitsVal_append, natBits_length, bitsVal_natBits, mod8_mod8, List.length_append]
  ring

theorem leBits_val4 (w v : Nat) (h0 : w / 8 = 4) (h1 : w % 8 = 0) :
    bitsVal (leBits w v) =
      v % 2 ^ 8 * 2 ^ 24 + v / 2 ^ 8 % 2 ^ 8 * 2 ^ 16 + v / 2 ^ 16 % 2 ^ 8 * 2 ^ 8 +
        v / 2 ^ 24 % 2 ^ 8 := by
  unfold leBits
  rw [h0, h1, show List.range 4 = [0, 1, 2, 3] from rfl]
  norm_num [bitsVal_append, natBits_length, bitsVal_natBits, mod8_mod8, List.length_append,
    Nat.mod_one]
  ring

theorem le_deposit (val bits : Nat) (h1 : 1 ≤ bits) (h2 : bits ≤ 32) :
    ((shr32 (bswap32 (val % 2 ^ 32)) (wsub 32 bits) &&& shl32 (2 ^ 32 - 1) (bits &&& 7)) +
        (shr32 (bswap32 (val % 2 ^ 32)) (wsub 24 (bits &&& 0xF8)) &&&
          compl32 (shl32 (2 ^ 32 - 1) (bits &&& 7)))) % 2 ^ 32 =
      bitsVal (leBits bits val) := by
  have hv : val % 2 ^ 32 < 2 ^ 32 := Nat.mod_lt _ (by norm_num)
  obtain ⟨p1, p2, p3⟩ := bswap_prefix (val % 2 ^ 32) hv
  have hblt := bswap32_lt (val % 2 ^ 32) hv
  have hb := bswap32_eq (val % 2 ^ 32) hv
  have hm7 : bits &&& 7 = bits % 8 := by
    rw [show (7 : Nat) = 2 ^ 3 - 1 by norm_num, Nat.and_pow_two_sub_one_eq_mod]
  have hmF8 : bits &&& 0xF8 = bits / 8 * 8 := by
    rw [show (0xF8 : Nat) = (2 ^ 5 - 1) * 2 ^ 3 by norm_num, and_ones_shl]
    omega
  have hlbe : leBits bits val = leBits bits (val % 2 ^ 32) :=
    leBits_eq_of_mod_eq (Nat.mod_mod_of_dvd _ (pow_dvd_pow 2 h2)).symm
  rw [hlbe, hm7, hmF8, wsub_of_le h2 (by norm_num), shr32_eval _ _ (show 32 - bits < 32 by omega),
    compl32_shl_ones (show bits % 8 ≤ 32 by omega), Nat.and_pow_two_sub_one_eq_mod]
  have hq : bits / 8 = 0 ∨ bits / 8 = 1 ∨ bits / 8 = 2 ∨ bits / 8 = 3 ∨ bits / 8 = 4 := by
    omega
  rcases hq with hq | hq | hq | hq | hq
  · -- 1 ≤ bits ≤ 7
    rw [hq, show (0 : Nat) * 8 = 0 from rfl,
      wsub_of_le (by norm_num) (by norm_num), show (24 : Nat) - 0 = 24 from rfl,
      shr32_eval _ 24 (by norm_num), p1,
      Nat.mod_mod_of_dvd _ (pow_dvd_pow 2 (show bits % 8 ≤ 8 by omega)),
      shl32_ones _ (by omega), ones_shl_factor 32 _ (by omega), and_ones_shl,
      Nat.div_div_eq_div_mul, ← pow_add, show 32 - bits + bits % 8 = 32 by omega,
      Nat.div_eq_of_lt hblt, Nat.zero_mod, Nat.zero_mul, Nat.zero_add,
      leBits_val0 _ _ hq]
    exact Nat.mod_eq_of_lt (lt_of_lt_of_le (Nat.mod_lt _ (Nat.two_pow_pos _))
      (Nat.pow_le_pow_right (by norm_num) (by omega)))
  · -- 8 ≤ bits ≤ 15
    rw [hq, show (1 : Nat) * 8 = 8 from rfl,
      wsub_of_le (by norm_num) (by norm_num), show (24 : Nat) - 8 = 16 from rfl,
      shr32_eval _ 16 (by norm_num), p2,
      add_mod_of_dvd _ _ _ ((pow_dvd_pow 2 (show bits % 8 ≤ 8 by omega)).mul_left _),
      Nat.mod_mod_of_dvd _ (pow_dvd_pow 2 (show bits % 8 ≤ 8 by omega)),
      shl32_ones _ (by omega), ones_shl_factor 32 _ (by omega), and_ones_shl,
      Nat.div_div_eq_div_mul, ← pow_add, show 32 - bits + bits % 8 = 24 by omega]
    have hcol : bswap32 (val % 2 ^ 32) / 2 ^ 24 % 2 ^ (32 - bits % 8) =
        bswap32 (val % 2 ^ 32) / 2 ^ 24 :=
      Nat.mod_eq_of_lt (lt_of_lt_of_le (show bswap32 (val % 2 ^ 32) / 2 ^ 24 < 2 ^ 8 by omega)
        (Nat.pow_le_pow_right (by norm_num) (by omega)))
    rw [hcol, p1, leBits_val1 _ _ hq]
    apply Nat.mod_eq_of_lt
    have hx : val % 2 ^ 32 % 2 ^ 8 < 2 ^ 8 := Nat.mod_lt _ (by norm_num)
    have hy : val % 2 ^ 32 / 2 ^ 8 % 2 ^ (bits % 8) < 2 ^ (bits % 8) :=
      Nat.mod_lt _ (Nat.two_pow_pos _)
    have hlt := mul_add_lt_pow _ (2 ^ 8) _ (bits % 8) hx hy
    exact lt_of_lt_of_le hlt
      (by rw [← pow_add]; exact Nat.pow_le_pow_right (by norm_num) (by omega))
  · -- 16 ≤ bits ≤ 23
    rw [hq, show (2 : Nat) * 8 = 16 from rfl,
      wsub_of_le (by norm_num) (by norm_num), show (24 : Nat) - 16 = 8 from rfl,
      shr32_eval _ 8 (by norm_num), p3,
      add_mod_of_dvd _ _ _
        (dvd_add ((pow_dvd_pow 2 (show bits % 8 ≤ 16 by omega)).mul_left _)
          ((pow_dvd_pow 2 (show bits % 8 ≤ 8 by omega)).mul_left _)),
      Nat.mod_mod_of_dvd _ (pow_dvd_pow 2 (show bits % 8 ≤ 8 by omega)),
      shl32_ones _ (by omega), ones_shl_factor 32 _ (by omega), and_ones_shl,
      Nat.div_div_eq_div_mul, ← pow_add, show 32 - bits + bits % 8 = 16 by omega]
    have hcol : bswap32 (val % 2 ^ 32) / 2 ^ 16 % 2 ^ (32 - bits % 8) =
        bswap32 (val % 2 ^ 32) / 2 ^ 16 :=
      Nat.mod_eq_of_lt (lt_of_lt_of_le (show bswap32 (val % 2 ^ 32) / 2 ^ 16 < 2 ^ 16 by omega)
        (Nat.pow_le_pow_right (by norm_num) (by omega)))
    rw [hcol, p2, leBits_val2 _ _ hq]
    apply Nat.mod_eq_of_lt
    have hx : val % 2 ^ 32 % 2 ^ 8 * 2 ^ 8 + val % 2 ^ 32 / 2 ^ 8 % 2 ^ 8 < 2 ^ 16 := by
      have h1' : val % 2 ^ 32 % 2 ^ 8 < 2 ^ 8 := Nat.mod_lt _ (by norm_num)
      have h2' : val % 2 ^ 32 / 2 ^ 8 % 2 ^ 8 < 2 ^ 8 := Nat.mod_lt _ (by norm_num)
      omega
    have hy : val % 2 ^ 32 / 2 ^ 16 % 2 ^ (bits % 8) < 2 ^ (bits % 8) :=
      Nat.mod_lt _ (Nat.two_pow_pos _)
    have hlt := mul_add_lt_pow _ (2 ^ 16) _ (bits % 8) hx hy
    exact lt_of_lt_of_le hlt
      (by rw [← pow_add]; exact Nat.pow_le_pow_right (by norm_num) (by omega))
  · -- 24 ≤ bits ≤ 31
    rw [hq, show (3 : Nat) * 8 = 24 from rfl,
      wsub_of_le (by norm_num) (by norm_num), show (24 : Nat) - 24 = 0 from rfl,
      shr32_eval _ 0 (by norm_num), pow_zero, Nat.div_one,
      shl32_ones _ (by omega), ones_shl_factor 32 _ (by omega), and_ones_shl,
      Nat.div_div_eq_div_mul, ← pow_add, show 32 - bits + bits % 8 = 8 by omega]
    have hcol : bswap32 (val % 2 ^ 32) / 2 ^ 8 % 2 ^ (32 - bits % 8) =
        bswap32 (val % 2 ^ 32) / 2 ^ 8 :=
      Nat.mod_eq_of_lt (lt_of_lt_of_le (show bswap32 (val % 2 ^ 32) / 2 ^ 8 < 2 ^ 24 by omega)
        (Nat.pow_le_pow_right (by norm_num) (by omega)))
    rw [hcol, p3, hb,
      add_mod_of_dvd _ _ _
        (dvd_add
          (dvd_add ((pow_dvd_pow 2 (show bits % 8 ≤ 24 by omega)).mul_left _)
            ((pow_dvd_pow 2 (show bits % 8 ≤ 16 by omega)).mul_left _))
          ((pow_dvd_pow 2 (show bits % 8 ≤ 8 by omega)).mul_left _)),
      leBits_val3 _ _ hq]
    apply Nat.mod_eq_of_lt
    have hx : val % 2 ^ 32 % 2 ^ 8 * 2 ^ 16 + val % 2 ^ 32 / 2 ^ 8 % 2 ^ 8 * 2 ^ 8 +
        val % 2 ^ 32 / 2 ^ 16 % 2 ^ 8 < 2 ^ 24 := by
      have h1' : val % 2 ^ 32 % 2 ^ 8 < 2 ^ 8 := Nat.mod_lt _ (by norm_num)
      have h2' : val % 2 ^ 32 / 2 ^ 8 % 2 ^ 8 < 2 ^ 8 := Nat.mod_lt _ (by norm_num)
      have h3' : val % 2 ^ 32 / 2 ^ 16 % 2 ^ 8 < 2 ^ 8 := Nat.mod_lt _ (by norm_num)
      omega
    have hy : val % 2 ^ 32 / 2 ^ 24 % 2 ^ (bits % 8) < 2 ^ (bits % 8) :=
      Nat.mod_lt _ (Nat.two_pow_pos _)
    have hlt := mul_add_lt_pow _ (2 ^ 24) _ (bits % 8) hx hy
    exact lt_of_lt_of_le hlt
      (by rw [← pow_add]; exact Nat.pow_le_pow_right (by norm_num) (by omega))
  · -- bits = 32
    have hb32 : bits = 32 := by omega
    subst hb32
    have hsh : shr32 (bswap32 (val % 2 ^ 32)) (wsub 24 (32 / 8 * 8)) = 0 := by
      rw [show (32 : Nat) / 8 * 8 = 32 from rfl,
        show wsub 24 32 = 2 ^ 64 - 8 by unfold wsub; norm_num]
      unfold shr32
      rw [if_neg (by norm_num)]
    rw [hsh, show (32 : Nat) % 8 = 0 from rfl, show (32 : Nat) - 32 = 0 from rfl, pow_zero,
      Nat.div_one, Nat.add_zero, shl32_ones 0 (by norm_num),
      ones_shl_factor 32 0 (by norm_num), and_ones_shl, show (32 : Nat) - 0 = 32 from rfl,
      pow_zero, Nat.div_one, Nat.mul_one, Nat.mod_eq_of_lt hblt, Nat.mod_eq_of_lt hblt,
      leBits_val4 32 _ rfl rfl]
    have hd : val % 2 ^ 32 / 2 ^ 24 < 2 ^ 8 := by omega
    omega

/-! Writer stream correctness: each put appends its field bits to the
committed bit stream. -/

theorem stream_length (w : Writer) (hg : GoodW w) : w.stream.length = w.Index := by
  obtain ⟨hf, _, _, hcap, _⟩ := hg
  unfold Writer.stream Writer.Index
  rw [List.length_append, bytesBits_length, natBits_length, List.length_take,
    Nat.min_eq_left (by omega)]

theorem deposit_stream (w : Writer) (bits u : Nat) (hg : GoodW w) (hfb : w.fill + bits ≤ 64)
    (hroom : 8 * w.idx + w.fill + bits ≤ 8 * w.dst.length) (hu : u < 2 ^ bits) :
    Writer.stream
        { w with
          fill := w.fill + bits
          cache := w.cache ||| shl64 u (wsub (wsub 64 w.fill) bits) } =
      w.stream ++ natBits bits u ∧
    GoodW
        { w with
          fill := w.fill + bits
          cache := w.cache ||| shl64 u (wsub (wsub 64 w.fill) bits) } := by
  obtain ⟨hf, hclt, hcz, hcap, hby⟩ := hg
  have h1 : wsub 64 w.fill = 64 - w.fill := wsub_of_le (by omega) (by norm_num)
  have h2 : wsub (64 - w.fill) bits = 64 - w.fill - bits := wsub_of_le (by omega) (by omega)
  have hsplit : (2 : Nat) ^ (64 - w.fill) = 2 ^ bits * 2 ^ (64 - w.fill - bits) := by
    rw [← pow_add]
    congr 1
    omega
  obtain ⟨m, hm⟩ : 2 ^ (64 - w.fill) ∣ w.cache := Nat.dvd_of_mod_eq_zero hcz
  have hmlt : m < 2 ^ w.fill := by
    by_contra hcon
    push_neg at hcon
    have : (2 : Nat) ^ w.fill * 2 ^ (64 - w.fill) ≤ 2 ^ (64 - w.fill) * m := by
      rw [Nat.mul_comm (2 ^ (64 - w.fill)) m]
      exact Nat.mul_le_mul_right _ hcon
    rw [← pow_add, show w.fill + (64 - w.fill) = 64 by omega] at this
    omega
  have hshl : shl64 u (64 - w.fill - bits) = u * 2 ^ (64 - w.fill - bits) := by
    unfold shl64
    by_cases hcc : 64 - w.fill - bits < 64
    · rw [if_pos hcc]
      apply Nat.mod_eq_of_lt
      calc u * 2 ^ (64 - w.fill - bits) < 2 ^ bits * 2 ^ (64 - w.fill - bits) :=
            (Nat.mul_lt_mul_right (Nat.two_pow_pos _)).mpr hu
        _ ≤ 2 ^ 64 := by
            rw [← pow_add]
            exact Nat.pow_le_pow_right (by norm_num) (by omega)
    · have hf0 : w.fill = 0 ∧ bits = 0 := by omega
      obtain ⟨hf0, hb0⟩ := hf0
      subst hb0
      have : u = 0 := by
        have : (2 : Nat) ^ 0 = 1 := rfl
        omega
      subst this
      rw [if_neg hcc, Nat.zero_mul]
  have hlor : w.cache ||| shl64 u (wsub (wsub 64 w.fill) bits) =
      (m * 2 ^ bits + u) * 2 ^ (64 - w.fill - bits) := by
    rw [h1, h2, hshl]
    have hdvd : 2 ^ (64 - w.fill - bits) ∣ w.cache := by
      rw [hm]
      exact Dvd.dvd.mul_right (pow_dvd_pow 2 (by omega)) m
    have hult : u * 2 ^ (64 - w.fill - bits) < 2 ^ (64 - w.fill) := by
      rw [hsplit]
      exact (Nat.mul_lt_mul_right (Nat.two_pow_pos _)).mpr hu
    rw [lor_eq_add ⟨m, hm⟩ hult]
    rw [hm, hsplit]
    ring
  have hC : w.cache / 2 ^ (64 - w.fill) = m := by
    rw [hm, Nat.mul_comm]
    exact Nat.mul_div_cancel _ (Nat.two_pow_pos _)
  constructor
  · show bytesBits (w.dst.take w.idx) ++
        natBits (w.fill + bits)
          ((w.cache ||| shl64 u (wsub (wsub 64 w.fill) bits)) / 2 ^ (64 - (w.fill + bits))) =
      (bytesBits (w.dst.take w.idx) ++ natBits w.fill (w.cache / 2 ^ (64 - w.fill))) ++
        natBits bits u
    rw [List.append_assoc]
    congr 1
    rw [hlor, show 64 - (w.fill + bits) = 64 - w.fill - bits by omega,
      Nat.mul_div_cancel _ (Nat.two_pow_pos _), natBits_split, digit_div _ _ _ hu, hC]
    congr 1
    exact (natBits_eq_of_mod_eq (by rw [digit_mod _ _ _ hu, Nat.mod_eq_of_lt hu])).symm
  · refine ⟨?_, ?_, ?_, ?_, ?_⟩
    · show w.fill + bits ≤ 64
      omega
    · show w.cache ||| shl64 u (wsub (wsub 64 w.fill) bits) < 2 ^ 64
      rw [hlor]
      have hmb : m * 2 ^ bits + u < 2 ^ (w.fill + bits) := by
        have hh := mul_add_lt_pow m (2 ^ w.fill) u bits hmlt hu
        rw [← pow_add] at hh
        exact hh
      calc (m * 2 ^ bits + u) * 2 ^ (64 - w.fill - bits)
          < 2 ^ (w.fill + bits) * 2 ^ (64 - w.fill - bits) :=
            (Nat.mul_lt_mul_right (Nat.two_pow_pos _)).mpr hmb
        _ ≤ 2 ^ 64 := by
            rw [← pow_add]
            exact Nat.pow_le_pow_right (by norm_num) (by omega)
    · show (w.cache ||| shl64 u (wsub (wsub 64 w.fill) bits)) % 2 ^ (64 - (w.fill + bits)) = 0
      rw [hlor, show 64 - (w.fill + bits) = 64 - w.fill - bits by omega]
      exact Nat.mul_mod_left _ _
    · show 8 * w.idx + (w.fill + bits) ≤ 8 * w.dst.length
      omega
    · show ∀ b ∈ w.dst, b < 256
      exact hby

theorem take_set_append {α : Type} (l : List α) (i : Nat) (b : α) (h : i < l.length) :
    (l.set i b).take (i + 1) = l.take i ++ [b] := by
  rw [List.set_eq_take_append_cons_drop, if_pos h, List.take_append_eq_append_take,
    List.take_take, Nat.min_eq_right (by omega), List.length_take, Nat.min_eq_left (by omega),
    show i + 1 - i = 1 by omega]
  rfl

theorem cacheByte_lt (c n : Nat) : cacheByte c n < 256 := Nat.mod_lt _ (by norm_num)

theorem drain4_stream (w : Writer) (hg : GoodW w) (h32 : 32 < w.fill) :
    (drain4 w).stream = w.stream ∧ GoodW (drain4 w) ∧
      (drain4 w).dst.length = w.dst.length ∧ (drain4 w).fill = w.fill - 32 ∧
      (drain4 w).idx = w.idx + 4 := by
  obtain ⟨hf, hclt, hcz, hcap, hby⟩ := hg
  have hroom : w.idx + 4 ≤ w.dst.length := by omega
  have hfill : wsub w.fill 32 = w.fill - 32 := wsub_of_le (by omega) (by omega)
  have hcache : shl64 w.cache 32 = w.cache % 2 ^ 32 * 2 ^ 32 := shl64_mod _ _ (by norm_num)
  have hL1 : (w.dst.set w.idx (cacheByte w.cache 56)).length = w.dst.length := List.length_set ..
  have hL2 : ((w.dst.set w.idx (cacheByte w.cache 56)).set (w.idx + 1)
      (cacheByte w.cache 48)).length = w.dst.length := by rw [List.length_set, hL1]
  have hL3 : (((w.dst.set w.idx (cacheByte w.cache 56)).set (w.idx + 1)
      (cacheByte w.cache 48)).set (w.idx + 2) (cacheByte w.cache 40)).length = w.dst.length := by
    rw [List.length_set, hL2]
  have hL4 : ((((w.dst.set w.idx (cacheByte w.cache 56)).set (w.idx + 1)
      (cacheByte w.cache 48)).set (w.idx + 2) (cacheByte w.cache 40)).set (w.idx + 3)
      (cacheByte w.cache 32)).length = w.dst.length := by rw [List.length_set, hL3]
  have ht1 : (w.dst.set w.idx (cacheByte w.cache 56)).take (w.idx + 1) =
      w.dst.take w.idx ++ [cacheByte w.cache 56] := take_set_append _ _ _ (by omega)
  have ht2 : ((w.dst.set w.idx (cacheByte w.cache 56)).set (w.idx + 1)
      (cacheByte w.cache 48)).take (w.idx + 2) =
      (w.dst.set w.idx (cacheByte w.cache 56)).take (w.idx + 1) ++ [cacheByte w.cache 48] := by
    have h := take_set_append (w.dst.set w.idx (cacheByte w.cache 56)) (w.idx + 1)
      (cacheByte w.cache 48) (by omega)
    rw [show w.idx + 1 + 1 = w.idx + 2 by omega] at h
    exact h
  have ht3 : (((w.dst.set w.idx (cacheByte w.cache 56)).set (w.idx + 1)
      (cacheByte w.cache 48)).set (w.idx + 2) (cacheByte w.cache 40)).take (w.idx + 3) =
      ((w.dst.set w.idx (cacheByte w.cache 56)).set (w.idx + 1)
        (cacheByte w.cache 48)).take (w.idx + 2) ++ [cacheByte w.cache 40] := by
    have h := take_set_append ((w.dst.set w.idx (cacheByte w.cache 56)).set (w.idx + 1)
      (cacheByte w.cache 48)) (w.idx + 2) (cacheByte w.cache 40) (by omega)
    rw [show w.idx + 2 + 1 = w.idx + 3 by omega] at h
    exact h
  have ht4 : ((((w.dst.set w.idx (cacheByte w.cache 56)).set (w.idx + 1)
      (cacheByte w.cache 48)).set (w.idx + 2) (cacheByte w.cache 40)).set (w.idx + 3)
      (cacheByte w.cache 32)).take (w.idx + 4) =
      (((w.dst.set w.idx (cacheByte w.cache 56)).set (w.idx + 1)
        (cacheByte w.cache 48)).set (w.idx + 2) (cacheByte w.cache 40)).take (w.idx + 3) ++
        [cacheByte w.cache 32] := by
    have h := take_set_append (((w.dst.set w.idx (cacheByte w.cache 56)).set (w.idx + 1)
      (cacheByte w.cache 48)).set (w.idx + 2) (cacheByte w.cache 40)) (w.idx + 3)
      (cacheByte w.cache 32) (by omega)
    rw [show w.idx + 3 + 1 = w.idx + 4 by omega] at h
    exact h
  have htail : w.cache % 2 ^ 32 * 2 ^ 32 / 2 ^ (64 - (w.fill - 32)) =
      w.cache / 2 ^ (64 - w.fill) % 2 ^ (w.fill - 32) := by
    rw [show 64 - (w.fill - 32) = 32 + (64 - w.fill) by omega, pow_add,
      Nat.mul_comm ((2 : Nat) ^ 32) (2 ^ (64 - w.fill)),
      Nat.mul_div_mul_right _ _ (Nat.two_pow_pos 32),
      show (2 : Nat) ^ 32 = 2 ^ (64 - w.fill) * 2 ^ (w.fill - 32) by
        rw [← pow_add]; congr 1; omega,
      Nat.mod_mul_right_div_self]
  have hCsplit : natBits w.fill (w.cache / 2 ^ (64 - w.fill)) =
      natBits 8 (cacheByte w.cache 56) ++ (natBits 8 (cacheByte w.cache 48) ++
        (natBits 8 (cacheByte w.cache 40) ++ (natBits 8 (cacheByte w.cache 32) ++
          natBits (w.fill - 32) (w.cache / 2 ^ (64 - w.fill))))) := by
    set C := w.cache / 2 ^ (64 - w.fill) with hC
    conv_lhs => rw [show w.fill = 8 + (8 + (8 + (8 + (w.fill - 32)))) by omega]
    rw [natBits_split]
    congr 1
    · rw [show 8 + (8 + (8 + (w.fill - 32))) = w.fill - 8 by omega, hC,
        Nat.div_div_eq_div_mul, ← pow_add, show 64 - w.fill + (w.fill - 8) = 56 by omega]
      exact (natBits_mod 8 _).symm
    · rw [natBits_split]
      congr 1
      · rw [show 8 + (8 + (w.fill - 32)) = w.fill - 16 by omega, hC,
          Nat.div_div_eq_div_mul, ← pow_add, show 64 - w.fill + (w.fill - 16) = 48 by omega]
        exact (natBits_mod 8 _).symm
      · rw [natBits_split]
        congr 1
        · rw [show 8 + (w.fill - 32) = w.fill - 24 by omega, hC,
            Nat.div_div_eq_div_mul, ← pow_add, show 64 - w.fill + (w.fill - 24) = 40 by omega]
          exact (natBits_mod 8 _).symm
        · rw [natBits_split]
          congr 1
          rw [hC, Nat.div_div_eq_div_mul, ← pow_add,
            show 64 - w.fill + (w.fill - 32) = 32 by omega]
          exact (natBits_mod 8 _).symm
  refine ⟨?_, ?_, ?_, ?_, ?_⟩
  · show bytesBits ((drain4 w).dst.take (drain4 w).idx) ++
        natBits (drain4 w).fill ((drain4 w).cache / 2 ^ (64 - (drain4 w).fill)) =
      bytesBits (w.dst.take w.idx) ++ natBits w.fill (w.cache / 2 ^ (64 - w.fill))
    simp only [drain4]
    rw [if_pos hroom, hfill, hcache, ht4, ht3, ht2, ht1, htail, hCsplit]
    simp only [bytesBits_append, bytesBits_cons, bytesBits_nil, List.append_nil,
      List.append_assoc]
    rw [natBits_mod]
  · refine ⟨?_, ?_, ?_, ?_, ?_⟩
    · show wsub w.fill 32 ≤ 64
      rw [hfill]
      omega
    · show shl64 w.cache 32 < 2 ^ 64
      rw [hcache]
      have hx : w.cache % 2 ^ 32 < 2 ^ 32 := Nat.mod_lt _ (by norm_num)
      omega
    · show shl64 w.cache 32 % 2 ^ (64 - wsub w.fill 32) = 0
      rw [hcache, hfill]
      obtain ⟨m, hm⟩ : 2 ^ (64 - w.fill) ∣ w.cache := Nat.dvd_of_mod_eq_zero hcz
      have hsplit32 : (2 : Nat) ^ 32 = 2 ^ (64 - w.fill) * 2 ^ (w.fill - 32) := by
        rw [← pow_add]
        congr 1
        omega
      rw [hm, hsplit32, Nat.mul_mod_mul_left, show 64 - (w.fill - 32) = 32 + (64 - w.fill) by
        omega, pow_add, ← hsplit32]
      rw [show 2 ^ (64 - w.fill) * (m % 2 ^ (w.fill - 32)) * 2 ^ 32 =
        (2 ^ 32 * 2 ^ (64 - w.fill)) * (m % 2 ^ (w.fill - 32)) by ring]
      exact Nat.mul_mod_right _ _
    · show 8 * ((drain4 w).idx) + wsub w.fill 32 ≤ 8 * (drain4 w).dst.length
      simp only [drain4]
      rw [if_pos hroom, hfill, hL4]
      show 8 * (w.idx + 4) + (w.fill - 32) ≤ 8 * w.dst.length
      omega
    · show ∀ b ∈ (drain4 w).dst, b < 256
      simp only [drain4]
      rw [if_pos hroom]
      intro b hmem
      rcases List.mem_or_eq_of_mem_set hmem with hmem | hmem
      · rcases List.mem_or_eq_of_mem_set hmem with hmem | hmem
        · rcases List.mem_or_eq_of_mem_set hmem with hmem | hmem
          · rcases List.mem_or_eq_of_mem_set hmem with hmem | hmem
            · exact hby b hmem
            · rw [hmem]; exact cacheByte_lt _ _
          · rw [hmem]; exact cacheByte_lt _ _
        · rw [hmem]; exact cacheByte_lt _ _
      · rw [hmem]; exact cacheByte_lt _ _
  · show (if w.idx + 4 ≤ w.dst.length then _ else w.dst).length = w.dst.length
    rw [if_pos hroom]
    exact hL4
  · exact hfill
  · rfl

theorem PutUint32_stream (w : Writer) (bits val : Nat) (hg : GoodW w) (hb : bits ≤ 32)
    (hroom : w.Index + bits ≤ 8 * w.dst.length) :
    (w.PutUint32 bits val).stream = w.stream ++ natBits bits val ∧
      GoodW (w.PutUint32 bits val) ∧
      (w.PutUint32 bits val).dst.length = w.dst.length ∧
      (w.PutUint32 bits val).Index = w.Index + bits := by
  have hIdx : w.Index = 8 * w.idx + w.fill := rfl
  have hf64 : w.fill ≤ 64 := hg.1
  have hroom8 : 8 * w.idx + w.fill + bits ≤ 8 * w.dst.length := by
    rw [hIdx] at hroom
    omega
  have hu : val % 2 ^ 32 &&& compl64 (shl64 (2 ^ 64 - 1) bits) = val % 2 ^ bits := by
    rw [compl64_shl_ones (by omega), Nat.and_pow_two_sub_one_eq_mod,
      Nat.mod_mod_of_dvd _ (pow_dvd_pow 2 hb)]
  have hulr : val % 2 ^ bits < 2 ^ bits := Nat.mod_lt _ (Nat.two_pow_pos _)
  simp only [Writer.PutUint32]
  rw [hu]
  by_cases hc : 64 < w.fill + bits
  · rw [if_pos hc]
    have h32 : 32 < w.fill := by omega
    obtain ⟨hs, hg2, hlen2, hfill2, hidx2⟩ := drain4_stream w hg h32
    obtain ⟨hds, hdg⟩ := deposit_stream (drain4 w) bits (val % 2 ^ bits) hg2
      (by rw [hfill2]; omega)
      (by rw [hfill2, hidx2, hlen2]; omega)
      hulr
    refine ⟨?_, hdg, ?_, ?_⟩
    · rw [hds, hs, natBits_mod]
    · show (drain4 w).dst.length = w.dst.length
      exact hlen2
    · show 8 * (drain4 w).idx + ((drain4 w).fill + bits) = w.Index + bits
      rw [hfill2, hidx2, hIdx]
      omega
  · rw [if_neg hc]
    obtain ⟨hds, hdg⟩ := deposit_stream w bits (val % 2 ^ bits) hg (by omega)
      (by omega) hulr
    refine ⟨?_, hdg, rfl, ?_⟩
    · rw [hds, natBits_mod]
    · show 8 * w.idx + (w.fill + bits) = w.Index + bits
      rw [hIdx]
      omega

theorem PutUint32Le_stream (w : Writer) (bits val : Nat) (hg : GoodW w) (h1 : 1 ≤ bits)
    (hb : bits ≤ 32) (hroom : w.Index + bits ≤ 8 * w.dst.length) :
    (w.PutUint32Le bits val).stream = w.stream ++ leBits bits val ∧
      GoodW (w.PutUint32Le bits val) ∧
      (w.PutUint32Le bits val).dst.length = w.dst.length ∧
      (w.PutUint32Le bits val).Index = w.Index + bits := by
  have hIdx : w.Index = 8 * w.idx + w.fill := rfl
  have hf64 : w.fill ≤ 64 := hg.1
  have hroom8 : 8 * w.idx + w.fill + bits ≤ 8 * w.dst.length := by
    rw [hIdx] at hroom
    omega
  have hdep := le_deposit val bits h1 hb
  have hulr : ((shr32 (bswap32 (val % 2 ^ 32)) (wsub 32 bits) &&& shl32 (2 ^ 32 - 1) (bits &&& 7)) +
      (shr32 (bswap32 (val % 2 ^ 32)) (wsub 24 (bits &&& 0xF8)) &&&
        compl32 (shl32 (2 ^ 32 - 1) (bits &&& 7)))) % 2 ^ 32 < 2 ^ bits := by
    rw [hdep]
    have h := bitsVal_lt (leBits bits val)
    rwa [leBits_length] at h
  have hleb0 : natBits bits (bitsVal (leBits bits val)) = leBits bits val := by
    have h := natBits_bitsVal (leBits bits val)
    rwa [leBits_length] at h
  have hleb : natBits bits
      (((shr32 (bswap32 (val % 2 ^ 32)) (wsub 32 bits) &&& shl32 (2 ^ 32 - 1) (bits &&& 7)) +
        (shr32 (bswap32 (val % 2 ^ 32)) (wsub 24 (bits &&& 0xF8)) &&&
          compl32 (shl32 (2 ^ 32 - 1) (bits &&& 7)))) % 2 ^ 32) = leBits bits val := by
    rw [hdep]
    exact hleb0
  simp only [Writer.PutUint32Le]
  by_cases hc : 64 < w.fill + bits
  · rw [if_pos hc]
    have h32 : 32 < w.fill := by omega
    obtain ⟨hs, hg2, hlen2, hfill2, hidx2⟩ := drain4_stream w hg h32
    obtain ⟨hds, hdg⟩ := deposit_stream (drain4 w) bits _ hg2
      (by rw [hfill2]; omega)
      (by rw [hfill2, hidx2, hlen2]; omega)
      hulr
    refine ⟨?_, hdg, ?_, ?_⟩
    · rw [hds, hs, hleb]
    · show (drain4 w).dst.length = w.dst.length
      exact hlen2
    · show 8 * (drain4 w).idx + ((drain4 w).fill + bits) = w.Index + bits
      rw [hfill2, hidx2, hIdx]
      omega
  · rw [if_neg hc]
    obtain ⟨hds, hdg⟩ := deposit_stream w bits _ hg (by omega) (by omega) hulr
    refine ⟨?_, hdg, rfl, ?_⟩
    · rw [hds, hleb]
    · show 8 * w.idx + (w.fill + bits) = w.Index + bits
      rw [hIdx]
      omega

theorem PutUint64_stream (w : Writer) (bits val : Nat) (hg : GoodW w) (hb : bits ≤ 64)
    (hroom : w.Index + bits ≤ 8 * w.dst.length) :
    (w.PutUint64 bits val).stream = w.stream ++ natBits bits val ∧
      GoodW (w.PutUint64 bits val) ∧
      (w.PutUint64 bits val).dst.length = w.dst.length ∧
      (w.PutUint64 bits val).Index = w.Index + bits := by
  have hv64 : val % 2 ^ 64 < 2 ^ 64 := Nat.mod_lt _ (by norm_num)
  simp only [Writer.PutUint64]
  by_cases h32 : 32 < bits
  · rw [if_pos h32, shr64_eq_div hv64]
    obtain ⟨hs1, hg1, hlen1, hidx1⟩ :=
      PutUint32_stream w (bits - 32) (val % 2 ^ 64 / 2 ^ 32) hg (by omega) (by omega)
    obtain ⟨hs2, hg2, hlen2, hidx2⟩ :=
      PutUint32_stream (w.PutUint32 (bits - 32) (val % 2 ^ 64 / 2 ^ 32)) 32
        (val % 2 ^ 64 &&& 0xFFFFFFFF) hg1 (by omega) (by rw [hidx1, hlen1]; omega)
    refine ⟨?_, hg2, by rw [hlen2, hlen1], by rw [hidx2, hidx1]; omega⟩
    rw [hs2, hs1, List.append_assoc]
    congr 1
    have hsplit : natBits bits val = natBits (bits - 32) (val / 2 ^ 32) ++ natBits 32 val := by
      conv_lhs => rw [show bits = bits - 32 + 32 by omega]
      exact natBits_split _ _ _
    rw [hsplit]
    congr 1
    · exact natBits_eq_of_mod_eq (div_mod_mod val 32 (bits - 32) 64 (by omega))
    · apply natBits_eq_of_mod_eq
      rw [show val % 2 ^ 64 &&& 0xFFFFFFFF = val % 2 ^ 64 % 2 ^ 32 by
          rw [show (0xFFFFFFFF : Nat) = 2 ^ 32 - 1 by norm_num,
            Nat.and_pow_two_sub_one_eq_mod]]
      omega
  · rw [if_neg h32]
    obtain ⟨hs1, hg1, hlen1, hidx1⟩ :=
      PutUint32_stream w bits (val % 2 ^ 64 % 2 ^ 32) hg (by omega) (by omega)
    refine ⟨?_, hg1, hlen1, hidx1⟩
    rw [hs1]
    congr 1
    apply natBits_eq_of_mod_eq
    have hp32 : (2 : Nat) ^ bits ∣ 2 ^ 32 := pow_dvd_pow 2 (by omega)
    have hp64 : (2 : Nat) ^ bits ∣ 2 ^ 64 := pow_dvd_pow 2 (by omega)
    rw [Nat.mod_mod_of_dvd _ hp32, Nat.mod_mod_of_dvd _ hp64]

theorem PutUint64Le_stream (w : Writer) (bits val : Nat) (hg : GoodW w) (h1 : 1 ≤ bits)
    (hb : bits ≤ 64) (hroom : w.Index + bits ≤ 8 * w.dst.length) :
    (w.PutUint64Le bits val).stream = w.stream ++ leBits bits val ∧
      GoodW (w.PutUint64Le bits val) ∧
      (w.PutUint64Le bits val).dst.length = w.dst.length ∧
      (w.PutUint64Le bits val).Index = w.Index + bits := by
  have hv64 : val % 2 ^ 64 < 2 ^ 64 := Nat.mod_lt _ (by norm_num)
  simp only [Writer.PutUint64Le]
  by_cases h32 : 32 < bits
  · rw [if_pos h32, shr64_eq_div hv64]
    obtain ⟨hs1, hg1, hlen1, hidx1⟩ :=
      PutUint32Le_stream w 32 (val % 2 ^ 64 &&& 0xFFFFFFFF) hg (by norm_num) (by norm_num)
        (by omega)
    obtain ⟨hs2, hg2, hlen2, hidx2⟩ :=
      PutUint32Le_stream (w.PutUint32Le 32 (val % 2 ^ 64 &&& 0xFFFFFFFF)) (bits - 32)
        (val % 2 ^ 64 / 2 ^ 32) hg1 (by omega) (by omega) (by rw [hidx1, hlen1]; omega)
    refine ⟨?_, hg2, by rw [hlen2, hlen1], by rw [hidx2, hidx1]; omega⟩
    rw [hs2, hs1, List.append_assoc]
    congr 1
    rw [leBits_split32 bits val (by omega)]
    congr 1
    · apply leBits_eq_of_mod_eq
      rw [show val % 2 ^ 64 &&& 0xFFFFFFFF = val % 2 ^ 64 % 2 ^ 32 by
          rw [show (0xFFFFFFFF : Nat) = 2 ^ 32 - 1 by norm_num,
            Nat.and_pow_two_sub_one_eq_mod]]
      omega
    · exact leBits_eq_of_mod_eq (div_mod_mod val 32 (bits - 32) 64 (by omega))
  · rw [if_neg h32]
    obtain ⟨hs1, hg1, hlen1, hidx1⟩ :=
      PutUint32Le_stream w bits (val % 2 ^ 64 % 2 ^ 32) hg h1 (by omega) (by omega)
    refine ⟨?_, hg1, hlen1, hidx1⟩
    rw [hs1]
    congr 1
    apply leBits_eq_of_mod_eq
    have hp32 : (2 : Nat) ^ bits ∣ 2 ^ 32 := pow_dvd_pow 2 (by omega)
    have hp64 : (2 : Nat) ^ bits ∣ 2 ^ 64 := pow_dvd_pow 2 (by omega)
    rw [Nat.mod_mod_of_dvd _ hp32, Nat.mod_mod_of_dvd _ hp64]

theorem toInt64_extend {w : Nat} (v : Nat) (h1 : 1 ≤ w) (h2 : w ≤ 64) (hv : v < 2 ^ w) :
    toInt64 (extend v w) = signedVal w v := by
  have hw2 : (2 : Nat) ^ w = 2 * 2 ^ (w - 1) := by
    have hw : w = (w - 1) + 1 := by omega
    rw [hw, pow_succ]
    have : w - 1 + 1 - 1 = w - 1 := by omega
    rw [this]
    ring
  have hs63 : (2 : Nat) ^ (w - 1) ≤ 2 ^ 63 := Nat.pow_le_pow_right (by norm_num) (by omega)
  have hw64 : (2 : Nat) ^ w ≤ 2 ^ 64 := Nat.pow_le_pow_right (by norm_num) h2
  have h63 : (2 : Nat) ^ 63 = 9223372036854775808 := by norm_num
  have h64n : (2 : Nat) ^ 64 = 18446744073709551616 := by norm_num
  have hvm : v % 2 ^ w = v := Nat.mod_eq_of_lt hv
  unfold signedVal
  rw [hvm, extend_eq v h1 h2 hv]
  by_cases hc : v < 2 ^ (w - 1)
  · rw [if_pos hc, if_pos hc]
    unfold toInt64
    rw [if_pos (by omega)]
  · rw [if_neg hc, if_neg hc]
    unfold toInt64
    have hge : 2 ^ 63 ≤ 2 ^ 64 - 2 ^ w + v := by omega
    rw [if_neg (Nat.not_lt.mpr hge)]
    have hcast : ((2 ^ 64 - 2 ^ w + v : Nat) : Int) = (2 : Int) ^ 64 - 2 ^ w + v := by
      rw [Nat.cast_add, Nat.cast_sub hw64]
      push_cast
      ring
    rw [hcast]
    ring

theorem fieldBits_length (f : Field) : (fieldBits f).length = f.w := by
  unfold fieldBits
  cases f.en
  · exact natBits_length _ _
  · exact leBits_length _ _

theorem putField_stream (w : Writer) (f : Field) (hg : GoodW w) (h1 : 1 ≤ f.w)
    (hb : f.w ≤ 64) (hroom : w.Index + f.w ≤ 8 * w.dst.length) :
    (putField w f).stream = w.stream ++ fieldBits f ∧ GoodW (putField w f) ∧
      (putField w f).dst.length = w.dst.length ∧ (putField w f).Index = w.Index + f.w := by
  rcases f with ⟨en, fw, fv⟩
  cases en
  · simp only [putField, fieldBits]
    exact PutUint64_stream w fw fv hg hb hroom
  · simp only [putField, fieldBits]
    exact PutUint64Le_stream w fw fv hg h1 hb hroom

theorem putFields_stream :
    ∀ (fs : List Field) (w : Writer), GoodW w → (∀ f ∈ fs, 1 ≤ f.w ∧ f.w ≤ 64) →
      w.Index + totalWidth fs ≤ 8 * w.dst.length →
      (putFields w fs).stream = w.stream ++ (fs.map fieldBits).flatten ∧
        GoodW (putFields w fs) ∧ (putFields w fs).dst.length = w.dst.length ∧
        (putFields w fs).Index = w.Index + totalWidth fs := by
  intro fs
  induction fs with
  | nil =>
    intro w hg _ _
    exact ⟨by simp [putFields], hg, rfl, by simp [putFields, totalWidth]⟩
  | cons f fs ih =>
    intro w hg hws hroom
    have hf := hws f (by simp)
    have htw : totalWidth (f :: fs) = f.w + totalWidth fs := by
      simp [totalWidth]
    rw [htw] at hroom
    obtain ⟨hs1, hg1, hlen1, hidx1⟩ := putField_stream w f hg hf.1 hf.2 (by omega)
    obtain ⟨hs2, hg2, hlen2, hidx2⟩ := ih (putField w f) hg1
      (fun g hgm => hws g (List.mem_cons_of_mem _ hgm))
      (by rw [hidx1, hlen1]; omega)
    have hpf : putFields w (f :: fs) = putFields (putField w f) fs := rfl
    rw [hpf]
    refine ⟨?_, hg2, by rw [hlen2, hlen1], by rw [hidx2, hidx1, htw]; omega⟩
    rw [hs2, hs1, List.append_assoc, List.map_cons, List.flatten_cons]

theorem FlushLoop_stream (fuel : Nat) (w : Writer) (hg : GoodW w) (hf : w.fill / 8 ≤ fuel) :
    (FlushLoop fuel w).stream = w.stream ∧ GoodW (FlushLoop fuel w) := by
  induction fuel generalizing w with
  | zero =>
    exact ⟨rfl, hg⟩
  | succ fuel ih =>
    obtain ⟨hf64, hclt, hcz, hcap, hby⟩ := hg
    unfold FlushLoop
    by_cases hcond : 8 ≤ w.fill ∧ w.idx < w.dst.length
    · rw [if_pos hcond]
      obtain ⟨h8, hlt⟩ := hcond
      have hcache : shl64 w.cache 8 = w.cache % 2 ^ 56 * 2 ^ 8 := shl64_mod _ _ (by norm_num)
      have hstep : GoodW
          { w with
            dst := w.dst.set w.idx (cacheByte w.cache 56)
            idx := w.idx + 1
            cache := shl64 w.cache 8
            fill := w.fill - 8 } := by
        refine ⟨?_, ?_, ?_, ?_, ?_⟩
        · show w.fill - 8 ≤ 64
          omega
        · show shl64 w.cache 8 < 2 ^ 64
          rw [hcache]
          have hx : w.cache % 2 ^ 56 < 2 ^ 56 := Nat.mod_lt _ (by norm_num)
          omega
        · show shl64 w.cache 8 % 2 ^ (64 - (w.fill - 8)) = 0
          rw [hcache]
          obtain ⟨m, hm⟩ : 2 ^ (64 - w.fill) ∣ w.cache := Nat.dvd_of_mod_eq_zero hcz
          have hsplit56 : (2 : Nat) ^ 56 = 2 ^ (64 - w.fill) * 2 ^ (w.fill - 8) := by
            rw [← pow_add]
            congr 1
            omega
          rw [hm, hsplit56, Nat.mul_mod_mul_left,
            show 64 - (w.fill - 8) = 8 + (64 - w.fill) by omega, pow_add,
            show 2 ^ (64 - w.fill) * (m % 2 ^ (w.fill - 8)) * 2 ^ 8 =
              (2 ^ 8 * 2 ^ (64 - w.fill)) * (m % 2 ^ (w.fill - 8)) by ring]
          exact Nat.mul_mod_right _ _
        · show 8 * (w.idx + 1) + (w.fill - 8) ≤ 8 * (w.dst.set w.idx (cacheByte w.cache 56)).length
          rw [List.length_set]
          omega
        · show ∀ b ∈ w.dst.set w.idx (cacheByte w.cache 56), b < 256
          intro b hmem
          rcases List.mem_or_eq_of_mem_set hmem with hmem | hmem
          · exact hby b hmem
          · rw [hmem]
            exact cacheByte_lt _ _
      have hfuel2 : (w.fill - 8) / 8 ≤ fuel := by omega
      obtain ⟨hs, hg2⟩ := ih _ hstep hfuel2
      refine ⟨?_, hg2⟩
      rw [hs]
      show bytesBits ((w.dst.set w.idx (cacheByte w.cache 56)).take (w.idx + 1)) ++
          natBits (w.fill - 8) (shl64 w.cache 8 / 2 ^ (64 - (w.fill - 8))) =
        bytesBits (w.dst.take w.idx) ++ natBits w.fill (w.cache / 2 ^ (64 - w.fill))
      rw [take_set_append _ _ _ hlt, hcache]
      have htail : w.cache % 2 ^ 56 * 2 ^ 8 / 2 ^ (64 - (w.fill - 8)) =
          w.cache / 2 ^ (64 - w.fill) % 2 ^ (w.fill - 8) := by
        rw [show 64 - (w.fill - 8) = 8 + (64 - w.fill) by omega, pow_add,
          Nat.mul_comm ((2 : Nat) ^ 8) (2 ^ (64 - w.fill)),
          Nat.mul_div_mul_right _ _ (Nat.two_pow_pos 8),
          show (2 : Nat) ^ 56 = 2 ^ (64 - w.fill) * 2 ^ (w.fill - 8) by
            rw [← pow_add]; congr 1; omega,
          Nat.mod_mul_right_div_self]
      rw [htail]
      have hCsplit : natBits w.fill (w.cache / 2 ^ (64 - w.fill)) =
          natBits 8 (cacheByte w.cache 56) ++
            natBits (w.fill - 8) (w.cache / 2 ^ (64 - w.fill)) := by
        set C := w.cache / 2 ^ (64 - w.fill) with hC
        conv_lhs => rw [show w.fill = 8 + (w.fill - 8) by omega]
        rw [natBits_split]
        congr 1
        rw [hC, Nat.div_div_eq_div_mul, ← pow_add,
          show 64 - w.fill + (w.fill - 8) = 56 by omega]
        exact (natBits_mod 8 _).symm
      rw [hCsplit]
      simp only [bytesBits_append, bytesBits_cons, bytesBits_nil, List.append_nil,
        List.append_assoc]
      rw [natBits_mod]
    · rw [if_neg hcond]
      exact ⟨rfl, ⟨hf64, hclt, hcz, hcap, hby⟩⟩

theorem Flush_materialize (w : Writer) (hg : GoodW w) (hal : 8 ∣ w.fill) :
    (w.Flush).2 = none ∧ (w.Flush).1.dst.length = w.dst.length ∧
      bytesBits ((w.Flush).1.dst.take (w.Index / 8)) = w.stream ∧
      GoodW (w.Flush).1 := by
  obtain ⟨hf64, hclt, hcz, hcap, hby⟩ := hg
  have hchar := (Flush_char w).1
  have hnone : (w.Flush).2 = none := by
    rw [hchar]
    constructor
    · show 8 ∣ 8 * w.idx + w.fill
      omega
    · show 8 * w.idx + w.fill ≤ 8 * w.dst.length
      omega
  obtain ⟨hs, hgf⟩ := FlushLoop_stream w.fill w ⟨hf64, hclt, hcz, hcap, hby⟩
    (Nat.div_le_self _ _)
  obtain ⟨hidx, hfill⟩ := FlushLoop_idx_fill w.fill w (Nat.div_le_self _ _)
  have hmin : min (w.fill / 8) (w.dst.length - w.idx) = w.fill / 8 := by
    apply Nat.min_eq_left
    omega
  rw [hmin] at hidx hfill
  have hfz : (FlushLoop w.fill w).fill = 0 := by omega
  have hix : (FlushLoop w.fill w).idx = w.Index / 8 := by
    rw [hidx]
    show w.idx + w.fill / 8 = (8 * w.idx + w.fill) / 8
    omega
  refine ⟨hnone, ?_, ?_, ?_⟩
  · rw [Flush_fst]
    exact FlushLoop_len _ _
  · rw [Flush_fst, ← hix]
    have hsf : (FlushLoop w.fill w).stream = w.stream := hs
    rw [← hsf]
    show bytesBits ((FlushLoop w.fill w).dst.take (FlushLoop w.fill w).idx) =
      bytesBits ((FlushLoop w.fill w).dst.take (FlushLoop w.fill w).idx) ++
        natBits (FlushLoop w.fill w).fill
          ((FlushLoop w.fill w).cache / 2 ^ (64 - (FlushLoop w.fill w).fill))
    rw [hfz]
    show _ = _ ++ ([] : List Bool)
    rw [List.append_nil]
  · rw [Flush_fst]
    exact hgf

theorem slice_prefix (P R : List Bool) (i w : Nat) (h : i + w ≤ P.length) :
    ((P ++ R).drop i).take w = (P.drop i).take w := by
  rw [List.drop_append_of_le_length (by omega),
    List.take_append_of_le_length (by rw [List.length_drop]; omega)]

theorem NewWriter_GoodW (dst : List Nat) (hb : ∀ b ∈ dst, b < 256) : GoodW (NewWriter dst) := by
  refine ⟨?_, ?_, ?_, ?_, ?_⟩
  · show (0 : Nat) ≤ 64
    norm_num
  · show (0 : Nat) < 2 ^ 64
    norm_num
  · show (0 : Nat) % 2 ^ (64 - 0) = 0
    norm_num
  · show 8 * 0 + 0 ≤ 8 * dst.length
    omega
  · exact hb

theorem NewWriter_stream (dst : List Nat) : (NewWriter dst).stream = [] := rfl

theorem signedVal_mod (w v : Nat) : signedVal w (v % 2 ^ w) = signedVal w v := by
  unfold signedVal
  rw [Nat.mod_mod_of_dvd _ (dvd_refl _)]

theorem readFields_values :
    ∀ (fs : List Field) (r : Reader), RWf r → (∀ f ∈ fs, 1 ≤ f.w ∧ f.w ≤ 64) →
      r.idx + totalWidth fs ≤ 8 * r.src.length →
      ((bytesBits r.src).drop r.idx).take (totalWidth fs) = (fs.map fieldBits).flatten →
      readFields r fs = fs.map fun f => f.v % 2 ^ f.w := by
  intro fs
  induction fs with
  | nil =>
    intro r _ _ _ _
    rfl
  | cons f fs ih =>
    intro r hwf hws hfit hcontent
    have hf := hws f (by simp)
    have htw : totalWidth (f :: fs) = f.w + totalWidth fs := by simp [totalWidth]
    rw [htw] at hfit hcontent
    have hflen : (fieldBits f).length = f.w := fieldBits_length f
    have hslice1 : ((bytesBits r.src).drop r.idx).take f.w = fieldBits f := by
      have h1 : ((bytesBits r.src).drop r.idx).take f.w =
          (((bytesBits r.src).drop r.idx).take (f.w + totalWidth fs)).take f.w := by
        rw [List.take_take, Nat.min_eq_left (by omega)]
      rw [h1, hcontent, List.map_cons, List.flatten_cons,
        List.take_append_of_le_length (le_of_eq hflen.symm),
        List.take_of_length_le (le_of_eq hflen)]
    have hcontent2 : ((bytesBits r.src).drop (r.idx + f.w)).take (totalWidth fs) =
        (fs.map fieldBits).flatten := by
      have h2 := congrArg (List.drop f.w) hcontent
      rw [List.drop_take, List.drop_drop, List.map_cons, List.flatten_cons,
        List.drop_left' hflen,
        show f.w + totalWidth fs - f.w = totalWidth fs by omega] at h2
      exact h2
    have hrest : ∀ g ∈ fs, 1 ≤ g.w ∧ g.w ≤ 64 :=
      fun g hgm => hws g (List.mem_cons_of_mem _ hgm)
    show (readField r f).1 :: readFields (readField r f).2 fs = _
    rcases hen : f.en
    · have hrF : readField r f = r.Uint64 f.w := by
        simp only [readField, hen]
      have hfb : fieldBits f = natBits f.w f.v := by
        simp only [fieldBits, hen]
      obtain ⟨hv, hr⟩ := Uint64_spec r f.w hf.1 hf.2 hwf (by omega)
      rw [hrF, hv, hr, List.map_cons]
      congr 1
      · show sliceBE (bytesBits r.src) r.idx f.w = f.v % 2 ^ f.w
        unfold sliceBE
        rw [hslice1, hfb]
        exact bitsVal_natBits _ _
      · exact ih (r.Skip f.w) hwf hrest (by show r.idx + f.w + totalWidth fs ≤ 8 * r.src.length; omega)
          (by show ((bytesBits r.src).drop (r.idx + f.w)).take (totalWidth fs) = _
              exact hcontent2)
    · have hrF : readField r f = r.Uint64Le f.w := by
        simp only [readField, hen]
      have hfb : fieldBits f = leBits f.w f.v := by
        simp only [fieldBits, hen]
      obtain ⟨hv, hr⟩ := Uint64Le_spec r f.w hf.1 hf.2 hwf (by omega)
      rw [hrF, hv, hr, List.map_cons]
      congr 1
      · show sliceLE (bytesBits r.src) r.idx f.w = f.v % 2 ^ f.w
        unfold sliceLE
        rw [hslice1, hfb]
        exact leDecode_leBits _ _
      · exact ih (r.Skip f.w) hwf hrest (by show r.idx + f.w + totalWidth fs ≤ 8 * r.src.length; omega)
          (by show ((bytesBits r.src).drop (r.idx + f.w)).take (totalWidth fs) = _
              exact hcontent2)

theorem readFieldsSigned_values :
    ∀ (fs : List Field) (r : Reader), RWf r → (∀ f ∈ fs, 1 ≤ f.w ∧ f.w ≤ 64) →
      r.idx + totalWidth fs ≤ 8 * r.src.length →
      ((bytesBits r.src).drop r.idx).take (totalWidth fs) = (fs.map fieldBits).flatten →
      readFieldsSigned r fs = fs.map fun f => signedVal f.w f.v := by
  intro fs
  induction fs with
  | nil =>
    intro r _ _ _ _
    rfl
  | cons f fs ih =>
    intro r hwf hws hfit hcontent
    have hf := hws f (by simp)
    have htw : totalWidth (f :: fs) = f.w + totalWidth fs := by simp [totalWidth]
    rw [htw] at hfit hcontent
    have hflen : (fieldBits f).length = f.w := fieldBits_length f
    have hslice1 : ((bytesBits r.src).drop r.idx).take f.w = fieldBits f := by
      have h1 : ((bytesBits r.src).drop r.idx).take f.w =
          (((bytesBits r.src).drop r.idx).take (f.w + totalWidth fs)).take f.w := by
        rw [List.take_take, Nat.min_eq_left (by omega)]
      rw [h1, hcontent, List.map_cons, List.flatten_cons,
        List.take_append_of_le_length (le_of_eq hflen.symm),
        List.take_of_length_le (le_of_eq hflen)]
    have hcontent2 : ((bytesBits r.src).drop (r.idx + f.w)).take (totalWidth fs) =
        (fs.map fieldBits).flatten := by
      have h2 := congrArg (List.drop f.w) hcontent
      rw [List.drop_take, List.drop_drop, List.map_cons, List.flatten_cons,
        List.drop_left' hflen,
        show f.w + totalWidth fs - f.w = totalWidth fs by omega] at h2
      exact h2
    have hrest : ∀ g ∈ fs, 1 ≤ g.w ∧ g.w ≤ 64 :=
      fun g hgm => hws g (List.mem_cons_of_mem _ hgm)
    show toInt64 (readFieldSigned r f).1 ::
        readFieldsSigned (readFieldSigned r f).2 fs = _
    rcases hen : f.en
    · have hrF : readFieldSigned r f = r.Int64 f.w := by
        simp only [readFieldSigned, hen]
      have hfb : fieldBits f = natBits f.w f.v := by
        simp only [fieldBits, hen]
      obtain ⟨hv, hr⟩ := Int64_spec r f.w hf.1 hf.2 hwf (by omega)
      rw [hrF, hv, hr, List.map_cons]
      congr 1
      · show toInt64 (extend (sliceBE (bytesBits r.src) r.idx f.w) f.w) = signedVal f.w f.v
        rw [toInt64_extend _ hf.1 hf.2 (sliceBE_lt _ _ _)]
        unfold sliceBE
        rw [hslice1, hfb, bitsVal_natBits, signedVal_mod]
      · exact ih (r.Skip f.w) hwf hrest (by show r.idx + f.w + totalWidth fs ≤ 8 * r.src.length; omega)
          (by show ((bytesBits r.src).drop (r.idx + f.w)).take (totalWidth fs) = _
              exact hcontent2)
    · have hrF : readFieldSigned r f = r.Int64Le f.w := by
        simp only [readFieldSigned, hen]
      have hfb : fieldBits f = leBits f.w f.v := by
        simp only [fieldBits, hen]
      obtain ⟨hv, hr⟩ := Int64Le_spec r f.w hf.1 hf.2 hwf (by omega)
      rw [hrF, hv, hr, List.map_cons]
      congr 1
      · show toInt64 (extend (sliceLE (bytesBits r.src) r.idx f.w) f.w) = signedVal f.w f.v
        rw [toInt64_extend _ hf.1 hf.2 (sliceLE_lt _ _ _)]
        unfold sliceLE
        rw [hslice1, hfb, leDecode_leBits, signedVal_mod]
      · exact ih (r.Skip f.w) hwf hrest (by show r.idx + f.w + totalWidth fs ≤ 8 * r.src.length; omega)
          (by show ((bytesBits r.src).drop (r.idx + f.w)).take (totalWidth fs) = _
              exact hcontent2)

theorem flatten_fieldBits_length (fs : List Field) :
    ((fs.map fieldBits).flatten).length = totalWidth fs := by
  induction fs with
  | nil => rfl
  | cons f fs ih =>
    rw [List.map_cons, List.flatten_cons, List.length_append, ih, fieldBits_length]
    simp [totalWidth]

theorem NewReader_src_append (src : List Nat) : ∃ E, (NewReader src).src = src ++ E := by
  unfold NewReader
  split
  · exact ⟨[], (List.append_nil src).symm⟩
  · exact ⟨List.replicate (8 - src.length) 0, rfl⟩

/-- C1: full round trip.  Write any sequence of fields (each with an
endianness, a width `1 ≤ w ≤ 64` and a value) with the corresponding put
(`PutUint64` / `PutUint64Le`) into a fresh writer over a buffer of bytes that
is large enough, with the total width byte-aligned; then `Flush` succeeds with
no error, and reading the fields back in order from a fresh reader over the
flushed buffer with the get of the same width and endianness returns every
value masked to its width (`v % 2^w`) for the unsigned gets, and the
sign-correct two's-complement value for the signed gets. -/
theorem C1_round_trip (dst : List Nat) (fs : List Field)
    (hbytes : ∀ b ∈ dst, b < 256)
    (hws : ∀ f ∈ fs, 1 ≤ f.w ∧ f.w ≤ 64)
    (hfit : totalWidth fs ≤ 8 * dst.length)
    (hal : 8 ∣ totalWidth fs) :
    ((putFields (NewWriter dst) fs).Flush).2 = none ∧
      readFields (NewReader ((putFields (NewWriter dst) fs).Flush).1.dst) fs =
        fs.map (fun f => f.v % 2 ^ f.w) ∧
      readFieldsSigned (NewReader ((putFields (NewWriter dst) fs).Flush).1.dst) fs =
        fs.map fun f => signedVal f.w f.v := by
  have hg0 := NewWriter_GoodW dst hbytes
  obtain ⟨hs, hgW, hlenW, hidxW⟩ := putFields_stream fs (NewWriter dst) hg0 hws
    (by show 8 * 0 + 0 + totalWidth fs ≤ 8 * dst.length; omega)
  have hstream : (putFields (NewWriter dst) fs).stream = (fs.map fieldBits).flatten := by
    rw [hs, NewWriter_stream, List.nil_append]
  have hWIdx : (putFields (NewWriter dst) fs).Index = totalWidth fs := by
    rw [hidxW]
    show 8 * 0 + 0 + totalWidth fs = totalWidth fs
    omega
  have hIeq : (putFields (NewWriter dst) fs).Index =
      8 * (putFields (NewWriter dst) fs).idx + (putFields (NewWriter dst) fs).fill := rfl
  have hal8 : 8 ∣ (putFields (NewWriter dst) fs).fill := by
    have hdI : 8 ∣ (putFields (NewWriter dst) fs).Index := by
      rw [hWIdx]
      exact hal
    omega
  obtain ⟨hnone, hlenF, hmat, hgF⟩ := Flush_materialize (putFields (NewWriter dst) fs) hgW hal8
  have hlenD : ((putFields (NewWriter dst) fs).Flush).1.dst.length = dst.length := by
    rw [hlenF, hlenW]
    rfl
  have hDbytes : ∀ b ∈ ((putFields (NewWriter dst) fs).Flush).1.dst, b < 256 :=
    hgF.2.2.2.2
  have hflatlen := flatten_fieldBits_length fs
  have hwf := NewReader_wf ((putFields (NewWriter dst) fs).Flush).1.dst hDbytes
  have hlenR := NewReader_len ((putFields (NewWriter dst) fs).Flush).1.dst
  have h0 := NewReader_idx ((putFields (NewWriter dst) fs).Flush).1.dst
  obtain ⟨E, hE⟩ := NewReader_src_append ((putFields (NewWriter dst) fs).Flush).1.dst
  have hDsplit : ((putFields (NewWriter dst) fs).Flush).1.dst =
      ((putFields (NewWriter dst) fs).Flush).1.dst.take (totalWidth fs / 8) ++
        ((putFields (NewWriter dst) fs).Flush).1.dst.drop (totalWidth fs / 8) :=
    (List.take_append_drop _ _).symm
  have hcontent : ((bytesBits (NewReader ((putFields (NewWriter dst) fs).Flush).1.dst).src).drop
        0).take (totalWidth fs) = (fs.map fieldBits).flatten := by
    rw [List.drop_zero, hE]
    conv_lhs => rw [hDsplit]
    rw [List.append_assoc, bytesBits_append, ← hWIdx, hmat, hstream, hWIdx,
      List.take_left' hflatlen]
  have hfitR : 0 + totalWidth fs ≤
      8 * (NewReader ((putFields (NewWriter dst) fs).Flush).1.dst).src.length := by
    rw [hlenD] at hlenR
    omega
  refine ⟨hnone, ?_, ?_⟩
  · exact readFields_values fs _ hwf hws (by rw [h0]; exact hfitR) (by rw [h0]; exact hcontent)
  · exact readFieldsSigned_values fs _ hwf hws (by rw [h0]; exact hfitR)
      (by rw [h0]; exact hcontent)

/-- Witness for C1 on an 8-byte buffer with four fields of mixed endianness
and widths 12/20/16/16 (total 64 bits): Flush reports no error, the unsigned
reads return the masked values and the signed reads the two's-complement
values (`0xABC` at width 12 is `-1348`, `0xFFFD` at width 16 is `-3`). -/
theorem C1_round_trip_witness :
    ((putFields (NewWriter (List.replicate 8 0))
          [⟨Endian.big, 12, 0xABC⟩, ⟨Endian.little, 20, 0xFEDCB⟩,
            ⟨Endian.big, 16, 0x1234⟩, ⟨Endian.little, 16, 0xFFFD⟩]).Flush).2 = none ∧
      readFields
          (NewReader
            ((putFields (NewWriter (List.replicate 8 0))
                [⟨Endian.big, 12, 0xABC⟩, ⟨Endian.little, 20, 0xFEDCB⟩,
                  ⟨Endian.big, 16, 0x1234⟩, ⟨Endian.little, 16, 0xFFFD⟩]).Flush).1.dst)
          [⟨Endian.big, 12, 0xABC⟩, ⟨Endian.little, 20, 0xFEDCB⟩,
            ⟨Endian.big, 16, 0x1234⟩, ⟨Endian.little, 16, 0xFFFD⟩] =
        [2748, 1043915, 4660, 65533] ∧
      readFieldsSigned
          (NewReader
            ((putFields (NewWriter (List.replicate 8 0))
                [⟨Endian.big, 12, 0xABC⟩, ⟨Endian.little, 20, 0xFEDCB⟩,
                  ⟨Endian.big, 16, 0x1234⟩, ⟨Endian.little, 16, 0xFFFD⟩]).Flush).1.dst)
          [⟨Endian.big, 12, 0xABC⟩, ⟨Endian.little, 20, 0xFEDCB⟩,
            ⟨Endian.big, 16, 0x1234⟩, ⟨Endian.little, 16, 0xFFFD⟩] =
        [-1348, -4661, 4660, -3] := by
  have h := C1_round_trip (List.replicate 8 0)
    [⟨Endian.big, 12, 0xABC⟩, ⟨Endian.little, 20, 0xFEDCB⟩,
      ⟨Endian.big, 16, 0x1234⟩, ⟨Endian.little, 16, 0xFFFD⟩]
    (by decide) (by decide) (by decide) (by decide)
  exact ⟨h.1, h.2.1.trans (by decide), h.2.2.trans (by decide)⟩

end Iobit
